import Mathlib

/-!
Verification of the compose-go model-transformation pipeline.

The Go model value (`any` holding `nil`, scalars, `[]any`, `map[string]any`,
or the provenance `utils.Pair`) is embedded as the inductive `Tree`.
Go mappings are embedded as association lists in insertion order; `tree.Path`
(a dot-separated string of segments) is embedded as `List String`.
-/

namespace CG

abbrev Path := List String

/-- The untyped compose model node: null, scalar (string / int / bool),
sequence, string-keyed mapping, or a provenance `Pair{First, Second}`
whose `Second` tag is embedded as a string. -/
inductive Tree where
  | null : Tree
  | str : String → Tree
  | int : Int → Tree
  | bool : Bool → Tree
  | seq : List Tree → Tree
  | map : List (String × Tree) → Tree
  | pair : Tree → String → Tree
deriving Repr

mutual

def Tree.beq : Tree → Tree → Bool
  | .null, .null => true
  | .str a, .str b => a == b
  | .int a, .int b => a == b
  | .bool a, .bool b => a == b
  | .seq a, .seq b => Tree.beqList a b
  | .map a, .map b => Tree.beqMap a b
  | .pair a s, .pair b t => Tree.beq a b && s == t
  | _, _ => false

def Tree.beqList : List Tree → List Tree → Bool
  | [], [] => true
  | a :: as', b :: bs' => Tree.beq a b && Tree.beqList as' bs'
  | _, _ => false

def Tree.beqMap : List (String × Tree) → List (String × Tree) → Bool
  | [], [] => true
  | (k, a) :: as', (l, b) :: bs' => k == l && Tree.beq a b && Tree.beqMap as' bs'
  | _, _ => false

end

mutual

theorem Tree.beq_iff : ∀ a b : Tree, Tree.beq a b = true ↔ a = b
  | .null, .null => by simp [Tree.beq]
  | .str a, .str b => by simp [Tree.beq]
  | .int a, .int b => by simp [Tree.beq]
  | .bool a, .bool b => by simp [Tree.beq]
  | .seq a, .seq b => by simp [Tree.beq, Tree.beqList_iff a b]
  | .map a, .map b => by simp [Tree.beq, Tree.beqMap_iff a b]
  | .pair a s, .pair b t => by simp [Tree.beq, Tree.beq_iff a b, and_comm]
  | .null, .str _ | .null, .int _ | .null, .bool _ | .null, .seq _ | .null, .map _ | .null, .pair _ _ => by simp [Tree.beq]
  | .str _, .null | .str _, .int _ | .str _, .bool _ | .str _, .seq _ | .str _, .map _ | .str _, .pair _ _ => by simp [Tree.beq]
  | .int _, .null | .int _, .str _ | .int _, .bool _ | .int _, .seq _ | .int _, .map _ | .int _, .pair _ _ => by simp [Tree.beq]
  | .bool _, .null | .bool _, .str _ | .bool _, .int _ | .bool _, .seq _ | .bool _, .map _ | .bool _, .pair _ _ => by simp [Tree.beq]
  | .seq _, .null | .seq _, .str _ | .seq _, .int _ | .seq _, .bool _ | .seq _, .map _ | .seq _, .pair _ _ => by simp [Tree.beq]
  | .map _, .null | .map _, .str _ | .map _, .int _ | .map _, .bool _ | .map _, .seq _ | .map _, .pair _ _ => by simp [Tree.beq]
  | .pair _ _, .null | .pair _ _, .str _ | .pair _ _, .int _ | .pair _ _, .bool _ | .pair _ _, .seq _ | .pair _ _, .map _ => by simp [Tree.beq]

theorem Tree.beqList_iff : ∀ a b : List Tree, Tree.beqList a b = true ↔ a = b
  | [], [] => by simp [Tree.beqList]
  | a :: as', b :: bs' => by
      simp [Tree.beqList, Tree.beq_iff a b, Tree.beqList_iff as' bs']
  | [], _ :: _ => by simp [Tree.beqList]
  | _ :: _, [] => by simp [Tree.beqList]

theorem Tree.beqMap_iff : ∀ a b : List (String × Tree), Tree.beqMap a b = true ↔ a = b
  | [], [] => by simp [Tree.beqMap]
  | (k, a) :: as', (l, b) :: bs' => by
      simp [Tree.beqMap, Tree.beq_iff a b, Tree.beqMap_iff as' bs', Prod.ext_iff, and_assoc]
  | [], _ :: _ => by simp [Tree.beqMap]
  | _ :: _, [] => by simp [Tree.beqMap]

end

instance : DecidableEq Tree := fun a b =>
  decidable_of_iff (Tree.beq a b = true) (Tree.beq_iff a b)

/-- Association-list lookup, mirroring Go `m[k]` returning the value for `k`. -/
def lookupKey (m : List (String × Tree)) (k : String) : Option Tree :=
  match m with
  | [] => none
  | (k', v) :: rest => if k' = k then some v else lookupKey rest k

/-- Association-list update, mirroring Go `m[k] = v`: replaces the value in
place when the key already exists, otherwise appends the new entry. -/
def setKey (m : List (String × Tree)) (k : String) (v : Tree) : List (String × Tree) :=
  match m with
  | [] => [(k, v)]
  | (k', v') :: rest => if k' = k then (k', v) :: rest else (k', v') :: setKey rest k v

/-- Association-list deletion, mirroring Go `delete(m, k)`. -/
def eraseKey (m : List (String × Tree)) (k : String) : List (String × Tree) :=
  match m with
  | [] => []
  | (k', v') :: rest => if k' = k then eraseKey rest k else (k', v') :: eraseKey rest k

theorem lookupKey_setKey_self (m : List (String × Tree)) (k : String) (v : Tree) :
    lookupKey (setKey m k v) k = some v := by
  induction m with
  | nil => simp [setKey, lookupKey]
  | cons hd tl ih =>
      obtain ⟨k', v'⟩ := hd
      by_cases h : k' = k <;> simp [setKey, lookupKey, h, ih]

theorem lookupKey_setKey_ne (m : List (String × Tree)) (k k' : String) (v : Tree)
    (h : k ≠ k') : lookupKey (setKey m k v) k' = lookupKey m k' := by
  induction m with
  | nil => simp [setKey, lookupKey, h]
  | cons hd tl ih =>
      obtain ⟨k₀, v₀⟩ := hd
      by_cases h₀ : k₀ = k
      · subst h₀
        simp [setKey, lookupKey, h, ih]
      · simp [setKey, h₀, lookupKey]
        by_cases h₁ : k₀ = k' <;> simp [h₁, ih]

theorem lookupKey_eraseKey_self (m : List (String × Tree)) (k : String) :
    lookupKey (eraseKey m k) k = none := by
  induction m with
  | nil => simp [eraseKey, lookupKey]
  | cons hd tl ih =>
      obtain ⟨k₀, v₀⟩ := hd
      by_cases h : k₀ = k <;> simp [eraseKey, lookupKey, h, ih]

theorem lookupKey_eraseKey_ne (m : List (String × Tree)) (k k' : String) (h : k ≠ k') :
    lookupKey (eraseKey m k) k' = lookupKey m k' := by
  induction m with
  | nil => simp [eraseKey]
  | cons hd tl ih =>
      obtain ⟨k₀, v₀⟩ := hd
      by_cases h₀ : k₀ = k
      · subst h₀
        have hne : ¬ (k₀ = k') := fun hc => h hc
        simp [eraseKey, lookupKey, hne, ih]
      · simp [eraseKey, h₀, lookupKey]
        by_cases h₁ : k₀ = k' <;> simp [h₁, ih]

/-!
## Provenance overlay: `utils.WrapPair` / `utils.UnwrapPair` (src/unnamed/part_003)
-/

mutual

/-- `utils.wrapPair`: descends through mappings and sequences (extending the
path with the key, resp. the decimal index) and wraps every other value `v`
as `Pair{First: v, Second: callback(path, v)}`. -/
def wrapPair (value : Tree) (path : Path) (cb : Path → Tree → String) : Tree :=
  match value with
  | .map m => .map (wrapPairMap m path cb)
  | .seq xs => .seq (wrapPairSeq xs path 0 cb)
  | v => .pair v (cb path v)

/-- Mapping branch of `wrapPair` (`for k, v := range value`). -/
def wrapPairMap (m : List (String × Tree)) (path : Path) (cb : Path → Tree → String) :
    List (String × Tree) :=
  match m with
  | [] => []
  | (k, v) :: rest => (k, wrapPair v (path ++ [k]) cb) :: wrapPairMap rest path cb

/-- Sequence branch of `wrapPair` (`for i, v := range value`). -/
def wrapPairSeq (xs : List Tree) (path : Path) (i : Nat) (cb : Path → Tree → String) :
    List Tree :=
  match xs with
  | [] => []
  | v :: rest => wrapPair v (path ++ [toString i]) cb :: wrapPairSeq rest path (i + 1) cb

end

/-- `utils.WrapPairWithValue`: wraps every leaf with the constant tag `value`. -/
def WrapPairWithValue (target : Tree) (value : String) : Tree :=
  wrapPair target [] (fun _ _ => value)

mutual

/-- `utils.unwrapPair` (without observation callbacks): strips each `Pair`
to its `First`, descending through mappings and sequences. -/
def unwrapPair (value : Tree) : Tree :=
  match value with
  | .map m => .map (unwrapPairMap m)
  | .seq xs => .seq (unwrapPairSeq xs)
  | .pair f _ => f
  | v => v

/-- Mapping branch of `unwrapPair`. -/
def unwrapPairMap (m : List (String × Tree)) : List (String × Tree) :=
  match m with
  | [] => []
  | (k, v) :: rest => (k, unwrapPair v) :: unwrapPairMap rest

/-- Sequence branch of `unwrapPair`. -/
def unwrapPairSeq (xs : List Tree) : List Tree :=
  match xs with
  | [] => []
  | v :: rest => unwrapPair v :: unwrapPairSeq rest

end

mutual

/-- A tree with no `Pair` node anywhere. -/
def pairFree : Tree → Bool
  | .map m => pairFreeMap m
  | .seq xs => pairFreeSeq xs
  | .pair _ _ => false
  | _ => true

/-- `pairFree` on mapping entries. -/
def pairFreeMap : List (String × Tree) → Bool
  | [] => true
  | (_, v) :: rest => pairFree v && pairFreeMap rest

/-- `pairFree` on sequence elements. -/
def pairFreeSeq : List Tree → Bool
  | [] => true
  | v :: rest => pairFree v && pairFreeSeq rest

end

/-- A plain leaf: neither a mapping, nor a sequence, nor a `Pair`. -/
def isLeaf : Tree → Bool
  | .map _ => false
  | .seq _ => false
  | .pair _ _ => false
  | _ => true

mutual

/-- The documented `Pair` invariant: `Pair`s never nest and a pair's `First`
is always a plain leaf. -/
def firstsAreLeaves : Tree → Bool
  | .map m => firstsAreLeavesMap m
  | .seq xs => firstsAreLeavesSeq xs
  | .pair f _ => isLeaf f
  | _ => true

/-- `firstsAreLeaves` on mapping entries. -/
def firstsAreLeavesMap : List (String × Tree) → Bool
  | [] => true
  | (_, v) :: rest => firstsAreLeaves v && firstsAreLeavesMap rest

/-- `firstsAreLeaves` on sequence elements. -/
def firstsAreLeavesSeq : List Tree → Bool
  | [] => true
  | v :: rest => firstsAreLeaves v && firstsAreLeavesSeq rest

end

mutual

/-- A fully wrapped tree (the shape produced by `WrapPairWithValue` on a
pair-free tree): every leaf position holds a `Pair` whose `First` is a
plain leaf. -/
def wrapped : Tree → Bool
  | .map m => wrappedMap m
  | .seq xs => wrappedSeq xs
  | .pair f _ => isLeaf f
  | _ => false

/-- `wrapped` on mapping entries. -/
def wrappedMap : List (String × Tree) → Bool
  | [] => true
  | (_, v) :: rest => wrapped v && wrappedMap rest

/-- `wrapped` on sequence elements. -/
def wrappedSeq : List Tree → Bool
  | [] => true
  | v :: rest => wrapped v && wrappedSeq rest

end

mutual

/-- Replace the tag (`Second`) of every `Pair` by `g`, keeping everything
else unchanged. -/
def replaceTags (g : String) : Tree → Tree
  | .map m => .map (replaceTagsMap g m)
  | .seq xs => .seq (replaceTagsSeq g xs)
  | .pair f _ => .pair f g
  | v => v

/-- `replaceTags` on mapping entries. -/
def replaceTagsMap (g : String) : List (String × Tree) → List (String × Tree)
  | [] => []
  | (k, v) :: rest => (k, replaceTags g v) :: replaceTagsMap g rest

/-- `replaceTags` on sequence elements. -/
def replaceTagsSeq (g : String) : List Tree → List Tree
  | [] => []
  | v :: rest => replaceTags g v :: replaceTagsSeq g rest

end

mutual

theorem unwrap_wrap : ∀ (t : Tree) (p : Path) (cb : Path → Tree → String),
    pairFree t = true → unwrapPair (wrapPair t p cb) = t
  | .null, p, cb, _ => by simp [wrapPair, unwrapPair]
  | .str _, p, cb, _ => by simp [wrapPair, unwrapPair]
  | .int _, p, cb, _ => by simp [wrapPair, unwrapPair]
  | .bool _, p, cb, _ => by simp [wrapPair, unwrapPair]
  | .seq xs, p, cb, h => by
      simp [wrapPair, unwrapPair, unwrap_wrapSeq xs p 0 cb (by simpa [pairFree] using h)]
  | .map m, p, cb, h => by
      simp [wrapPair, unwrapPair, unwrap_wrapMap m p cb (by simpa [pairFree] using h)]
  | .pair _ _, _, _, h => by simp [pairFree] at h

theorem unwrap_wrapMap : ∀ (m : List (String × Tree)) (p : Path) (cb : Path → Tree → String),
    pairFreeMap m = true → unwrapPairMap (wrapPairMap m p cb) = m
  | [], _, _, _ => by simp [wrapPairMap, unwrapPairMap]
  | (k, v) :: rest, p, cb, h => by
      have h' : pairFree v = true ∧ pairFreeMap rest = true := by
        simpa [pairFreeMap, Bool.and_eq_true] using h
      simp [wrapPairMap, unwrapPairMap, unwrap_wrap v (p ++ [k]) cb h'.1,
        unwrap_wrapMap rest p cb h'.2]

theorem unwrap_wrapSeq : ∀ (xs : List Tree) (p : Path) (i : Nat) (cb : Path → Tree → String),
    pairFreeSeq xs = true → unwrapPairSeq (wrapPairSeq xs p i cb) = xs
  | [], _, _, _, _ => by simp [wrapPairSeq, unwrapPairSeq]
  | v :: rest, p, i, cb, h => by
      have h' : pairFree v = true ∧ pairFreeSeq rest = true := by
        simpa [pairFreeSeq, Bool.and_eq_true] using h
      simp [wrapPairSeq, unwrapPairSeq, unwrap_wrap v (p ++ [toString i]) cb h'.1,
        unwrap_wrapSeq rest p (i + 1) cb h'.2]

end

theorem pairFree_of_isLeaf : ∀ t : Tree, isLeaf t = true → pairFree t = true
  | .null, _ => rfl
  | .str _, _ => rfl
  | .int _, _ => rfl
  | .bool _, _ => rfl
  | .seq _, h => by simp [isLeaf] at h
  | .map _, h => by simp [isLeaf] at h
  | .pair _ _, h => by simp [isLeaf] at h

mutual

theorem pairFree_unwrap : ∀ t : Tree, firstsAreLeaves t = true → pairFree (unwrapPair t) = true
  | .null, _ => rfl
  | .str _, _ => rfl
  | .int _, _ => rfl
  | .bool _, _ => rfl
  | .seq xs, h => by
      simp [unwrapPair, pairFree,
        pairFree_unwrapSeq xs (by simpa [firstsAreLeaves] using h)]
  | .map m, h => by
      simp [unwrapPair, pairFree,
        pairFree_unwrapMap m (by simpa [firstsAreLeaves] using h)]
  | .pair f _, h => by
      simpa [unwrapPair] using pairFree_of_isLeaf f (by simpa [firstsAreLeaves] using h)

theorem pairFree_unwrapMap : ∀ m : List (String × Tree),
    firstsAreLeavesMap m = true → pairFreeMap (unwrapPairMap m) = true
  | [], _ => rfl
  | (k, v) :: rest, h => by
      have h' : firstsAreLeaves v = true ∧ firstsAreLeavesMap rest = true := by
        simpa [firstsAreLeavesMap, Bool.and_eq_true] using h
      simp [unwrapPairMap, pairFreeMap, pairFree_unwrap v h'.1, pairFree_unwrapMap rest h'.2]

theorem pairFree_unwrapSeq : ∀ xs : List Tree,
    firstsAreLeavesSeq xs = true → pairFreeSeq (unwrapPairSeq xs) = true
  | [], _ => rfl
  | v :: rest, h => by
      have h' : firstsAreLeaves v = true ∧ firstsAreLeavesSeq rest = true := by
        simpa [firstsAreLeavesSeq, Bool.and_eq_true] using h
      simp [unwrapPairSeq, pairFreeSeq, pairFree_unwrap v h'.1, pairFree_unwrapSeq rest h'.2]

end

mutual

theorem wrap_unwrap_of_wrapped : ∀ (t : Tree) (p : Path) (g : String),
    wrapped t = true → wrapPair (unwrapPair t) p (fun _ _ => g) = replaceTags g t
  | .null, _, _, h => by simp [wrapped] at h
  | .str _, _, _, h => by simp [wrapped] at h
  | .int _, _, _, h => by simp [wrapped] at h
  | .bool _, _, _, h => by simp [wrapped] at h
  | .seq xs, p, g, h => by
      simp [unwrapPair, wrapPair, replaceTags,
        wrap_unwrap_of_wrappedSeq xs p 0 g (by simpa [wrapped] using h)]
  | .map m, p, g, h => by
      simp [unwrapPair, wrapPair, replaceTags,
        wrap_unwrap_of_wrappedMap m p g (by simpa [wrapped] using h)]
  | .pair f s, p, g, h => by
      have hf : isLeaf f = true := by simpa [wrapped] using h
      cases f with
      | null => simp [unwrapPair, wrapPair, replaceTags]
      | str _ => simp [unwrapPair, wrapPair, replaceTags]
      | int _ => simp [unwrapPair, wrapPair, replaceTags]
      | bool _ => simp [unwrapPair, wrapPair, replaceTags]
      | seq _ => simp [isLeaf] at hf
      | map _ => simp [isLeaf] at hf
      | pair _ _ => simp [isLeaf] at hf

theorem wrap_unwrap_of_wrappedMap : ∀ (m : List (String × Tree)) (p : Path) (g : String),
    wrappedMap m = true → wrapPairMap (unwrapPairMap m) p (fun _ _ => g) = replaceTagsMap g m
  | [], _, _, _ => rfl
  | (k, v) :: rest, p, g, h => by
      have h' : wrapped v = true ∧ wrappedMap rest = true := by
        simpa [wrappedMap, Bool.and_eq_true] using h
      simp [unwrapPairMap, wrapPairMap, replaceTagsMap,
        wrap_unwrap_of_wrapped v (p ++ [k]) g h'.1,
        wrap_unwrap_of_wrappedMap rest p g h'.2]

theorem wrap_unwrap_of_wrappedSeq : ∀ (xs : List Tree) (p : Path) (i : Nat) (g : String),
    wrappedSeq xs = true → wrapPairSeq (unwrapPairSeq xs) p i (fun _ _ => g) = replaceTagsSeq g xs
  | [], _, _, _, _ => rfl
  | v :: rest, p, i, g, h => by
      have h' : wrapped v = true ∧ wrappedSeq rest = true := by
        simpa [wrappedSeq, Bool.and_eq_true] using h
      simp [unwrapPairSeq, wrapPairSeq, replaceTagsSeq,
        wrap_unwrap_of_wrapped v (p ++ [toString i]) g h'.1,
        wrap_unwrap_of_wrappedSeq rest p (i + 1) g h'.2]

end

/-- C3 (amended). For every pair-free tree `T` and tag `g`,
`UnwrapPair (WrapPairWithValue T g) = T`; for every tree satisfying the
documented `Pair` invariant (a pair's `First` is always a plain leaf) the
result of `UnwrapPair` contains no `Pair` node; and for every fully wrapped
tree `P`, wrapping `UnwrapPair P` with tag `g` equals `P` with every leaf's
tag replaced by `g`. (The second conjunct of the original claim, stated for
arbitrary trees, fails on nested `Pair`s — see the counterexample.) -/
theorem C3_wrap_unwrap :
    (∀ (t : Tree) (g : String), pairFree t = true →
        unwrapPair (WrapPairWithValue t g) = t) ∧
    (∀ t : Tree, firstsAreLeaves t = true → pairFree (unwrapPair t) = true) ∧
    (∀ (t : Tree) (g : String), wrapped t = true →
        WrapPairWithValue (unwrapPair t) g = replaceTags g t) :=
  ⟨fun t g h => unwrap_wrap t [] (fun _ _ => g) h,
   fun t h => pairFree_unwrap t h,
   fun t g h => wrap_unwrap_of_wrapped t [] g h⟩

/-- C3 counterexample: `UnwrapPair` does not recurse into a pair's `First`,
so on the (invariant-violating) nested pair
`Pair{First: Pair{First: "x", Second: "t1"}, Second: "t2"}` its result still
contains a `Pair` node, refuting "the result of UnwrapPair never contains a
Pair node" for arbitrary trees. -/
theorem C3_counterexample :
    pairFree (unwrapPair (Tree.pair (Tree.pair (Tree.str "x") "t1") "t2")) = false := by
  simp [unwrapPair, pairFree]

/-- C3 witness: the amended theorem applied at concrete trees. -/
theorem C3_wrap_unwrap_witness :
    unwrapPair (WrapPairWithValue
      (Tree.map [("a", Tree.str "x"), ("e", Tree.seq [Tree.int 3, Tree.null])]) "ctx") =
      Tree.map [("a", Tree.str "x"), ("e", Tree.seq [Tree.int 3, Tree.null])] ∧
    pairFree (unwrapPair (Tree.map [("b", Tree.pair (Tree.str "2") "ctx1")])) = true ∧
    WrapPairWithValue (unwrapPair (Tree.map [("b", Tree.pair (Tree.str "2") "ctx1")])) "g" =
      replaceTags "g" (Tree.map [("b", Tree.pair (Tree.str "2") "ctx1")]) :=
  ⟨C3_wrap_unwrap.1 (Tree.map [("a", Tree.str "x"), ("e", Tree.seq [Tree.int 3, Tree.null])])
      "ctx" (by simp [pairFree, pairFreeMap, pairFreeSeq]),
   C3_wrap_unwrap.2.1 (Tree.map [("b", Tree.pair (Tree.str "2") "ctx1")])
      (by simp [firstsAreLeaves, firstsAreLeavesMap, isLeaf]),
   C3_wrap_unwrap.2.2 (Tree.map [("b", Tree.pair (Tree.str "2") "ctx1")]) "g"
      (by simp [wrapped, wrappedMap, isLeaf])⟩

/-!
## Scoped named mappings: `LookupNamedMappings` (src/interpolation/namedmappings.go)
-/

/-- A `template.NamedMappings` table: mapping name → named mapping. The
mapping functions themselves are opaque values of `α` here. -/
def NamedMappings (α : Type) : Type := String → Option α

/-- Modelled from the spec: `template.NamedMappings.Merge` (the `template`
package is not among the sources). Per the source comments on its call
sites ("the early resolved named mappings take priority", "longer prefix
match takes priority"), an entry of the receiver wins over the argument's
entry of the same name. -/
def nmMerge {α : Type} (base other : NamedMappings α) : NamedMappings α :=
  fun name =>
    match base name with
    | some v => some v
    | none => other name

/-- The empty `template.NamedMappings{}`. -/
def nmEmpty {α : Type} : NamedMappings α := fun _ => none

/-- The loop of `LookupNamedMappings`: walk the parts of the query path,
extending `currentPath` one part at a time; a table found at the longer
prefix is merged on top of the accumulated mappings. -/
def lookupNMAux {α : Type} (nm : Path → Option (NamedMappings α)) (acc : NamedMappings α)
    (cur : Path) : List String → NamedMappings α
  | [] => acc
  | part :: rest =>
      let cur' := cur ++ [part]
      let acc' := match nm cur' with
        | some current => nmMerge current acc
        | none => acc
      lookupNMAux nm acc' cur' rest

/-- `interpolation.LookupNamedMappings`: starts from the global (empty path)
table and folds the tables at ever longer prefixes of `path` over it. -/
def LookupNamedMappings {α : Type} (nm : Path → Option (NamedMappings α)) (p : Path) :
    NamedMappings α :=
  let init : NamedMappings α :=
    match nm [] with
    | some current => current
    | none => nmEmpty
  lookupNMAux nm init [] p

/-- The non-empty prefixes of `cur ++ rest` that extend `cur`, listed
deepest first. -/
def descPrefixes (cur : Path) : List String → List Path
  | [] => []
  | part :: rest => descPrefixes (cur ++ [part]) rest ++ [cur ++ [part]]

/-- The spec's description of scope layering: for a site at path `p` the
effective entry for `name` comes from the deepest prefix of `p` (the empty
global path last) whose registered table defines `name`. -/
def effectiveLookup {α : Type} (nm : Path → Option (NamedMappings α)) (p : Path)
    (name : String) : Option α :=
  (descPrefixes [] p ++ [[]]).findSome? fun q =>
    match nm q with
    | some t => t name
    | none => none

theorem lookupNMAux_spec {α : Type} (nm : Path → Option (NamedMappings α)) :
    ∀ (rest : List String) (acc : NamedMappings α) (cur : Path) (name : String),
      lookupNMAux nm acc cur rest name =
        ((descPrefixes cur rest).findSome? fun q =>
          match nm q with
          | some t => t name
          | none => none).or (acc name) := by
  intro rest
  induction rest with
  | nil => intro acc cur name; simp [lookupNMAux, descPrefixes]
  | cons part rest ih =>
      intro acc cur name
      simp only [lookupNMAux, descPrefixes, List.findSome?_append, ih]
      cases hq : nm (cur ++ [part]) with
      | none => simp [hq]
      | some t =>
          cases ht : t name with
          | none => simp [hq, ht, nmMerge]
          | some v => simp [hq, ht, nmMerge, Option.or_assoc]

/-- C4: for every scoped named-mappings table and path `p`,
`LookupNamedMappings` returns, for each mapping name, the entry of the
table registered at the longest prefix of `p` defining that name: the
global (empty-path) table is the base layer and each deeper prefix shadows
all shallower ones for the names it defines. -/
theorem C4_lookup_scoping {α : Type} (nm : Path → Option (NamedMappings α)) (p : Path)
    (name : String) : LookupNamedMappings nm p name = effectiveLookup nm p name := by
  simp only [LookupNamedMappings, effectiveLookup, lookupNMAux_spec, List.findSome?_append]
  cases h : (descPrefixes [] p).findSome? fun q =>
      match nm q with
      | some t => t name
      | none => none with
  | some v => simp [h]
  | none =>
      simp only [h, Option.none_or]
      cases h0 : nm [] with
      | none => simp [nmEmpty, List.findSome?, h0]
      | some t =>
          simp only [List.findSome?, h0]
          cases ht : t name <;> simp [ht]

/-!
## Resource import on include: `importResource` (src/loader/include.go)
-/

/-- The entry loop of `importResource` over the imported mapping: a name
already present in `dst` is compared after `UnwrapPair` — equal bodies are
skipped (the existing entry is kept), differing bodies are the conflict
error; fresh names are inserted. -/
def importEntries (key : String) (dst : List (String × Tree)) :
    List (String × Tree) → Except String (List (String × Tree))
  | [] => .ok dst
  | (name, a) :: rest =>
      match lookupKey dst name with
      | some conflict =>
          if unwrapPair a = unwrapPair conflict then importEntries key dst rest
          else .error (key ++ "." ++ name ++ " conflicts with imported resource")
      | none => importEntries key (setKey dst name a) rest

/-- `loader.importResource(source, target, key)`: imports `source[key]`'s
entries into `target[key]` and reports the first conflict. The Go type
assertions `.(map[string]any)` panic on non-mapping resources; those
panics are embedded as distinct errors. -/
def importResource (source target : List (String × Tree)) (key : String) :
    Except String (List (String × Tree)) :=
  match lookupKey source key with
  | none => .ok target
  | some .null => .ok target
  | some (.map fromM) =>
      (fun dst => setKey target key (.map dst)) <$>
        (match lookupKey target key with
          | some (.map toM) => importEntries key toM fromM
          | none => importEntries key [] fromM
          | some _ => .error "interface conversion: target resource is not a mapping")
  | some _ => .error "interface conversion: imported resource is not a mapping"

/-- Whether the imported entry `(name, body)` conflicts with the existing
entries `toM`: same name present with a body that differs after stripping
provenance `Pair`s from both sides. -/
def conflictsWith (toM : List (String × Tree)) (name : String) (body : Tree) : Prop :=
  ∃ c, lookupKey toM name = some c ∧ unwrapPair body ≠ unwrapPair c

instance (toM : List (String × Tree)) (name : String) (body : Tree) :
    Decidable (conflictsWith toM name body) := by
  unfold conflictsWith
  cases lookupKey toM name with
  | none => exact .isFalse (by simp)
  | some c => simpa using inferInstanceAs (Decidable (unwrapPair body ≠ unwrapPair c))

theorem importEntries_spec (key : String) (toM : List (String × Tree)) :
    ∀ (rest : List (String × Tree)) (dst : List (String × Tree)),
      (rest.map Prod.fst).Nodup →
      (∀ n, n ∈ rest.map Prod.fst → lookupKey dst n = lookupKey toM n) →
      ((∀ e, importEntries key dst rest = .error e →
          ∃ na ∈ rest, conflictsWith toM na.1 na.2 ∧
            e = key ++ "." ++ na.1 ++ " conflicts with imported resource")
      ∧ ((∃ na ∈ rest, conflictsWith toM na.1 na.2) →
          ∃ e, importEntries key dst rest = .error e)
      ∧ (∀ dst', importEntries key dst rest = .ok dst' →
          ∀ n, lookupKey dst' n = (lookupKey dst n).or (lookupKey rest n))) := by
  intro rest
  induction rest with
  | nil =>
      intro dst _ _
      refine ⟨?_, ?_, ?_⟩
      · intro e h; simp [importEntries] at h
      · rintro ⟨na, hna, _⟩; simp at hna
      · intro dst' h n
        simp [importEntries] at h
        subst h
        simp [lookupKey]
  | cons hd rest ih =>
      intro dst hnd hto
      obtain ⟨name, a⟩ := hd
      have hname : lookupKey dst name = lookupKey toM name := hto name (by simp)
      have hnd2 : (name :: rest.map Prod.fst).Nodup := by simpa using hnd
      have hnd' : (rest.map Prod.fst).Nodup := hnd2.of_cons
      have hnmem : name ∉ rest.map Prod.fst := (List.nodup_cons.mp hnd2).1
      cases hc : lookupKey toM name with
      | some conflict =>
          have hstep : importEntries key dst ((name, a) :: rest) =
              (if unwrapPair a = unwrapPair conflict then importEntries key dst rest
               else .error (key ++ "." ++ name ++ " conflicts with imported resource")) := by
            rw [importEntries, hname, hc]
          by_cases heq : unwrapPair a = unwrapPair conflict
          · rw [if_pos heq] at hstep
            have ihh := ih dst hnd' (fun n hn => hto n (by simp [hn]))
            refine ⟨?_, ?_, ?_⟩
            · intro e h
              rw [hstep] at h
              obtain ⟨na, hna, hcf, he⟩ := ihh.1 e h
              exact ⟨na, by simp [hna], hcf, he⟩
            · rintro ⟨na, hna, hcf⟩
              simp only [List.mem_cons] at hna
              rcases hna with hna | hna
              · exfalso
                obtain ⟨c, hc2, hne⟩ := hcf
                subst hna
                simp only at hc2 hne
                rw [hc] at hc2
                cases Option.some.inj hc2
                exact hne heq
              · obtain ⟨e, he⟩ := ihh.2.1 ⟨na, hna, hcf⟩
                exact ⟨e, by rw [hstep]; exact he⟩
            · intro dst' h n
              rw [hstep] at h
              have hmain := ihh.2.2 dst' h n
              rw [hmain]
              by_cases hn : n = name
              · subst hn
                rw [hname, hc]
                simp [lookupKey]
              · rw [show lookupKey ((name, a) :: rest) n = lookupKey rest n from by
                  rw [lookupKey, if_neg (fun hx => hn hx.symm)]]
          · rw [if_neg heq] at hstep
            refine ⟨?_, ?_, ?_⟩
            · intro e h
              rw [hstep] at h
              exact ⟨(name, a), by simp, ⟨conflict, hc, heq⟩,
                by simpa using (Except.error.inj h).symm⟩
            · intro _
              exact ⟨key ++ "." ++ name ++ " conflicts with imported resource", hstep⟩
            · intro dst' h
              rw [hstep] at h
              exact absurd h (by simp)
      | none =>
          have hstep : importEntries key dst ((name, a) :: rest) =
              importEntries key (setKey dst name a) rest := by
            rw [importEntries, hname, hc]
          have hto2 : ∀ n, n ∈ rest.map Prod.fst →
              lookupKey (setKey dst name a) n = lookupKey toM n := by
            intro n hn
            have hne : name ≠ n := fun hx => hnmem (hx ▸ hn)
            rw [lookupKey_setKey_ne dst name n a hne]
            exact hto n (by simp [hn])
          have ihh := ih (setKey dst name a) hnd' hto2
          refine ⟨?_, ?_, ?_⟩
          · intro e h
            rw [hstep] at h
            obtain ⟨na, hna, hcf, he⟩ := ihh.1 e h
            exact ⟨na, by simp [hna], hcf, he⟩
          · rintro ⟨na, hna, hcf⟩
            simp only [List.mem_cons] at hna
            rcases hna with hna | hna
            · exfalso
              obtain ⟨c, hc2, _⟩ := hcf
              subst hna
              simp only at hc2
              rw [hc] at hc2
              exact Option.noConfusion hc2
            · obtain ⟨e, he⟩ := ihh.2.1 ⟨na, hna, hcf⟩
              exact ⟨e, by rw [hstep]; exact he⟩
          · intro dst' h n
            rw [hstep] at h
            have hmain := ihh.2.2 dst' h n
            rw [hmain]
            by_cases hn : n = name
            · subst hn
              rw [lookupKey_setKey_self, hname, hc]
              simp [lookupKey]
            · rw [lookupKey_setKey_ne dst name n a (fun hx => hn hx.symm)]
              rw [show lookupKey ((name, a) :: rest) n = lookupKey rest n from by
                rw [lookupKey, if_neg (fun hx => hn hx.symm)]]

/-- C7: importing an included resource kind into the top-level model fails
with `"<kind>.<name> conflicts with imported resource"` exactly when an
imported entry shares its name with an existing entry of that kind and the
two bodies differ after stripping provenance `Pair`s from both sides; when
the unwrapped bodies are equal the import succeeds keeping the existing
entry, and names present on only one side are retained. -/
theorem C7_importResource (source target : List (String × Tree)) (key : String)
    (fromM toM : List (String × Tree))
    (hs : lookupKey source key = some (.map fromM))
    (ht : lookupKey target key = some (.map toM) ∨ (lookupKey target key = none ∧ toM = []))
    (hnd : (fromM.map Prod.fst).Nodup) :
    ((∃ e, importResource source target key = .error e) ↔
      ∃ na ∈ fromM, conflictsWith toM na.1 na.2) ∧
    (∀ e, importResource source target key = .error e →
      ∃ na ∈ fromM, conflictsWith toM na.1 na.2 ∧
        e = key ++ "." ++ na.1 ++ " conflicts with imported resource") ∧
    (∀ res, importResource source target key = .ok res →
      ∃ dst', res = setKey target key (.map dst') ∧
        ∀ n, lookupKey dst' n = (lookupKey toM n).or (lookupKey fromM n)) := by
  have hspec := importEntries_spec key toM fromM toM hnd (fun n _ => rfl)
  have hres : importResource source target key =
      (fun dst => setKey target key (.map dst)) <$> importEntries key toM fromM := by
    rcases ht with ht | ⟨ht, htm⟩
    · rw [importResource, hs, ht]
    · subst htm
      rw [importResource, hs, ht]
  rw [hres]
  refine ⟨⟨?_, ?_⟩, ?_, ?_⟩
  · rintro ⟨e, he⟩
    cases himp : importEntries key toM fromM with
    | error e0 =>
        obtain ⟨na, hna, hcf, _⟩ := hspec.1 e0 himp
        exact ⟨na, hna, hcf⟩
    | ok dst' => rw [himp] at he; simp [Except.map] at he
  · intro hconf
    obtain ⟨e, he⟩ := hspec.2.1 hconf
    exact ⟨e, by rw [he]; rfl⟩
  · intro e he
    cases himp : importEntries key toM fromM with
    | error e0 =>
        rw [himp] at he
        obtain ⟨na, hna, hcf, he0⟩ := hspec.1 e0 himp
        refine ⟨na, hna, hcf, ?_⟩
        simp [Except.map] at he
        exact he.symm.trans he0
    | ok dst' => rw [himp] at he; simp [Except.map] at he
  · intro res hok
    cases himp : importEntries key toM fromM with
    | error e0 => rw [himp] at hok; simp [Except.map] at hok
    | ok dst' =>
        rw [himp] at hok
        simp [Except.map] at hok
        refine ⟨dst', hok.symm, fun n => ?_⟩
        have := hspec.2.2 dst' himp n
        rw [this]
  -- the remaining rewrite: lookups in `toM` coincide with the accumulator
  -- start (`dst = toM`), already syntactically identical

/-- C7 witness: a two-entry import with one equal-body name clash and one
fresh name succeeds and retains both sides. -/
theorem C7_importResource_witness :
    ((∃ e, importResource
        [("services", Tree.map [("api", Tree.map [("image", Tree.str "a")]),
                                ("db", Tree.map [("image", Tree.str "p")])])]
        [("services", Tree.map [("api", Tree.map [("image", Tree.str "a")])])]
        "services" = .error e) ↔
      ∃ na ∈ [("api", Tree.map [("image", Tree.str "a")]),
              ("db", Tree.map [("image", Tree.str "p")])],
        conflictsWith [("api", Tree.map [("image", Tree.str "a")])] na.1 na.2) ∧
    (∀ e, importResource
        [("services", Tree.map [("api", Tree.map [("image", Tree.str "a")]),
                                ("db", Tree.map [("image", Tree.str "p")])])]
        [("services", Tree.map [("api", Tree.map [("image", Tree.str "a")])])]
        "services" = .error e →
      ∃ na ∈ [("api", Tree.map [("image", Tree.str "a")]),
              ("db", Tree.map [("image", Tree.str "p")])],
        conflictsWith [("api", Tree.map [("image", Tree.str "a")])] na.1 na.2 ∧
          e = "services" ++ "." ++ na.1 ++ " conflicts with imported resource") ∧
    (∀ res, importResource
        [("services", Tree.map [("api", Tree.map [("image", Tree.str "a")]),
                                ("db", Tree.map [("image", Tree.str "p")])])]
        [("services", Tree.map [("api", Tree.map [("image", Tree.str "a")])])]
        "services" = .ok res →
      ∃ dst', res = setKey [("services", Tree.map [("api", Tree.map [("image", Tree.str "a")])])]
          "services" (.map dst') ∧
        ∀ n, lookupKey dst' n =
          (lookupKey [("api", Tree.map [("image", Tree.str "a")])] n).or
            (lookupKey [("api", Tree.map [("image", Tree.str "a")]),
                        ("db", Tree.map [("image", Tree.str "p")])] n)) :=
  C7_importResource
    [("services", Tree.map [("api", Tree.map [("image", Tree.str "a")]),
                            ("db", Tree.map [("image", Tree.str "p")])])]
    [("services", Tree.map [("api", Tree.map [("image", Tree.str "a")])])]
    "services"
    [("api", Tree.map [("image", Tree.str "a")]), ("db", Tree.map [("image", Tree.str "p")])]
    [("api", Tree.map [("image", Tree.str "a")])]
    (by simp [lookupKey]) (Or.inl (by simp [lookupKey])) (by simp)

/-!
## Value subsets: `extractValueSubset` (src/loader/interpolate.go)
-/

/-- Navigate `subset` along the mapping keys `d` and set key `k` there to
`v`. This mirrors a write through the Go `dst` pointer, which always points
at the nested mapping of `subset` reached by the keys along which the loop
has descended (each created as a mapping, so the navigation never fails in
the mirrored code). -/
def setAtPath (m : List (String × Tree)) : List String → String → Tree → List (String × Tree)
  | [], k, v => setKey m k v
  | d :: ds, k, v =>
      match lookupKey m d with
      | some (.map inner) => setKey m d (.map (setAtPath inner ds k v))
      | _ => m

/-- `for k, v := range next { dst[k] = v }`: copy the entries of `next`
into the nested mapping of `subset` at `d`. -/
def copyEntries (next : List (String × Tree)) (subset : List (String × Tree))
    (d : List String) : List (String × Tree) :=
  match next with
  | [] => subset
  | (k, v) :: rest => copyEntries rest (setAtPath subset d k v) d

/-- The inner loop of `extractValueSubset` for one sub-path. `src` is the
current source mapping, `d` the keys along which the Go `dst` pointer has
descended inside `subset`, and `first` the first segment of the sub-path
(`parts[0]`), deleted from the subset root when a segment is missing.
A mapping at the last segment has its entries copied; a mapping at an
inner segment is descended into; a sequence is copied shallowly and any
other value stored as is (for these the loop continues with `src` and the
`dst` pointer unchanged). -/
def extractLoop (src : List (String × Tree)) (subset : List (String × Tree))
    (d : List String) (first : String) : List String → List (String × Tree)
  | [] => subset
  | part :: rest =>
      match lookupKey src part with
      | none => eraseKey subset first
      | some (.map next) =>
          let subset1 := setAtPath subset d part (.map [])
          match rest with
          | [] => copyEntries next subset1 (d ++ [part])
          | _ => extractLoop next subset1 (d ++ [part]) first rest
      | some (.seq xs) => extractLoop src (setAtPath subset d part (.seq xs)) d first rest
      | some v => extractLoop src (setAtPath subset d part v) d first rest

/-- The outer loop of `extractValueSubset` over the listed sub-paths.
(Sub-paths are non-empty in every call site; an empty sub-path leaves the
subset unchanged, matching a loop over zero segments.) -/
def extractAll (source : List (String × Tree)) (subset : List (String × Tree)) :
    List Path → List (String × Tree)
  | [] => subset
  | p :: rest =>
      match p with
      | [] => extractAll source subset rest
      | first :: _ => extractAll source (extractLoop source subset [] first p) rest

/-- `loader.extractValueSubset(value, subpathes...)`: a projection of the
mapping `value` onto the listed sub-paths; a non-mapping value yields the
nil mapping. -/
def extractValueSubset (value : Tree) (subpathes : List Path) : List (String × Tree) :=
  match value with
  | .map source => extractAll source [] subpathes
  | _ => []

theorem lookupKey_setAtPath_cons_ne (m : List (String × Tree)) (d0 : String)
    (ds : List String) (k k' : String) (v : Tree) (h : d0 ≠ k') :
    lookupKey (setAtPath m (d0 :: ds) k v) k' = lookupKey m k' := by
  rw [setAtPath]
  cases hl : lookupKey m d0 with
  | none => rfl
  | some w =>
      cases w with
      | map inner => exact lookupKey_setKey_ne m d0 k' (.map (setAtPath inner ds k v)) h
      | null => rfl
      | str _ => rfl
      | int _ => rfl
      | bool _ => rfl
      | seq _ => rfl
      | pair _ _ => rfl

theorem lookupKey_copyEntries_ne (d0 : String) (ds : List String) (k' : String)
    (h : d0 ≠ k') :
    ∀ (next subset : List (String × Tree)),
      lookupKey (copyEntries next subset (d0 :: ds)) k' = lookupKey subset k' := by
  intro next
  induction next with
  | nil => intro subset; rfl
  | cons hd rest ih =>
      intro subset
      obtain ⟨k, v⟩ := hd
      rw [copyEntries, ih, lookupKey_setAtPath_cons_ne _ _ _ _ _ _ h]

theorem lookupKey_scaleLoop_preserved (svc : List (String × Tree))
    (s : List (String × Tree)) (k' : String) (h : k' ≠ "scale") :
    lookupKey (extractLoop svc s [] "scale" ["scale"]) k' = lookupKey s k' := by
  have hne : ¬ ("scale" = k') := fun hx => h hx.symm
  cases hl : lookupKey svc "scale" with
  | none =>
      simp only [extractLoop, hl]
      exact lookupKey_eraseKey_ne s "scale" k' hne
  | some v =>
      cases v with
      | map next =>
          simp only [extractLoop, hl, List.nil_append, setAtPath]
          rw [lookupKey_copyEntries_ne "scale" [] k' hne]
          exact lookupKey_setKey_ne s "scale" k' (.map []) hne
      | seq xs =>
          simp only [extractLoop, hl, setAtPath]
          exact lookupKey_setKey_ne s "scale" k' (.seq xs) hne
      | null =>
          simp only [extractLoop, hl, setAtPath]
          exact lookupKey_setKey_ne s "scale" k' .null hne
      | str a =>
          simp only [extractLoop, hl, setAtPath]
          exact lookupKey_setKey_ne s "scale" k' (.str a) hne
      | int a =>
          simp only [extractLoop, hl, setAtPath]
          exact lookupKey_setKey_ne s "scale" k' (.int a) hne
      | bool a =>
          simp only [extractLoop, hl, setAtPath]
          exact lookupKey_setKey_ne s "scale" k' (.bool a) hne
      | pair f t =>
          simp only [extractLoop, hl, setAtPath]
          exact lookupKey_setKey_ne s "scale" k' (.pair f t) hne

/-!
## `${service[scale]}`: `serviceMapping` (src/loader/namedmappings.go)
-/

/-- Modelled from the spec: `types.ServiceConfig.GetScale` (the `types`
package and the `Transform` decode step are not among the sources) —
`scale` is `deploy.replicas` when set, otherwise the `scale` field,
defaulting to 1. -/
def getScale (m : List (String × Tree)) : Int :=
  match (match lookupKey m "deploy" with
         | some (.map dm) => lookupKey dm "replicas"
         | _ => none) with
  | some (.int n) => n
  | _ =>
      match lookupKey m "scale" with
      | some (.int n) => n
      | _ => 1

/-- The `"scale"` entry of `loader.serviceMapping`: extract the
`{scale, deploy.replicas}` subset of the service, decode it and render the
resulting scale with `fmt.Sprintf("%v", ...)` (decimal). The interpolation
step between extraction and decoding is the identity on the variable-free
integer fields this claim is about. -/
def serviceScale (service : Tree) : String :=
  toString (getScale (extractValueSubset service [["scale"], ["deploy", "replicas"]]))

/-- C9: for every service node, `${service[scale]}` resolves to the decimal
string of `deploy.replicas` when that field is set, else the decimal string
of the `scale` field when set, and `"1"` when neither is present. -/
theorem C9_service_scale (svc : List (String × Tree)) :
    (∀ (dm : List (String × Tree)) (n : Int),
        lookupKey svc "deploy" = some (.map dm) →
        lookupKey dm "replicas" = some (.int n) →
        serviceScale (.map svc) = toString n) ∧
    (∀ n : Int,
        (lookupKey svc "deploy" = none ∨
          ∃ dm, lookupKey svc "deploy" = some (.map dm) ∧ lookupKey dm "replicas" = none) →
        lookupKey svc "scale" = some (.int n) →
        serviceScale (.map svc) = toString n) ∧
    ((lookupKey svc "deploy" = none ∨
        ∃ dm, lookupKey svc "deploy" = some (.map dm) ∧ lookupKey dm "replicas" = none) →
      lookupKey svc "scale" = none →
      serviceScale (.map svc) = "1") := by
  have hup : ∀ s₁ : List (String × Tree),
      extractAll svc s₁ [["deploy", "replicas"]] = extractLoop svc s₁ [] "deploy" ["deploy", "replicas"] := by
    intro s₁; rw [extractAll, extractAll]
  refine ⟨?_, ?_, ?_⟩
  · intro dm n hd hr
    simp only [serviceScale, extractValueSubset, extractAll, hup]
    rw [show extractLoop svc (extractLoop svc [] [] "scale" ["scale"]) [] "deploy"
          ["deploy", "replicas"] =
        setKey (setKey (extractLoop svc [] [] "scale" ["scale"]) "deploy" (.map []))
          "deploy" (.map [("replicas", Tree.int n)]) from ?_]
    · rw [getScale]
      simp [lookupKey_setKey_self, lookupKey, toString]
    · simp only [extractLoop, hd, setAtPath, List.nil_append]
      simp only [extractLoop, hr, setAtPath, lookupKey_setKey_self, setKey]
  · intro n hdep hs
    have hs1 : extractLoop svc [] [] "scale" ["scale"] = [("scale", Tree.int n)] := by
      simp only [extractLoop, hs, setAtPath, setKey]
    simp only [serviceScale, extractValueSubset, extractAll, hup, hs1]
    rcases hdep with hd | ⟨dm, hd, hr⟩
    · rw [show extractLoop svc [("scale", Tree.int n)] [] "deploy" ["deploy", "replicas"] =
          eraseKey [("scale", Tree.int n)] "deploy" from by
        simp only [extractLoop, hd]]
      rw [getScale]
      simp [eraseKey, lookupKey, toString]
    · rw [show extractLoop svc [("scale", Tree.int n)] [] "deploy" ["deploy", "replicas"] =
          eraseKey (setKey [("scale", Tree.int n)] "deploy" (.map [])) "deploy" from by
        simp only [extractLoop, hd, setAtPath, List.nil_append]
        simp only [extractLoop, hr]]
      rw [getScale]
      simp [eraseKey, setKey, lookupKey, toString]
  · intro hdep hs
    have hs1 : extractLoop svc [] [] "scale" ["scale"] = [] := by
      simp only [extractLoop, hs, eraseKey]
    simp only [serviceScale, extractValueSubset, extractAll, hup, hs1]
    rcases hdep with hd | ⟨dm, hd, hr⟩
    · rw [show extractLoop svc [] [] "deploy" ["deploy", "replicas"] =
          eraseKey [] "deploy" from by simp only [extractLoop, hd]]
      rw [getScale]
      simp only [eraseKey, lookupKey]
      rfl
    · rw [show extractLoop svc [] [] "deploy" ["deploy", "replicas"] =
          eraseKey (setKey [] "deploy" (.map [])) "deploy" from by
        simp only [extractLoop, hd, setAtPath, List.nil_append]
        simp only [extractLoop, hr]]
      rw [getScale]
      simp only [eraseKey, setKey, lookupKey]
      rfl

/-- C9 witness: the three cases at concrete services
(`deploy.replicas: 3` beats `scale: 5`; `scale: 5` alone; neither). -/
theorem C9_service_scale_witness :
    serviceScale (.map [("scale", Tree.int 5),
      ("deploy", Tree.map [("replicas", Tree.int 3)])]) = toString (3 : Int) ∧
    serviceScale (.map [("scale", Tree.int 5), ("image", Tree.str "i")]) = toString (5 : Int) ∧
    serviceScale (.map [("image", Tree.str "i")]) = "1" :=
  ⟨(C9_service_scale [("scale", Tree.int 5),
        ("deploy", Tree.map [("replicas", Tree.int 3)])]).1
      [("replicas", Tree.int 3)] 3 (by simp [lookupKey]) (by simp [lookupKey]),
   (C9_service_scale [("scale", Tree.int 5), ("image", Tree.str "i")]).2.1
      5 (Or.inl (by simp [lookupKey])) (by simp [lookupKey]),
   (C9_service_scale [("image", Tree.str "i")]).2.2
      (Or.inl (by simp [lookupKey])) (by simp [lookupKey])⟩

/-!
## Characterisation of `extractValueSubset` (claim C8)
-/

/-- Chain lookup along a non-empty path: intermediate keys must hold
mappings, the final key may hold anything. -/
def lookupChain (m : List (String × Tree)) : List String → Option Tree
  | [] => none
  | [k] => lookupKey m k
  | k :: rest =>
      match lookupKey m k with
      | some (.map inner) => lookupChain inner rest
      | _ => none

/-- Every intermediate key of the path that is present in the source holds
a mapping (the shape `extractValueSubset` is used with; a present
non-mapping intermediate makes the Go loop keep scanning the same `src`). -/
def intermediatesAreMaps (m : List (String × Tree)) : List String → Bool
  | [] => true
  | [_] => true
  | k :: rest =>
      match lookupKey m k with
      | some (.map inner) => intermediatesAreMaps inner rest
      | some _ => false
      | none => true

/-- The nested singleton-mapping chain created by the descending writes of
`extractValueSubset`: `nest [k1, ..., kn] v = {k1: {... {kn: v}}}`. -/
def nest : List String → Tree → Tree
  | [], v => v
  | k :: rest, v => .map [(k, nest rest v)]

/-- Navigate a subset along mapping keys (total counterpart of the Go `dst`
pointer position). -/
def getAtPath (m : List (String × Tree)) : List String → Option (List (String × Tree))
  | [] => some m
  | d :: ds =>
      match lookupKey m d with
      | some (.map inner) => getAtPath inner ds
      | _ => none

theorem setKey_setKey (m : List (String × Tree)) (k : String) (v w : Tree) :
    setKey (setKey m k v) k w = setKey m k w := by
  induction m with
  | nil => simp [setKey]
  | cons hd tl ih =>
      obtain ⟨k0, v0⟩ := hd
      by_cases h : k0 = k <;> simp [setKey, h, ih]

theorem eraseKey_setKey_self (m : List (String × Tree)) (k : String) (v : Tree) :
    eraseKey (setKey m k v) k = eraseKey m k := by
  induction m with
  | nil => simp [setKey, eraseKey]
  | cons hd tl ih =>
      obtain ⟨k0, v0⟩ := hd
      by_cases h : k0 = k <;> simp [setKey, eraseKey, h, ih]

theorem getAtPath_setAtPath_descend (d : List String) :
    ∀ (m m0 : List (String × Tree)) (p : String),
      getAtPath m d = some m0 →
      getAtPath (setAtPath m d p (.map [])) (d ++ [p]) = some [] := by
  induction d with
  | nil =>
      intro m m0 p _
      simp [setAtPath, getAtPath, lookupKey_setKey_self]
  | cons d0 ds ih =>
      intro m m0 p hget
      rw [getAtPath] at hget
      cases hl : lookupKey m d0 with
      | none => rw [hl] at hget; exact absurd hget (by simp)
      | some w =>
          cases w with
          | map inner =>
              rw [hl] at hget
              simp only [setAtPath, hl, List.cons_append, getAtPath,
                lookupKey_setKey_self]
              exact ih inner m0 p hget
          | null => rw [hl] at hget; exact absurd hget (by simp)
          | str _ => rw [hl] at hget; exact absurd hget (by simp)
          | int _ => rw [hl] at hget; exact absurd hget (by simp)
          | bool _ => rw [hl] at hget; exact absurd hget (by simp)
          | seq _ => rw [hl] at hget; exact absurd hget (by simp)
          | pair _ _ => rw [hl] at hget; exact absurd hget (by simp)

theorem setAtPath_collapse (d : List String) :
    ∀ (m m0 acc : List (String × Tree)) (p k : String) (w : Tree),
      getAtPath m d = some m0 →
      setAtPath (setAtPath m d p (.map acc)) (d ++ [p]) k w =
        setAtPath m d p (.map (setKey acc k w)) := by
  induction d with
  | nil =>
      intro m m0 acc p k w _
      simp [setAtPath, lookupKey_setKey_self, setKey_setKey]
  | cons d0 ds ih =>
      intro m m0 acc p k w hget
      rw [getAtPath] at hget
      cases hl : lookupKey m d0 with
      | none => rw [hl] at hget; exact absurd hget (by simp)
      | some u =>
          cases u with
          | map inner =>
              rw [hl] at hget
              simp only [setAtPath, hl, List.cons_append, lookupKey_setKey_self,
                setKey_setKey, List.append_eq]
              rw [ih inner m0 acc p k w hget]
          | null => rw [hl] at hget; exact absurd hget (by simp)
          | str _ => rw [hl] at hget; exact absurd hget (by simp)
          | int _ => rw [hl] at hget; exact absurd hget (by simp)
          | bool _ => rw [hl] at hget; exact absurd hget (by simp)
          | seq _ => rw [hl] at hget; exact absurd hget (by simp)
          | pair _ _ => rw [hl] at hget; exact absurd hget (by simp)

theorem eraseKey_setAtPath_head (m : List (String × Tree)) (d0 : String) (ds : List String)
    (p : String) (v : Tree) :
    eraseKey (setAtPath m (d0 :: ds) p v) d0 = eraseKey m d0 := by
  rw [setAtPath]
  cases hl : lookupKey m d0 with
  | none => rfl
  | some u =>
      cases u with
      | map inner => exact eraseKey_setKey_self m d0 _
      | null => rfl
      | str _ => rfl
      | int _ => rfl
      | bool _ => rfl
      | seq _ => rfl
      | pair _ _ => rfl

theorem copyEntries_collapse (next : List (String × Tree)) :
    ∀ (m m0 acc : List (String × Tree)) (d : List String) (p : String),
      getAtPath m d = some m0 →
      copyEntries next (setAtPath m d p (.map acc)) (d ++ [p]) =
        setAtPath m d p (.map (List.foldl (fun a kv => setKey a kv.1 kv.2) acc next)) := by
  induction next with
  | nil => intro m m0 acc d p _; rfl
  | cons hd rest ih =>
      intro m m0 acc d p hget
      obtain ⟨k, v⟩ := hd
      rw [copyEntries, setAtPath_collapse d m m0 acc p k v hget]
      exact ih m m0 (setKey acc k v) d p hget

theorem setKey_append (acc : List (String × Tree)) (k : String) (v : Tree)
    (h : k ∉ acc.map Prod.fst) : setKey acc k v = acc ++ [(k, v)] := by
  induction acc with
  | nil => rfl
  | cons hd tl ih =>
      obtain ⟨k0, v0⟩ := hd
      simp only [List.map, List.mem_cons] at h
      push_neg at h
      rw [setKey, if_neg (fun hx => h.1 hx.symm), List.cons_append, ih h.2]

theorem foldl_setKey_eq (next : List (String × Tree)) :
    ∀ acc : List (String × Tree),
      ((acc ++ next).map Prod.fst).Nodup →
      List.foldl (fun a kv => setKey a kv.1 kv.2) acc next = acc ++ next := by
  induction next with
  | nil => intro acc _; simp
  | cons hd rest ih =>
      intro acc hnd
      obtain ⟨k, v⟩ := hd
      have hnd' : (((acc ++ [(k, v)]) ++ rest).map Prod.fst).Nodup := by
        simpa [List.append_assoc] using hnd
      have hk : k ∉ acc.map Prod.fst := by
        simp only [List.map_append, List.map_cons] at hnd
        obtain ⟨h1, h2, hdisj⟩ := List.nodup_append.mp hnd
        intro hmem
        exact hdisj hmem (by simp)
      rw [List.foldl_cons]
      simp only
      rw [setKey_append acc k v hk, ih (acc ++ [(k, v)]) hnd']
      simp

theorem nest_chain : ∀ (rest : List String) (v : Tree) (m : List (String × Tree)) (p0 : String),
    lookupKey m p0 = some (nest rest v) → lookupChain m (p0 :: rest) = some v := by
  intro rest
  induction rest with
  | nil => intro v m p0 h; simpa [lookupChain, nest] using h
  | cons q qs ih =>
      intro v m p0 h
      rw [show lookupChain m (p0 :: q :: qs) =
          (match lookupKey m p0 with
           | some (.map inner) => lookupChain inner (q :: qs)
           | _ => none) from rfl]
      rw [h]
      simp only [nest]
      exact ih v [(q, nest qs v)] q (by simp [lookupKey])

theorem extractLoop_deep (parts : List String) :
    ∀ (src m m0 : List (String × Tree)) (first : String) (ds : List String),
      parts ≠ [] →
      intermediatesAreMaps src parts = true →
      (∀ fm, lookupChain src parts = some (.map fm) → (fm.map Prod.fst).Nodup) →
      getAtPath m (first :: ds) = some m0 →
      extractLoop src m (first :: ds) first parts =
        (match lookupChain src parts with
         | some v => setAtPath m (first :: ds) parts.headI (nest parts.tail v)
         | none => eraseKey m first) := by
  induction parts with
  | nil => intro src m m0 first ds hne; exact absurd rfl hne
  | cons p rest ih =>
      intro src m m0 first ds _ hmaps hnodup hget
      simp only [List.headI, List.tail_cons]
      cases hl : lookupKey src p with
      | none =>
          cases rest with
          | nil => simp only [extractLoop, hl, lookupChain]
          | cons q1 qtail => simp only [extractLoop, hl, lookupChain]
      | some v =>
          cases rest with
          | nil =>
              cases v with
              | map next =>
                  have hnodup' : (next.map Prod.fst).Nodup :=
                    hnodup next (by simp [lookupChain, hl])
                  simp only [extractLoop, hl, lookupChain]
                  rw [copyEntries_collapse next m m0 [] (first :: ds) p hget]
                  rw [foldl_setKey_eq next [] (by simpa using hnodup')]
                  simp [nest]
              | seq xs => simp only [extractLoop, hl, lookupChain, nest]
              | null => simp only [extractLoop, hl, lookupChain, nest]
              | str a => simp only [extractLoop, hl, lookupChain, nest]
              | int a => simp only [extractLoop, hl, lookupChain, nest]
              | bool a => simp only [extractLoop, hl, lookupChain, nest]
              | pair f t => simp only [extractLoop, hl, lookupChain, nest]
          | cons q1 qtail =>
              cases v with
              | map next =>
                  have hmaps' : intermediatesAreMaps next (q1 :: qtail) = true := by
                    simpa [intermediatesAreMaps, hl] using hmaps
                  have hchain : lookupChain src (p :: q1 :: qtail) =
                      lookupChain next (q1 :: qtail) := by
                    simp [lookupChain, hl]
                  have hnodup' : ∀ fm, lookupChain next (q1 :: qtail) = some (.map fm) →
                      (fm.map Prod.fst).Nodup := by
                    intro fm hfm
                    exact hnodup fm (by rw [hchain]; exact hfm)
                  have hget' : getAtPath (setAtPath m (first :: ds) p (.map []))
                      (first :: (ds ++ [p])) = some [] := by
                    have := getAtPath_setAtPath_descend (first :: ds) m m0 p hget
                    simpa using this
                  have hinner := ih next (setAtPath m (first :: ds) p (.map [])) []
                    first (ds ++ [p]) (by simp) hmaps' hnodup' hget'
                  simp only [List.headI, List.tail_cons] at hinner
                  simp only [extractLoop, List.cons_append] at hinner
                  simp only [extractLoop, hl, List.cons_append]
                  rw [hinner, hchain]
                  cases hc : lookupChain next (q1 :: qtail) with
                  | none =>
                      exact eraseKey_setAtPath_head m first ds p (.map [])
                  | some v' =>
                      simp only [List.headI, List.tail_cons]
                      have := setAtPath_collapse (first :: ds) m m0 [] p q1
                        (nest qtail v') hget
                      simp only [List.cons_append] at this ⊢
                      rw [this]
                      simp [setKey, nest]
              | seq xs => simp [intermediatesAreMaps, hl] at hmaps
              | null => simp [intermediatesAreMaps, hl] at hmaps
              | str a => simp [intermediatesAreMaps, hl] at hmaps
              | int a => simp [intermediatesAreMaps, hl] at hmaps
              | bool a => simp [intermediatesAreMaps, hl] at hmaps
              | pair f t => simp [intermediatesAreMaps, hl] at hmaps

theorem extractLoop_top (parts : List String) (src subset : List (String × Tree))
    (hne : parts ≠ [])
    (hmaps : intermediatesAreMaps src parts = true)
    (hnodup : ∀ fm, lookupChain src parts = some (.map fm) → (fm.map Prod.fst).Nodup) :
    extractLoop src subset [] parts.headI parts =
      (match lookupChain src parts with
       | some v => setKey subset parts.headI (nest parts.tail v)
       | none => eraseKey subset parts.headI) := by
  cases parts with
  | nil => exact absurd rfl hne
  | cons p rest =>
      simp only [List.headI, List.tail_cons]
      cases hl : lookupKey src p with
      | none =>
          cases rest with
          | nil => simp only [extractLoop, hl, lookupChain]
          | cons q1 qtail => simp only [extractLoop, hl, lookupChain]
      | some v =>
          cases rest with
          | nil =>
              cases v with
              | map next =>
                  have hnodup' : (next.map Prod.fst).Nodup :=
                    hnodup next (by simp [lookupChain, hl])
                  simp only [extractLoop, hl, lookupChain]
                  rw [show ([] : List String) ++ [p] = [p] from rfl] at *
                  have hcol := copyEntries_collapse next subset subset [] [] p rfl
                  simp only [List.nil_append] at hcol
                  rw [hcol, foldl_setKey_eq next [] (by simpa using hnodup')]
                  simp [setAtPath, nest]
              | seq xs => simp only [extractLoop, hl, lookupChain, nest, setAtPath]
              | null => simp only [extractLoop, hl, lookupChain, nest, setAtPath]
              | str a => simp only [extractLoop, hl, lookupChain, nest, setAtPath]
              | int a => simp only [extractLoop, hl, lookupChain, nest, setAtPath]
              | bool a => simp only [extractLoop, hl, lookupChain, nest, setAtPath]
              | pair f t => simp only [extractLoop, hl, lookupChain, nest, setAtPath]
          | cons q1 qtail =>
              cases v with
              | map next =>
                  have hmaps' : intermediatesAreMaps next (q1 :: qtail) = true := by
                    simpa [intermediatesAreMaps, hl] using hmaps
                  have hchain : lookupChain src (p :: q1 :: qtail) =
                      lookupChain next (q1 :: qtail) := by
                    simp [lookupChain, hl]
                  have hnodup' : ∀ fm, lookupChain next (q1 :: qtail) = some (.map fm) →
                      (fm.map Prod.fst).Nodup := by
                    intro fm hfm
                    exact hnodup fm (by rw [hchain]; exact hfm)
                  have hget' : getAtPath (setAtPath subset [] p (.map [])) (p :: ([] : List String)) =
                      some [] := by
                    have := getAtPath_setAtPath_descend [] subset subset p rfl
                    simpa using this
                  have hinner := extractLoop_deep (q1 :: qtail) next
                    (setAtPath subset [] p (.map [])) [] p [] (by simp) hmaps' hnodup' hget'
                  simp only [List.headI, List.tail_cons] at hinner
                  simp only [extractLoop, List.cons_append, List.nil_append] at hinner
                  simp only [extractLoop, hl, List.cons_append, List.nil_append]
                  rw [hinner, hchain]
                  cases hc : lookupChain next (q1 :: qtail) with
                  | none =>
                      simp only [setAtPath]
                      simp [eraseKey_setKey_self subset p (.map [])]
                  | some v' =>
                      have hcol := setAtPath_collapse [] subset subset [] p q1
                        (nest qtail v') rfl
                      simp only [List.nil_append] at hcol
                      simp [hcol, setAtPath, nest, lookupKey_setKey_self, setKey_setKey, setKey]
              | seq xs => simp [intermediatesAreMaps, hl] at hmaps
              | null => simp [intermediatesAreMaps, hl] at hmaps
              | str a => simp [intermediatesAreMaps, hl] at hmaps
              | int a => simp [intermediatesAreMaps, hl] at hmaps
              | bool a => simp [intermediatesAreMaps, hl] at hmaps
              | pair f t => simp [intermediatesAreMaps, hl] at hmaps

/-- The first listed sub-path whose first segment is `k`. -/
def pathFor (ps : List Path) (k : String) : Option Path :=
  ps.find? (fun p => p.headI == k)

theorem pathFor_self (ps : List Path) (hnd : (ps.map List.headI).Nodup) :
    ∀ p ∈ ps, pathFor ps p.headI = some p := by
  induction ps with
  | nil => intro p hp; simp at hp
  | cons q rest ih =>
      intro p hp
      have hnd2 : (q.headI :: rest.map List.headI).Nodup := by simpa using hnd
      rcases List.mem_cons.mp hp with hp | hp
      · subst hp
        simp [pathFor, List.find?]
      · have hne : (q.headI == p.headI) = false := by
          have : p.headI ∈ rest.map List.headI := List.mem_map_of_mem _ hp
          have hq : q.headI ∉ rest.map List.headI := (List.nodup_cons.mp hnd2).1
          simp only [beq_eq_false_iff_ne, ne_eq]
          intro hx
          exact hq (hx ▸ this)
        have := ih hnd2.of_cons p hp
        simpa [pathFor, List.find?, hne] using this

theorem extractAll_lookup (source : List (String × Tree)) :
    ∀ (ps : List Path) (subset : List (String × Tree)),
      (∀ p ∈ ps, p ≠ []) →
      (ps.map List.headI).Nodup →
      (∀ p ∈ ps, intermediatesAreMaps source p = true) →
      (∀ p ∈ ps, ∀ fm, lookupChain source p = some (.map fm) → (fm.map Prod.fst).Nodup) →
      ∀ k, lookupKey (extractAll source subset ps) k =
        (match pathFor ps k with
         | some p =>
             (match lookupChain source p with
              | some v => some (nest p.tail v)
              | none => none)
         | none => lookupKey subset k) := by
  intro ps
  induction ps with
  | nil => intro subset _ _ _ _ k; simp [extractAll, pathFor, List.find?]
  | cons p rest ih =>
      intro subset hne hnd hmaps hnodup k
      have hpne : p ≠ [] := hne p (by simp)
      obtain ⟨p0, ptail, rfl⟩ : ∃ p0 ptail, p = p0 :: ptail := by
        cases p with
        | nil => exact absurd rfl hpne
        | cons a b => exact ⟨a, b, rfl⟩
      have hnd2 : ((p0 :: ptail).headI :: rest.map List.headI).Nodup := by simpa using hnd
      have htop := extractLoop_top (p0 :: ptail) source subset (by simp)
        (hmaps _ (by simp)) (hnodup _ (by simp))
      simp only [List.headI, List.tail_cons] at htop
      have hstep : extractAll source subset ((p0 :: ptail) :: rest) =
          extractAll source (extractLoop source subset [] p0 (p0 :: ptail)) rest := by
        rw [extractAll]
      rw [hstep, ih (extractLoop source subset [] p0 (p0 :: ptail)) (fun q hq => hne q (by simp [hq]))
        hnd2.of_cons (fun q hq => hmaps q (by simp [hq])) (fun q hq => hnodup q (by simp [hq])) k]
      by_cases hk : p0 = k
      · subst hk
        have hrest : pathFor rest p0 = none := by
          apply List.find?_eq_none.mpr
          intro q hq
          have hq0 : q.headI ∈ rest.map List.headI := List.mem_map_of_mem _ hq
          have : p0 ∉ rest.map List.headI := by
            have := (List.nodup_cons.mp hnd2).1
            simpa using this
          simp only [beq_eq_false_iff_ne, ne_eq, beq_iff_eq]
          intro hx
          exact this (hx ▸ hq0)
        have hcons : pathFor ((p0 :: ptail) :: rest) p0 = some (p0 :: ptail) := by
          simp [pathFor, List.find?]
        rw [hrest, hcons, htop]
        cases hchain : lookupChain source (p0 :: ptail) with
        | some v => simp [hchain, lookupKey_setKey_self]
        | none => simp [hchain, lookupKey_eraseKey_self]
      · have hcons : pathFor ((p0 :: ptail) :: rest) k = pathFor rest k := by
          have hbeq : (p0 == k) = false := by simpa using hk
          simp [pathFor, List.find?, List.headI, hbeq]
        rw [hcons]
        cases hp : pathFor rest k with
        | some q => rfl
        | none =>
            simp only
            rw [htop]
            cases hchain : lookupChain source (p0 :: ptail) with
            | some v => exact lookupKey_setKey_ne subset p0 k _ hk
            | none => exact lookupKey_eraseKey_ne subset p0 k hk

/-- C8 (amended): for every mapping node and every list of non-empty
sub-paths with pairwise distinct first segments whose present intermediate
keys hold mappings, `extractValueSubset` returns a projection containing
exactly the fully present listed sub-paths, with nested mappings created as
needed: a fully present sub-path always appears with its source value, and
a sub-path with any missing segment contributes nothing — its whole
first-segment branch is omitted. (Without the distinct-first-segment
restriction the original claim fails — see the counterexample.) -/
theorem C8_extract_subset (source : List (String × Tree)) (ps : List Path)
    (hne : ∀ p ∈ ps, p ≠ [])
    (hnd : (ps.map List.headI).Nodup)
    (hmaps : ∀ p ∈ ps, intermediatesAreMaps source p = true)
    (hnodup : ∀ p ∈ ps, ∀ fm, lookupChain source p = some (.map fm) →
      (fm.map Prod.fst).Nodup) :
    (∀ p ∈ ps, ∀ v, lookupChain source p = some v →
        lookupChain (extractValueSubset (.map source) ps) p = some v) ∧
    (∀ p ∈ ps, lookupChain source p = none →
        lookupKey (extractValueSubset (.map source) ps) p.headI = none) ∧
    (∀ k, (∀ p ∈ ps, p.headI = k → lookupChain source p = none) →
        lookupKey (extractValueSubset (.map source) ps) k = none) := by
  have hlook := extractAll_lookup source ps [] hne hnd hmaps hnodup
  have hval : extractValueSubset (.map source) ps = extractAll source [] ps := rfl
  refine ⟨?_, ?_, ?_⟩
  · intro p hp v hchain
    obtain ⟨p0, ptail, rfl⟩ : ∃ p0 ptail, p = p0 :: ptail := by
      cases p with
      | nil => exact absurd rfl (hne [] hp)
      | cons a b => exact ⟨a, b, rfl⟩
    have hpf : pathFor ps p0 = some (p0 :: ptail) := by
      have := pathFor_self ps hnd (p0 :: ptail) hp
      simpa [List.headI] using this
    have h0 := hlook p0
    rw [hpf] at h0
    simp only [hchain, List.tail_cons] at h0
    rw [hval]
    exact nest_chain ptail v _ p0 h0
  · intro p hp hchain
    obtain ⟨p0, ptail, rfl⟩ : ∃ p0 ptail, p = p0 :: ptail := by
      cases p with
      | nil => exact absurd rfl (hne [] hp)
      | cons a b => exact ⟨a, b, rfl⟩
    have hpf : pathFor ps p0 = some (p0 :: ptail) := by
      have := pathFor_self ps hnd (p0 :: ptail) hp
      simpa [List.headI] using this
    have h0 := hlook p0
    rw [hpf] at h0
    simp only [hchain] at h0
    rw [hval]
    simpa [List.headI] using h0
  · intro k hk
    have h0 := hlook k
    rw [hval]
    cases hpf : pathFor ps k with
    | none =>
        rw [hpf] at h0
        simpa [lookupKey] using h0
    | some q =>
        rw [hpf] at h0
        have hqmem : q ∈ ps := List.mem_of_find?_eq_some hpf
        have hqhead : q.headI = k := by
          have := List.find?_some hpf
          simpa using this
        simp only [hk q hqmem hqhead] at h0
        simpa using h0

/-- C8 counterexample: with overlapping first segments, the fully present
sub-path `a.b` does not appear in the result: projecting `{a: {b: 1}}`
onto `[a.b, a.c]` first builds `{a: {b: 1}}`, then the missing `a.c`
deletes the whole `a` branch, leaving the empty mapping. -/
theorem C8_counterexample :
    lookupChain [("a", Tree.map [("b", Tree.int 1)])] ["a", "b"] = some (Tree.int 1) ∧
    extractValueSubset (Tree.map [("a", Tree.map [("b", Tree.int 1)])])
      [["a", "b"], ["a", "c"]] = [] := by
  constructor
  · simp [lookupChain, lookupKey]
  · simp [extractValueSubset, extractAll, extractLoop, setAtPath, setKey, eraseKey,
      lookupKey, copyEntries]

/-- C8 witness: the amended theorem applied at the service-scale subset
extraction: a fully present `deploy.replicas` appears, a missing `scale`
branch is omitted. -/
theorem C8_extract_subset_witness :
    lookupChain (extractValueSubset
      (Tree.map [("scale", Tree.int 5), ("deploy", Tree.map [("replicas", Tree.int 3)])])
      [["scale"], ["deploy", "replicas"]]) ["deploy", "replicas"] = some (Tree.int 3) ∧
    lookupKey (extractValueSubset (Tree.map [("image", Tree.str "i")])
      [["scale"], ["deploy", "replicas"]]) "scale" = none :=
  ⟨(C8_extract_subset
      [("scale", Tree.int 5), ("deploy", Tree.map [("replicas", Tree.int 3)])]
      [["scale"], ["deploy", "replicas"]]
      (by simp) (by simp) (by decide)
      (by intro p hp fm hfm; fin_cases hp <;> simp [lookupChain, lookupKey] at hfm)).1
      ["deploy", "replicas"] (by simp) (Tree.int 3) (by simp [lookupChain, lookupKey]),
   (C8_extract_subset [("image", Tree.str "i")] [["scale"], ["deploy", "replicas"]]
      (by simp) (by simp) (by decide)
      (by intro p hp fm hfm; fin_cases hp <;> simp [lookupChain, lookupKey] at hfm)).2.1
      ["scale"] (by simp) (by simp [lookupChain, lookupKey])⟩

/-!
## Extends: `applyServiceExtends` (src/loader/extends.go)
-/

/-- The exclusion set of `extends.go`: attributes creating dependencies on
another service, deleted from the imported base before the merge. -/
def exclusions : List String := ["depends_on", "volumes_from"]

mutual

/-- `loader.deepClone`: recursively copies sequences and mappings, returns
every other value as is. -/
def deepClone : Tree → Tree
  | .seq xs => .seq (deepCloneSeq xs)
  | .map m => .map (deepCloneMap m)
  | v => v

/-- Mapping branch of `deepClone`. -/
def deepCloneMap : List (String × Tree) → List (String × Tree)
  | [] => []
  | (k, v) :: rest => (k, deepClone v) :: deepCloneMap rest

/-- Sequence branch of `deepClone`. -/
def deepCloneSeq : List Tree → List Tree
  | [] => []
  | v :: rest => deepClone v :: deepCloneSeq rest

end

mutual

theorem deepClone_eq : ∀ t : Tree, deepClone t = t
  | .null => rfl
  | .str _ => rfl
  | .int _ => rfl
  | .bool _ => rfl
  | .pair _ _ => rfl
  | .seq xs => by rw [deepClone, deepCloneSeq_eq xs]
  | .map m => by rw [deepClone, deepCloneMap_eq m]

theorem deepCloneMap_eq : ∀ m : List (String × Tree), deepCloneMap m = m
  | [] => rfl
  | (k, v) :: rest => by rw [deepCloneMap, deepClone_eq v, deepCloneMap_eq rest]

theorem deepCloneSeq_eq : ∀ xs : List Tree, deepCloneSeq xs = xs
  | [] => rfl
  | v :: rest => by rw [deepCloneSeq, deepClone_eq v, deepCloneSeq_eq rest]

end

mutual

/-- Modelled from the spec: `override.ExtendService`'s merge (the
`override` package is not among the sources) — "merge the current service
over the cleaned base": mappings merge recursively, keys present in only
one side are retained, and on conflict the overlay wins. -/
def mergeTrees (base overlay : Tree) : Tree :=
  match base, overlay with
  | .map bm, .map om => .map (mergeMaps bm om)
  | _, o => o

/-- Modelled from the spec: recursive mapping merge with overlay priority;
base keys keep their order, overlay-only keys are appended. -/
def mergeMaps : List (String × Tree) → List (String × Tree) → List (String × Tree)
  | [], om => om
  | (k, bv) :: rest, om =>
      match lookupKey om k with
      | some ov => (k, mergeTrees bv ov) :: mergeMaps rest (eraseKey om k)
      | none => (k, bv) :: mergeMaps rest om

end

/-- Lines 130–149 of `applyServiceExtends`: deep-clone the resolved base,
delete the exclusion-set keys from the clone, merge the current service
over the cleaned base (`override.ExtendService(source, service)`), and
delete `extends` from the merged result. -/
def extendsMergeStep (base service : List (String × Tree)) : List (String × Tree) :=
  eraseKey (mergeMaps (exclusions.foldl (fun m k => eraseKey m k) (deepCloneMap base))
    service) "extends"

/-- The service reference of an `extends` value after `UnwrapPair`
(`extends: <name>` or `extends: {service: <name>}`); the `file` form loads
another document (I/O) and is outside this embedding. -/
def extRef : Tree → Option String
  | .str r => some r
  | .map em =>
      match lookupKey em "file" with
      | some _ => none
      | none =>
          match lookupKey em "service" with
          | some (.str r) => some r
          | _ => none
  | _ => none

/-- `loader.applyServiceExtends` restricted to the single-file path.
`fuel` bounds the recursion, `tracker` is the `cycleTracker` of the one
file (its Go error text lives outside src/ and is embedded descriptively).
Returns the resolved service (Go `nil` embedded as `none`) and the updated
services mapping, which the function mutates at `name` (line 148). -/
def applyServiceExtends (fuel : Nat) (name : String)
    (services : List (String × Tree)) (tracker : List String) :
    Except String (Option Tree × List (String × Tree)) :=
  match fuel with
  | 0 => .error "out of fuel"
  | fuel + 1 =>
      match lookupKey services name with
      | none => .ok (none, services)
      | some .null => .ok (none, services)
      | some (.map service) =>
          (match lookupKey service "extends" with
          | none => .ok (some (.map service), services)
          | some ext =>
              match extRef (unwrapPair ext) with
              | none => .error "unsupported extends form"
              | some ref =>
                  if lookupKey services ref = none then
                    .error ("cannot extend service " ++ name ++ ": service " ++ ref ++
                      " not found")
                  else if name ∈ tracker then
                    .error ("lookup cycle: " ++ name)
                  else
                    match applyServiceExtends fuel ref services (tracker ++ [name]) with
                    | .error e => .error e
                    | .ok (none, services1) => .ok (some (.map service), services1)
                    | .ok (some b, services1) =>
                        match deepClone b with
                        | .map bm =>
                            .ok (some (.map (extendsMergeStep bm service)),
                              setKey services1 name (.map (extendsMergeStep bm service)))
                        | _ => .error "interface conversion: base service is not a mapping")
      | some _ => .error ("services." ++ name ++ " must be a mapping")

theorem lookupKey_mergeMaps (bm : List (String × Tree)) :
    ∀ (om : List (String × Tree)) (k : String),
      lookupKey (mergeMaps bm om) k =
        (match lookupKey bm k, lookupKey om k with
         | some b, some o => some (mergeTrees b o)
         | some b, none => some b
         | none, some o => some o
         | none, none => none) := by
  induction bm with
  | nil =>
      intro om k
      rw [mergeMaps, lookupKey]
      cases lookupKey om k <;> rfl
  | cons hd rest ih =>
      intro om k
      obtain ⟨k0, bv⟩ := hd
      by_cases hk : k0 = k
      · subst hk
        cases ho : lookupKey om k0 with
        | some ov => simp [mergeMaps, ho, lookupKey]
        | none => simp [mergeMaps, ho, lookupKey]
      · cases ho : lookupKey om k0 with
        | some ov =>
            rw [show mergeMaps ((k0, bv) :: rest) om =
                (k0, mergeTrees bv ov) :: mergeMaps rest (eraseKey om k0) from by
              rw [mergeMaps, ho]]
            rw [show lookupKey ((k0, mergeTrees bv ov) :: mergeMaps rest (eraseKey om k0)) k =
                lookupKey (mergeMaps rest (eraseKey om k0)) k from by
              rw [lookupKey, if_neg hk]]
            rw [ih (eraseKey om k0) k, lookupKey_eraseKey_ne om k0 k hk]
            rw [show lookupKey ((k0, bv) :: rest) k = lookupKey rest k from by
              rw [lookupKey, if_neg hk]]
        | none =>
            rw [show mergeMaps ((k0, bv) :: rest) om =
                (k0, bv) :: mergeMaps rest om from by rw [mergeMaps, ho]]
            rw [show lookupKey ((k0, bv) :: mergeMaps rest om) k =
                lookupKey (mergeMaps rest om) k from by rw [lookupKey, if_neg hk]]
            rw [ih om k]
            rw [show lookupKey ((k0, bv) :: rest) k = lookupKey rest k from by
              rw [lookupKey, if_neg hk]]

theorem mergeTrees_overlay (b o : Tree) (h : ∀ om, o ≠ .map om) :
    mergeTrees b o = o := by
  cases o with
  | map om => exact absurd rfl (h om)
  | null => cases b <;> simp [mergeTrees]
  | str a => cases b <;> simp [mergeTrees]
  | int a => cases b <;> simp [mergeTrees]
  | bool a => cases b <;> simp [mergeTrees]
  | seq xs => cases b <;> simp [mergeTrees]
  | pair f t => cases b <;> simp [mergeTrees]

/-- C6: when a service carrying an `extends` reference is resolved against
its base, the tree merged under the current service is a deep clone of the
base from which exactly `depends_on` and `volumes_from` have been deleted;
the current service's entries win over the cleaned base on conflict (with
mappings merged recursively and one-sided keys retained); and `extends` is
absent from the merged result stored back into the services mapping. -/
theorem C6_extends_merge (base service : List (String × Tree)) :
    (∀ k, lookupKey (exclusions.foldl (fun m k => eraseKey m k) (deepCloneMap base)) k =
        (if k ∈ exclusions then none else lookupKey base k)) ∧
    (∀ k, k ≠ "extends" →
        lookupKey (extendsMergeStep base service) k =
          (match (if k ∈ exclusions then none else lookupKey base k),
                 lookupKey service k with
           | some b, some o => some (mergeTrees b o)
           | some b, none => some b
           | none, some o => some o
           | none, none => none)) ∧
    (∀ k o, k ≠ "extends" → lookupKey service k = some o → (∀ om, o ≠ .map om) →
        lookupKey (extendsMergeStep base service) k = some o) ∧
    lookupKey (extendsMergeStep base service) "extends" = none := by
  have hclean : ∀ k,
      lookupKey (exclusions.foldl (fun m k => eraseKey m k) (deepCloneMap base)) k =
        (if k ∈ exclusions then none else lookupKey base k) := by
    intro k
    rw [deepCloneMap_eq]
    simp only [exclusions, List.foldl_cons, List.foldl_nil]
    by_cases h1 : k = "depends_on"
    · subst h1
      rw [lookupKey_eraseKey_ne _ "volumes_from" _ (by decide),
        lookupKey_eraseKey_self]
      simp
    · by_cases h2 : k = "volumes_from"
      · subst h2
        rw [lookupKey_eraseKey_self]
        simp
      · rw [lookupKey_eraseKey_ne _ "volumes_from" _ (fun hx => h2 hx.symm),
          lookupKey_eraseKey_ne _ "depends_on" _ (fun hx => h1 hx.symm)]
        simp [h1, h2]
  have hmerged : ∀ k, k ≠ "extends" →
      lookupKey (extendsMergeStep base service) k =
        (match (if k ∈ exclusions then none else lookupKey base k),
               lookupKey service k with
         | some b, some o => some (mergeTrees b o)
         | some b, none => some b
         | none, some o => some o
         | none, none => none) := by
    intro k hk
    rw [extendsMergeStep, lookupKey_eraseKey_ne _ "extends" _ (fun hx => hk hx.symm),
      lookupKey_mergeMaps, hclean]
  refine ⟨hclean, hmerged, ?_, ?_⟩
  · intro k o hk ho hnm
    rw [hmerged k hk, ho]
    cases hb : (if k ∈ exclusions then none else lookupKey base k) with
    | none => rfl
    | some b => simp [mergeTrees_overlay b o hnm]
  · rw [extendsMergeStep, lookupKey_eraseKey_self]

/-- C6 witness: `{extends: base, image: w}` extending
`{image: foo, depends_on: [db]}`: the cleaned base loses exactly
`depends_on`, the service's `image` wins, and `extends` is gone. -/
theorem C6_extends_merge_witness :
    lookupKey (exclusions.foldl (fun m k => eraseKey m k)
      (deepCloneMap [("image", Tree.str "foo"), ("depends_on", Tree.seq [Tree.str "db"])]))
      "depends_on" = none ∧
    lookupKey (extendsMergeStep
      [("image", Tree.str "foo"), ("depends_on", Tree.seq [Tree.str "db"])]
      [("extends", Tree.str "base"), ("image", Tree.str "w")]) "image" =
      some (Tree.str "w") ∧
    lookupKey (extendsMergeStep
      [("image", Tree.str "foo"), ("depends_on", Tree.seq [Tree.str "db"])]
      [("extends", Tree.str "base"), ("image", Tree.str "w")]) "extends" = none :=
  ⟨by
    rw [(C6_extends_merge [("image", Tree.str "foo"),
      ("depends_on", Tree.seq [Tree.str "db"])] []).1 "depends_on"]
    simp [exclusions],
   (C6_extends_merge [("image", Tree.str "foo"), ("depends_on", Tree.seq [Tree.str "db"])]
      [("extends", Tree.str "base"), ("image", Tree.str "w")]).2.2.1 "image" (Tree.str "w")
      (by decide) (by simp [lookupKey]) (fun om => by simp),
   (C6_extends_merge [("image", Tree.str "foo"), ("depends_on", Tree.seq [Tree.str "db"])]
      [("extends", Tree.str "base"), ("image", Tree.str "w")]).2.2.2⟩

/-- C10: resolving one service's `extends` never mutates the stored
definition of the base it extends. `deepClone` produces a structurally
equal copy (first conjunct), the exclusion-set deletion and the merge act
only on that copy, and a successful `applyServiceExtends` either leaves
the services mapping unchanged or updates exactly the entry `name`: every
other entry — in particular the referenced base — keeps the value its own
recursive resolution produced. -/
theorem C10_extends_frame :
    (∀ t : Tree, deepClone t = t) ∧
    (∀ (fuel : Nat) (name : String) (services : List (String × Tree))
        (tracker : List String) (b : Option Tree) (services' : List (String × Tree)),
      applyServiceExtends (fuel + 1) name services tracker = .ok (b, services') →
      services' = services ∨
      ∃ (service : List (String × Tree)) (ref : String) (base? : Option Tree)
          (services1 : List (String × Tree)),
        lookupKey services name = some (.map service) ∧
        applyServiceExtends fuel ref services (tracker ++ [name]) = .ok (base?, services1) ∧
        ((base? = none ∧ services' = services1 ∧ b = some (.map service)) ∨
          (∃ bm, base? = some (.map bm) ∧
            b = some (.map (extendsMergeStep bm service)) ∧
            services' = setKey services1 name (.map (extendsMergeStep bm service)))) ∧
        (∀ k, k ≠ name → lookupKey services' k = lookupKey services1 k)) := by
  refine ⟨deepClone_eq, ?_⟩
  intro fuel name services tracker b services' h
  rw [applyServiceExtends] at h
  cases hsvc : lookupKey services name with
  | none =>
      simp only [hsvc, Except.ok.injEq, Prod.mk.injEq] at h
      exact Or.inl h.2.symm
  | some sv =>
      cases sv with
      | map service =>
          cases hext : lookupKey service "extends" with
          | none =>
              simp only [hsvc, hext, Except.ok.injEq, Prod.mk.injEq] at h
              exact Or.inl h.2.symm
          | some ext =>
              simp only [hsvc, hext] at h
              cases href : extRef (unwrapPair ext) with
              | none =>
                  simp only [href] at h
                  exact absurd h (by simp)
              | some ref =>
                  simp only [href] at h
                  by_cases hrefex : lookupKey services ref = none
                  · simp only [if_pos hrefex] at h
                    exact absurd h (by simp)
                  · rw [if_neg hrefex] at h
                    by_cases htr : name ∈ tracker
                    · simp only [if_pos htr] at h
                      exact absurd h (by simp)
                    · rw [if_neg htr] at h
                      cases hrec : applyServiceExtends fuel ref services (tracker ++ [name]) with
                      | error e =>
                          simp only [hrec] at h
                          exact absurd h (by simp)
                      | ok res =>
                          obtain ⟨base?, services1⟩ := res
                          cases base? with
                          | none =>
                              simp only [hrec, Except.ok.injEq, Prod.mk.injEq] at h
                              refine Or.inr ⟨service, ref, none, services1, rfl, hrec,
                                Or.inl ⟨rfl, h.2.symm, h.1.symm⟩, ?_⟩
                              intro k _
                              rw [h.2]
                          | some b0 =>
                              simp only [hrec, deepClone_eq b0] at h
                              cases b0 with
                              | map bm =>
                                  simp only [Except.ok.injEq, Prod.mk.injEq] at h
                                  refine Or.inr ⟨service, ref, some (.map bm), services1,
                                    rfl, hrec, Or.inr ⟨bm, rfl, h.1.symm, h.2.symm⟩, ?_⟩
                                  intro k hkname
                                  rw [← h.2,
                                    lookupKey_setKey_ne services1 name k _
                                      (fun hx => hkname hx.symm)]
                              | null => simp at h
                              | str a => simp at h
                              | int a => simp at h
                              | bool a => simp at h
                              | seq xs => simp at h
                              | pair f t => simp at h
      | null =>
          simp only [hsvc, Except.ok.injEq, Prod.mk.injEq] at h
          exact Or.inl h.2.symm
      | str a => simp only [hsvc] at h; exact absurd h (by simp)
      | int a => simp only [hsvc] at h; exact absurd h (by simp)
      | bool a => simp only [hsvc] at h; exact absurd h (by simp)
      | seq xs => simp only [hsvc] at h; exact absurd h (by simp)
      | pair f t => simp only [hsvc] at h; exact absurd h (by simp)

/-- C10 witness: resolving `web` (which extends `base`) updates only the
`web` entry; the stored `base` keeps its `depends_on`. -/
theorem C10_extends_frame_witness :
    setKey [("web", Tree.map [("extends", Tree.str "base"), ("image", Tree.str "w")]),
        ("base", Tree.map [("image", Tree.str "foo"),
          ("depends_on", Tree.seq [Tree.str "db"])])] "web"
        (Tree.map [("image", Tree.str "w")]) =
      [("web", Tree.map [("extends", Tree.str "base"), ("image", Tree.str "w")]),
        ("base", Tree.map [("image", Tree.str "foo"),
          ("depends_on", Tree.seq [Tree.str "db"])])] ∨
    ∃ (service : List (String × Tree)) (ref : String) (base? : Option Tree)
        (services1 : List (String × Tree)),
      lookupKey [("web", Tree.map [("extends", Tree.str "base"), ("image", Tree.str "w")]),
          ("base", Tree.map [("image", Tree.str "foo"),
            ("depends_on", Tree.seq [Tree.str "db"])])] "web" = some (.map service) ∧
      applyServiceExtends 1 ref
        [("web", Tree.map [("extends", Tree.str "base"), ("image", Tree.str "w")]),
          ("base", Tree.map [("image", Tree.str "foo"),
            ("depends_on", Tree.seq [Tree.str "db"])])] ([] ++ ["web"]) =
        .ok (base?, services1) ∧
      ((base? = none ∧
          setKey [("web", Tree.map [("extends", Tree.str "base"), ("image", Tree.str "w")]),
            ("base", Tree.map [("image", Tree.str "foo"),
              ("depends_on", Tree.seq [Tree.str "db"])])] "web"
            (Tree.map [("image", Tree.str "w")]) = services1 ∧
          some (Tree.map [("image", Tree.str "w")]) = some (.map service)) ∨
        (∃ bm, base? = some (.map bm) ∧
          some (Tree.map [("image", Tree.str "w")]) =
            some (.map (extendsMergeStep bm service)) ∧
          setKey [("web", Tree.map [("extends", Tree.str "base"), ("image", Tree.str "w")]),
            ("base", Tree.map [("image", Tree.str "foo"),
              ("depends_on", Tree.seq [Tree.str "db"])])] "web"
            (Tree.map [("image", Tree.str "w")]) =
            setKey services1 "web" (.map (extendsMergeStep bm service)))) ∧
      (∀ k, k ≠ "web" →
        lookupKey (setKey [("web", Tree.map [("extends", Tree.str "base"),
            ("image", Tree.str "w")]),
          ("base", Tree.map [("image", Tree.str "foo"),
            ("depends_on", Tree.seq [Tree.str "db"])])] "web"
          (Tree.map [("image", Tree.str "w")])) k = lookupKey services1 k) :=
  C10_extends_frame.2 1 "web"
    [("web", Tree.map [("extends", Tree.str "base"), ("image", Tree.str "w")]),
      ("base", Tree.map [("image", Tree.str "foo"),
        ("depends_on", Tree.seq [Tree.str "db"])])] []
    (some (Tree.map [("image", Tree.str "w")]))
    (setKey [("web", Tree.map [("extends", Tree.str "base"), ("image", Tree.str "w")]),
      ("base", Tree.map [("image", Tree.str "foo"),
        ("depends_on", Tree.seq [Tree.str "db"])])] "web"
      (Tree.map [("image", Tree.str "w")]))
    (by
      simp [applyServiceExtends, lookupKey, extRef, unwrapPair, extendsMergeStep,
        deepCloneMap, deepClone, mergeMaps, mergeTrees, eraseKey, setKey, exclusions])

/-!
## Canonicalizer: `transformEnvFile` (src/unnamed/part_000)
-/

/-- The Go `%T` type name of an embedded value. -/
def typeName : Tree → String
  | .null => "<nil>"
  | .str _ => "string"
  | .int _ => "int"
  | .bool _ => "bool"
  | .seq _ => "[]interface \x7b\x7d"
  | .map _ => "map[string]interface \x7b\x7d"
  | .pair _ _ => "utils.Pair"

/-- `tree.Path` rendering: dot-joined segments. -/
def pathString (p : Path) : String := String.intercalate "." p

mutual

/-- The tag of the first `Pair` inside a value, in entry order (the Go
`UnwrapPairWithValues` + `range` pick in `setMappingValue`; the unordered
Go map iteration is embedded as entry order). Pair tags inside a pair's
`First` are not collected, as in `unwrapPair`. -/
def firstTag : Tree → Option String
  | .map m => firstTagMap m
  | .seq xs => firstTagSeq xs
  | .pair _ t => some t
  | _ => none

/-- `firstTag` over mapping entries. -/
def firstTagMap : List (String × Tree) → Option String
  | [] => none
  | (_, v) :: rest =>
      match firstTag v with
      | some t => some t
      | none => firstTagMap rest

/-- `firstTag` over sequence elements. -/
def firstTagSeq : List Tree → Option String
  | [] => none
  | v :: rest =>
      match firstTag v with
      | some t => some t
      | none => firstTagSeq rest

end

/-- `transform.setMappingValue` (src/unnamed/part_000): insert `value` at
`key`; when the mapping holds `Pair`-tagged leaves, the new value is
wrapped with a sibling's tag to inherit its context. -/
def setMappingValue (mapping : List (String × Tree)) (key : String) (value : Tree) :
    List (String × Tree) :=
  match firstTagMap mapping with
  | some t => setKey mapping key (WrapPairWithValue value t)
  | none => setKey mapping key value

/-- `transform.transformEnvFileValue` (src/unnamed/part_000): a string
becomes `{path: v, required: true}`, a mapping lacking `required` gains
`required: true`, anything else is the `invalid type` error. -/
def transformEnvFileValue (p : Path) (data : Tree) : Except String Tree :=
  match data with
  | .str v => .ok (.map [("path", .str v), ("required", .bool true)])
  | .map m =>
      match lookupKey m "required" with
      | some _ => .ok (.map m)
      | none => .ok (.map (setMappingValue m "required" (.bool true)))
  | v => .error (pathString p ++ ": invalid type " ++ typeName v ++ " for env_file")

/-- `utils.TransformPairWithError` (src/unnamed/part_003): a `Pair` is
unwrapped, transformed, and the new value's leaves rewrapped with the
pair's tag; any other value is transformed directly. -/
def transformPairWithError (t : Tree) (f : Tree → Except String Tree) :
    Except String Tree :=
  match t with
  | .pair first second =>
      match f first with
      | .ok nv => .ok (WrapPairWithValue nv second)
      | .error e => .error e
  | _ => f t

/-- The element loop of `convertIntoSequence`. -/
def convertSeqAux (f : Nat → Tree → Except String Tree) :
    Nat → List Tree → Except String (List Tree)
  | _, [] => .ok []
  | i, v :: rest =>
      match transformPairWithError v (f i) with
      | .error e => .error e
      | .ok t =>
          match convertSeqAux f (i + 1) rest with
          | .error e => .error e
          | .ok ts => .ok (t :: ts)

/-- `transform.convertIntoSequence` (src/unnamed/part_000): a sequence is
kept, `nil` yields the nil sequence, any other value becomes a singleton;
each element is transformed through `TransformPairWithError`. -/
def convertIntoSequence (value : Tree) (f : Nat → Tree → Except String Tree) :
    Except String Tree :=
  let values : List Tree :=
    match value with
    | .seq xs => xs
    | .null => []
    | v => [v]
  Tree.seq <$> convertSeqAux f 0 values

/-- `transform.transformEnvFile` (src/unnamed/part_000). -/
def transformEnvFile (data : Tree) (p : Path) (_ : Bool) : Except String Tree :=
  convertIntoSequence data (fun i e => transformEnvFileValue (p ++ [toString i]) e)

theorem not_mem_of_lookupKey_none (m : List (String × Tree)) (k : String)
    (h : lookupKey m k = none) : k ∉ m.map Prod.fst := by
  induction m with
  | nil => simp
  | cons hd tl ih =>
      obtain ⟨k0, v0⟩ := hd
      rw [lookupKey] at h
      by_cases h0 : k0 = k
      · rw [if_pos h0] at h; exact absurd h (by simp)
      · rw [if_neg h0] at h
        simp only [List.map_cons, List.mem_cons]
        push_neg
        exact ⟨fun hx => h0 hx.symm, ih h⟩

/-- C5: at `services.*.env_file` the canonicalizer rewrites a string
scalar `v` to `[{path: v, required: true}]`, rewrites a mapping element
lacking `required` by appending `required: true` and leaving its other
entries unchanged, and rejects any element that is neither a string nor a
mapping with `"<path>: invalid type <T> for env_file"`. -/
theorem C5_env_file (p : Path) :
    (∀ (v : String) (ig : Bool), transformEnvFile (.str v) p ig =
        .ok (.seq [.map [("path", .str v), ("required", .bool true)]])) ∧
    (∀ m : List (String × Tree), lookupKey m "required" = none → firstTagMap m = none →
        transformEnvFileValue p (.map m) = .ok (.map (m ++ [("required", .bool true)]))) ∧
    (∀ v : Tree, (∀ s, v ≠ .str s) → (∀ m, v ≠ .map m) →
        transformEnvFileValue p v =
          .error (pathString p ++ ": invalid type " ++ typeName v ++ " for env_file")) := by
  refine ⟨?_, ?_, ?_⟩
  · intro v ig
    simp [transformEnvFile, convertIntoSequence, convertSeqAux, transformPairWithError,
      transformEnvFileValue]
  · intro m hreq htag
    rw [transformEnvFileValue]
    rw [show lookupKey m "required" = none from hreq]
    rw [setMappingValue, htag,
      setKey_append m "required" (.bool true) (not_mem_of_lookupKey_none m _ hreq)]
  · intro v hs hm
    cases v with
    | str s => exact absurd rfl (hs s)
    | map m => exact absurd rfl (hm m)
    | null => rfl
    | int n => rfl
    | bool b => rfl
    | seq xs => rfl
    | pair f t => rfl

/-- C5 witness: the concrete spec scenario `env_file: foo.env`, a record
element lacking `required`, and an invalid integer element. -/
theorem C5_env_file_witness :
    transformEnvFile (.str "foo.env") ["services", "s", "env_file"] false =
      .ok (.seq [.map [("path", .str "foo.env"), ("required", .bool true)]]) ∧
    transformEnvFileValue ["services", "s", "env_file", "0"]
      (.map [("path", Tree.str "foo.env")]) =
      .ok (.map [("path", Tree.str "foo.env"), ("required", .bool true)]) ∧
    transformEnvFileValue ["services", "s", "env_file", "0"] (.int 3) =
      .error "services.s.env_file.0: invalid type int for env_file" :=
  ⟨(C5_env_file ["services", "s", "env_file"]).1 "foo.env" false,
   (C5_env_file ["services", "s", "env_file", "0"]).2.1 [("path", Tree.str "foo.env")]
      (by simp [lookupKey]) (by simp [firstTagMap, firstTag]),
   by
    have := (C5_env_file ["services", "s", "env_file", "0"]).2.2 (.int 3)
      (fun s => by simp) (fun m => by simp)
    rw [this]
    rfl⟩

/-!
## `transform.Canonical` (src/unnamed/part_000): the rewriter table
-/

/-- A segment of a registered pattern: a literal key or `*`. -/
inductive Seg where
  | lit : String → Seg
  | star : Seg
deriving DecidableEq, Repr

/-- A registered pattern. -/
abbrev Pattern := List Seg

/-- One pattern segment against one path segment: a literal matches
itself, `*` matches any segment (including the sequence segment `[]`). -/
def segMatches : Seg → String → Bool
  | .lit s, t => s == t
  | .star, _ => true

/-- `tree.Path.Matches`: equal length and segment-wise match. -/
def pathMatches : Path → Pattern → Bool
  | [], [] => true
  | s :: ps, g :: gs => segMatches g s && pathMatches ps gs
  | _, _ => false

/-- The registered rewriters embedded here (the names of `init` in
src/unnamed/part_000). -/
inductive Rule where
  | service
  | envFile
  | dependsOn
  | serviceNetworks
  | volumeMount
  | dns
  | ports
  | ssh
  | keyValue
  | maybeExternal
  | includeEntry
deriving DecidableEq, Repr

/-- The `transformers` table of `init` (src/unnamed/part_000), restricted
to the rewriters whose code is under src/ (`env_file`, `dns`, `build.ssh`)
or whose rewrite §4.C of the spec defines (`depends_on`, `networks`,
`volumes.*`, `ports`, `build.additional_contexts`, the external resources
and `include.*`). The remaining registrations (build, ulimits, devices,
extends, file mounts) have neither code under src/ nor a spec'd rewrite
and are left to the generic recursion. At most one pattern matches any
path (patterns of equal length differ in a literal segment). -/
def transformers : List (Pattern × Rule) :=
  [([.lit "services", .star], .service),
   ([.lit "services", .star, .lit "depends_on"], .dependsOn),
   ([.lit "services", .star, .lit "env_file"], .envFile),
   ([.lit "services", .star, .lit "networks"], .serviceNetworks),
   ([.lit "services", .star, .lit "volumes", .star], .volumeMount),
   ([.lit "services", .star, .lit "dns"], .dns),
   ([.lit "services", .star, .lit "ports"], .ports),
   ([.lit "services", .star, .lit "build", .lit "ssh"], .ssh),
   ([.lit "services", .star, .lit "build", .lit "additional_contexts"], .keyValue),
   ([.lit "volumes", .star], .maybeExternal),
   ([.lit "networks", .star], .maybeExternal),
   ([.lit "secrets", .star], .maybeExternal),
   ([.lit "configs", .star], .maybeExternal),
   ([.lit "include", .star], .includeEntry)]

/-- The rewriter registered for a path, if any. -/
def findRule (p : Path) : Option Rule :=
  (transformers.find? (fun e => pathMatches p e.1)).map Prod.snd

/-- `transform.transformStringOrList` (src/unnamed/part_000): a string
becomes a singleton sequence, everything else is returned as is. -/
def transformStringOrList (data : Tree) (_ : Path) (_ : Bool) : Except String Tree :=
  match data with
  | .str t => .ok (.seq [.str t])
  | t => .ok t

/-- One entry of `convertIntoMapping` (src/unnamed/part_000): the entry
passes through `TransformPairWithError` with a parser producing the key
and the converted value. -/
def convertEntry (parse : Tree → Except String (String × Tree)) (entry : Tree) :
    Except String (String × Tree) :=
  match entry with
  | .pair first second =>
      match parse first with
      | .ok (k, val) => .ok (k, WrapPairWithValue val second)
      | .error e => .error e
  | e => parse e

/-- The entry loop of `convertIntoMapping` (`converted[key] = value`). -/
def convertMapAux (parse : Tree → Except String (String × Tree)) :
    List Tree → List (String × Tree) → Except String (List (String × Tree))
  | [], acc => .ok acc
  | e :: rest, acc =>
      match convertEntry parse e with
      | .error err => .error err
      | .ok (k, v) => convertMapAux parse rest (setKey acc k v)

/-- `transform.convertIntoMapping` (src/unnamed/part_000): sequences are
converted entry-wise, mappings are returned as is, anything else yields
the Go nil mapping (embedded as the empty mapping). -/
def convertIntoMapping (value : Tree) (parse : Tree → Except String (String × Tree)) :
    Except String Tree :=
  match value with
  | .seq xs =>
      (match convertMapAux parse xs [] with
      | .ok m => .ok (.map m)
      | .error e => .error e)
  | .map m => .ok (.map m)
  | _ => .ok (.map [])

/-- `strings.Cut(s, sep)`: split at the first occurrence of `sep`. -/
def cutAt (s sep : String) : Option (String × String) :=
  match s.splitOn sep with
  | [] => none
  | [_] => none
  | a :: rest => some (a, String.intercalate sep rest)

/-- The ssh key parser of `transformSSH` (src/transform/ssh.go):
`id=path` splits at the first `=`, a bare `default` maps to null, any
other bare string or a non-string is an error (`%q` embedded as plain
quoting). -/
def parseSSHKey (e : Tree) : Except String (String × Tree) :=
  match e with
  | .str s =>
      match cutAt s "=" with
      | some (id, path) => .ok (id, .str path)
      | none =>
          if s = "default" then .ok ("default", .null)
          else .error ("invalid ssh key \"" ++ s ++ "\"")
  | v => .error ("invalid ssh key type " ++ typeName v)

/-- `transform.transformSSH` (src/transform/ssh.go). -/
def transformSSH (data : Tree) (p : Path) (_ : Bool) : Except String Tree :=
  match data with
  | .map m => .ok (.map m)
  | .seq xs => convertIntoMapping (.seq xs) parseSSHKey
  | v => .error (pathString p ++ ": invalid type " ++ typeName v ++ " for ssh")

/-- Modelled from the spec: `transformKeyValue`
(`services.*.build.additional_contexts`; not among the sources) — coerce
a sequence of `KEY=VALUE` strings to a mapping, the `default` key may
carry a null value; a mapping is kept unchanged. -/
def transformKeyValue (data : Tree) (p : Path) (_ : Bool) : Except String Tree :=
  match data with
  | .map m => .ok (.map m)
  | .seq xs => convertIntoMapping (.seq xs) parseSSHKey
  | v => .error (pathString p ++ ": invalid type " ++ typeName v ++
      " for additional_contexts")

/-- Modelled from the spec: the per-name record of `transformDependsOn`. -/
def parseDependsOn (e : Tree) : Except String (String × Tree) :=
  match e with
  | .str s => .ok (s, .map [("condition", .str "service_started"),
      ("required", .bool true), ("restart", .bool false)])
  | v => .error ("invalid depends_on entry type " ++ typeName v)

/-- Modelled from the spec: `transformDependsOn` (not among the sources) —
coerce a list of service names to the mapping
`name → {condition: service_started, required: true, restart: false}`;
a mapping is kept unchanged. -/
def transformDependsOn (data : Tree) (p : Path) (_ : Bool) : Except String Tree :=
  match data with
  | .map m => .ok (.map m)
  | .seq xs => convertIntoMapping (.seq xs) parseDependsOn
  | v => .error (pathString p ++ ": invalid type " ++ typeName v ++ " for depends_on")

/-- Modelled from the spec: the per-name entry of
`transformServiceNetworks`. -/
def parseNetwork (e : Tree) : Except String (String × Tree) :=
  match e with
  | .str s => .ok (s, .null)
  | v => .error ("invalid network entry type " ++ typeName v)

/-- Modelled from the spec: `transformServiceNetworks` (not among the
sources) — coerce a list of network names to `name → null` via
`convertIntoMapping`; a mapping is kept unchanged. -/
def transformServiceNetworks (data : Tree) (_ : Path) (_ : Bool) : Except String Tree :=
  convertIntoMapping data parseNetwork

/-- Modelled from the spec: one `"HOST:CONTAINER[/proto]"` port string as
a `{target, published, protocol, mode}` record. -/
def parsePortString (s : String) : Tree :=
  let hp := match cutAt s "/" with
    | some pr => pr
    | none => (s, "tcp")
  match cutAt hp.1 ":" with
  | some (host, container) =>
      .map [("target", .str container), ("published", .str host),
        ("protocol", .str hp.2), ("mode", .str "ingress")]
  | none =>
      .map [("target", .str hp.1), ("protocol", .str hp.2), ("mode", .str "ingress")]

/-- Modelled from the spec: `transformPorts` (not among the sources) —
coerce the port strings of the sequence to records, keep record elements
unchanged. -/
def transformPorts (data : Tree) (p : Path) (_ : Bool) : Except String Tree :=
  match data with
  | .seq xs => convertIntoSequence (.seq xs) (fun i e =>
      match e with
      | .str s => .ok (parsePortString s)
      | .map m => .ok (.map m)
      | v => .error (pathString (p ++ [toString i]) ++ ": invalid type " ++
          typeName v ++ " for port"))
  | v => .error (pathString p ++ ": invalid type " ++ typeName v ++ " for ports")

/-- Modelled from the spec: `transformVolumeMount` (`services.*.volumes.*`;
not among the sources) — coerce a short-form `SOURCE:TARGET[:opts]` mount
string to a structured mount record; a record is kept unchanged. -/
def transformVolumeMount (data : Tree) (p : Path) (_ : Bool) : Except String Tree :=
  match data with
  | .map m => .ok (.map m)
  | .str s =>
      .ok (match s.splitOn ":" with
        | [t] => .map [("type", .str "volume"), ("target", .str t)]
        | [src, t] => .map [("type", .str "volume"), ("source", .str src),
            ("target", .str t)]
        | src :: t :: opts => .map [("type", .str "volume"), ("source", .str src),
            ("target", .str t), ("read_only", .bool (opts.contains "ro"))]
        | [] => .map [])
  | v => .error (pathString p ++ ": invalid type " ++ typeName v ++ " for volume mount")

/-- Modelled from the spec: `transformMaybeExternal` (not among the
sources) — ensure `external` is boolean: the deprecated
`external: {name: n}` form becomes `external: true`, adopting the name;
defaulting of `name` happens later in `setNameFromKey` (see the comments
in src/loader/namedmappings.go resourceMapping), not in this rewriter. -/
def transformMaybeExternal (data : Tree) (p : Path) (_ : Bool) : Except String Tree :=
  match data with
  | .null => .ok .null
  | .map m =>
      match lookupKey m "external" with
      | some (.map em) =>
          match lookupKey em "name" with
          | some n => .ok (.map (setKey (setKey m "external" (.bool true)) "name" n))
          | none => .ok (.map (setKey m "external" (.bool true)))
      | _ => .ok (.map m)
  | v => .error (pathString p ++ ": invalid type " ++ typeName v ++ " for resource")

/-- Modelled from the spec: `transformInclude` (not among the sources) —
coerce a scalar include path to `{path: <string>}`; a mapping is kept. -/
def transformInclude (data : Tree) (p : Path) (_ : Bool) : Except String Tree :=
  match data with
  | .str s => .ok (.map [("path", .str s)])
  | .map m => .ok (.map m)
  | v => .error (pathString p ++ ": invalid type " ++ typeName v ++ " for include")

/-- Dispatch a registered rule to its rewriter (`service` recurses inside
`transform` and is unreachable here). -/
def applyRule : Rule → Tree → Path → Bool → Except String Tree
  | .envFile, t, p, ig => transformEnvFile t p ig
  | .dependsOn, t, p, ig => transformDependsOn t p ig
  | .serviceNetworks, t, p, ig => transformServiceNetworks t p ig
  | .volumeMount, t, p, ig => transformVolumeMount t p ig
  | .dns, t, p, ig => transformStringOrList t p ig
  | .ports, t, p, ig => transformPorts t p ig
  | .ssh, t, p, ig => transformSSH t p ig
  | .keyValue, t, p, ig => transformKeyValue t p ig
  | .maybeExternal, t, p, ig => transformMaybeExternal t p ig
  | .includeEntry, t, p, ig => transformInclude t p ig
  | .service, t, _, _ => .ok t

/-- A registered rewriter applied through `TransformPairWithError`, as
`transform` does. -/
def applyRulePair (r : Rule) (t : Tree) (p : Path) (ig : Bool) : Except String Tree :=
  transformPairWithError t (fun v => applyRule r v p ig)

mutual

/-- `transform.transform` (src/unnamed/part_000): apply the registered
rewriter through `TransformPairWithError` when a pattern matches — the
`services.*` rule delegates to `transformService`, modelled from the spec
as applying the registered sub-rewrites to the service mapping's entries
(returning any non-mapping unchanged) — otherwise recurse into mappings
(path extended by the key) and sequences (path extended by `[]`). -/
def transform (data : Tree) (p : Path) (ig : Bool) : Except String Tree :=
  match findRule p with
  | some .service =>
      (match data with
      | .pair (.map m) second =>
          (match transformMapping m p ig with
          | .ok m' => .ok (WrapPairWithValue (.map m') second)
          | .error e => .error e)
      | .pair f second => .ok (WrapPairWithValue f second)
      | .map m =>
          (match transformMapping m p ig with
          | .ok m' => .ok (.map m')
          | .error e => .error e)
      | t => .ok t)
  | some r => applyRulePair r data p ig
  | none =>
      match data with
      | .map m =>
          (match transformMapping m p ig with
          | .ok m' => .ok (.map m')
          | .error e => .error e)
      | .seq xs =>
          (match transformSeq xs p ig with
          | .ok xs' => .ok (.seq xs')
          | .error e => .error e)
      | t => .ok t

/-- `transform.transformMapping` (src/unnamed/part_000). -/
def transformMapping (v : List (String × Tree)) (p : Path) (ig : Bool) :
    Except String (List (String × Tree)) :=
  match v with
  | [] => .ok []
  | (k, e) :: rest =>
      match transform e (p ++ [k]) ig with
      | .error err => .error err
      | .ok t =>
          match transformMapping rest p ig with
          | .error err => .error err
          | .ok ts => .ok ((k, t) :: ts)

/-- `transform.transformSequence` (src/unnamed/part_000). -/
def transformSeq (v : List Tree) (p : Path) (ig : Bool) :
    Except String (List Tree) :=
  match v with
  | [] => .ok []
  | e :: rest =>
      match transform e (p ++ ["[]"]) ig with
      | .error err => .error err
      | .ok t =>
          match transformSeq rest p ig with
          | .error err => .error err
          | .ok ts => .ok (t :: ts)

end

/-- `transform.Canonical` (src/unnamed/part_000): transform from the root
path (the Go `.(map[string]any)` assertion embedded as an error). -/
def Canonical (yaml : List (String × Tree)) (ig : Bool) :
    Except String (List (String × Tree)) :=
  match transform (.map yaml) [] ig with
  | .ok (.map m) => .ok m
  | .ok _ => .error "canonical result is not a mapping"
  | .error e => .error e

/-!
## Canonicalizer idempotence: structural helper lemmas
-/

theorem one_le_sizeOf (t : Tree) : 1 ≤ sizeOf t := by
  cases t <;> simp_arith

theorem sizeOf_mem_map {k : String} {e : Tree} {m : List (String × Tree)}
    (h : (k, e) ∈ m) : sizeOf e < sizeOf (Tree.map m) := by
  have h1 : sizeOf (k, e) < sizeOf m := List.sizeOf_lt_of_mem h
  have h2 : sizeOf e < sizeOf (k, e) := by simp
  simp only [Tree.map.sizeOf_spec]
  omega

theorem sizeOf_mem_seq {e : Tree} {xs : List Tree}
    (h : e ∈ xs) : sizeOf e < sizeOf (Tree.seq xs) := by
  have h1 : sizeOf e < sizeOf xs := List.sizeOf_lt_of_mem h
  simp only [Tree.seq.sizeOf_spec]
  omega

mutual

theorem wrapPair_const (s : String) : ∀ (v : Tree) (p : Path),
    wrapPair v p (fun _ _ => s) = wrapPair v [] (fun _ _ => s)
  | .map m, p => by
      rw [wrapPair, wrapPair, wrapPairMap_const s m p, wrapPairMap_const s m []]
  | .seq xs, p => by
      rw [wrapPair, wrapPair, wrapPairSeq_const s xs p 0, wrapPairSeq_const s xs [] 0]
  | .null, _ => rfl
  | .str _, _ => rfl
  | .int _, _ => rfl
  | .bool _, _ => rfl
  | .pair _ _, _ => rfl

theorem wrapPairMap_const (s : String) : ∀ (m : List (String × Tree)) (p : Path),
    wrapPairMap m p (fun _ _ => s) =
      m.map (fun kv => (kv.1, wrapPair kv.2 [] (fun _ _ => s)))
  | [], _ => rfl
  | (k, v) :: rest, p => by
      rw [wrapPairMap, wrapPair_const s v (p ++ [k]), wrapPairMap_const s rest p]
      rfl

theorem wrapPairSeq_const (s : String) : ∀ (xs : List Tree) (p : Path) (i : Nat),
    wrapPairSeq xs p i (fun _ _ => s) =
      xs.map (fun e => wrapPair e [] (fun _ _ => s))
  | [], _, _ => rfl
  | v :: rest, p, i => by
      rw [wrapPairSeq, wrapPair_const s v (p ++ [toString i]),
        wrapPairSeq_const s rest p (i + 1)]
      rfl

end

theorem wrap_map_eq (m : List (String × Tree)) (s : String) :
    WrapPairWithValue (.map m) s =
      .map (m.map (fun kv => (kv.1, WrapPairWithValue kv.2 s))) := by
  rw [WrapPairWithValue, wrapPair, wrapPairMap_const]
  rfl

theorem wrap_seq_eq (xs : List Tree) (s : String) :
    WrapPairWithValue (.seq xs) s =
      .seq (xs.map (fun e => WrapPairWithValue e s)) := by
  rw [WrapPairWithValue, wrapPair, wrapPairSeq_const]
  rfl

theorem wrap_null_eq (s : String) : WrapPairWithValue .null s = .pair .null s := rfl

theorem wrap_str_eq (a s : String) :
    WrapPairWithValue (.str a) s = .pair (.str a) s := rfl

theorem wrap_int_eq (n : Int) (s : String) :
    WrapPairWithValue (.int n) s = .pair (.int n) s := rfl

theorem wrap_bool_eq (b : Bool) (s : String) :
    WrapPairWithValue (.bool b) s = .pair (.bool b) s := rfl

theorem wrap_pair_eq (f : Tree) (t s : String) :
    WrapPairWithValue (.pair f t) s = .pair (.pair f t) s := rfl

theorem lookupKey_map_val (g : Tree → Tree) (m : List (String × Tree)) (k : String) :
    lookupKey (m.map (fun kv => (kv.1, g kv.2))) k = (lookupKey m k).map g := by
  induction m with
  | nil => rfl
  | cons kv rest ih =>
      obtain ⟨k0, v0⟩ := kv
      by_cases hk : k0 = k
      · subst hk; simp [lookupKey]
      · simp [lookupKey, hk, ih]

theorem wrap_notMap {v : Tree} (h : ∀ mm, v ≠ .map mm) (s : String) :
    ∀ mm, WrapPairWithValue v s ≠ .map mm := by
  cases v with
  | map m => exact absurd rfl (h m)
  | seq xs => rw [wrap_seq_eq]; intro mm; simp
  | null => intro mm; rw [wrap_null_eq]; simp
  | str a => intro mm; rw [wrap_str_eq]; simp
  | int n => intro mm; rw [wrap_int_eq]; simp
  | bool b => intro mm; rw [wrap_bool_eq]; simp
  | pair f t => intro mm; rw [wrap_pair_eq]; simp

theorem wrap_ne_str (v : Tree) (s a : String) :
    WrapPairWithValue v s ≠ .str a := by
  cases v with
  | map m => rw [wrap_map_eq]; simp
  | seq xs => rw [wrap_seq_eq]; simp
  | null => rw [wrap_null_eq]; simp
  | str b => rw [wrap_str_eq]; simp
  | int n => rw [wrap_int_eq]; simp
  | bool b => rw [wrap_bool_eq]; simp
  | pair f t => rw [wrap_pair_eq]; simp

theorem wrap_leafPair_eq {v : Tree} (hm : ∀ mm, v ≠ .map mm)
    (hs : ∀ xs, v ≠ .seq xs) (s : String) :
    WrapPairWithValue v s = .pair v s := by
  cases v with
  | map m => exact absurd rfl (hm m)
  | seq xs => exact absurd rfl (hs xs)
  | null => rfl
  | str a => rfl
  | int n => rfl
  | bool b => rfl
  | pair f t => rfl

theorem wrap_eq_pair_elim {v : Tree} {s : String} {a : Tree} {b : String}
    (h : WrapPairWithValue v s = .pair a b) :
    v = a ∧ (∀ mm, v ≠ .map mm) ∧ (∀ xs, v ≠ .seq xs) := by
  cases v with
  | map m => rw [wrap_map_eq] at h; exact absurd h (by simp)
  | seq xs => rw [wrap_seq_eq] at h; exact absurd h (by simp)
  | null =>
      rw [wrap_null_eq] at h
      exact ⟨(Tree.pair.inj h).1, by simp, by simp⟩
  | str c =>
      rw [wrap_str_eq] at h
      exact ⟨(Tree.pair.inj h).1, by simp, by simp⟩
  | int n =>
      rw [wrap_int_eq] at h
      exact ⟨(Tree.pair.inj h).1, by simp, by simp⟩
  | bool c =>
      rw [wrap_bool_eq] at h
      exact ⟨(Tree.pair.inj h).1, by simp, by simp⟩
  | pair f t =>
      rw [wrap_pair_eq] at h
      exact ⟨(Tree.pair.inj h).1, by simp, by simp⟩

theorem pathMatches_len : ∀ (p : Path) (g : Pattern),
    pathMatches p g = true → p.length = g.length := by
  intro p
  induction p with
  | nil => intro g h; cases g with
      | nil => rfl
      | cons a gs => simp [pathMatches] at h
  | cons x xs ih =>
      intro g h
      cases g with
      | nil => simp [pathMatches] at h
      | cons a gs =>
          rw [pathMatches, Bool.and_eq_true] at h
          simp [ih gs h.2]

theorem findRule_service_len (q : Path) (h : findRule q = some .service) :
    q.length = 2 := by
  rw [findRule] at h
  cases hf : transformers.find? (fun e => pathMatches q e.1) with
  | none => rw [hf] at h; exact absurd h (by simp)
  | some e =>
      rw [hf] at h
      have he : e ∈ transformers := List.mem_of_find?_eq_some hf
      have hm : pathMatches q e.1 = true := by
        have := List.find?_some hf
        simpa using this
      have h2 : e.2 = Rule.service := by simpa using h
      fin_cases he <;> simp_all <;>
        (first
          | rfl
          | (have hql := pathMatches_len q _ hm; simp at hql; omega))

theorem findRule_deep (q : Path) (r : Rule) (h : findRule q = some r)
    (hlen : 3 ≤ q.length) :
    r = .dependsOn ∨ r = .envFile ∨ r = .serviceNetworks ∨ r = .volumeMount ∨
      r = .dns ∨ r = .ports ∨ r = .ssh ∨ r = .keyValue := by
  rw [findRule] at h
  cases hf : transformers.find? (fun e => pathMatches q e.1) with
  | none => rw [hf] at h; exact absurd h (by simp)
  | some e =>
      rw [hf] at h
      have he : e ∈ transformers := List.mem_of_find?_eq_some hf
      have hm : pathMatches q e.1 = true := by
        have := List.find?_some hf
        simpa using this
      have h2 : e.2 = r := by simpa using h
      have hql := pathMatches_len q e.1 hm
      fin_cases he <;> simp_all <;> omega

/-!
## Per-rewriter idempotence and wrap-closure
-/

theorem cim_out (t : Tree) (parse : Tree → Except String (String × Tree)) (v : Tree)
    (h : convertIntoMapping t parse = .ok v) : ∃ m, v = .map m := by
  cases t with
  | seq xs =>
      rw [convertIntoMapping] at h
      cases hc : convertMapAux parse xs [] with
      | ok m => rw [hc] at h; exact ⟨m, by injection h with h1; exact h1.symm⟩
      | error e => rw [hc] at h; exact absurd h (by simp)
  | map m => exact ⟨m, by injection h with h1; exact h1.symm⟩
  | null => exact ⟨[], by injection h with h1; exact h1.symm⟩
  | str a => exact ⟨[], by injection h with h1; exact h1.symm⟩
  | int n => exact ⟨[], by injection h with h1; exact h1.symm⟩
  | bool b => exact ⟨[], by injection h with h1; exact h1.symm⟩
  | pair f s => exact ⟨[], by injection h with h1; exact h1.symm⟩

theorem cim_map (m : List (String × Tree)) (parse : Tree → Except String (String × Tree)) :
    convertIntoMapping (.map m) parse = .ok (.map m) := rfl

theorem mapOut_tpwe_idem (F : Tree → Except String Tree)
    (hout : ∀ t v, F t = .ok v → ∃ m, v = .map m)
    (hmap : ∀ m, F (.map m) = .ok (.map m)) :
    ∀ t t', transformPairWithError t F = .ok t' →
      transformPairWithError t' F = .ok t' := by
  intro t t' h
  cases t with
  | pair f s =>
      simp only [transformPairWithError] at h
      cases hv : F f with
      | error e => simp only [hv] at h; exact absurd h (by simp)
      | ok v =>
          simp only [hv] at h
          obtain ⟨m, rfl⟩ := hout f v hv
          have ht' : t' = .map (m.map (fun kv => (kv.1, WrapPairWithValue kv.2 s))) := by
            rw [wrap_map_eq] at h; injection h with h1; exact h1.symm
          rw [ht']
          exact hmap _
  | map m =>
      simp only [transformPairWithError] at h
      obtain ⟨m', rfl⟩ := hout _ _ h
      exact hmap m'
  | null =>
      simp only [transformPairWithError] at h
      obtain ⟨m', rfl⟩ := hout _ _ h
      exact hmap m'
  | str a =>
      simp only [transformPairWithError] at h
      obtain ⟨m', rfl⟩ := hout _ _ h
      exact hmap m'
  | int n =>
      simp only [transformPairWithError] at h
      obtain ⟨m', rfl⟩ := hout _ _ h
      exact hmap m'
  | bool b =>
      simp only [transformPairWithError] at h
      obtain ⟨m', rfl⟩ := hout _ _ h
      exact hmap m'
  | seq xs =>
      simp only [transformPairWithError] at h
      obtain ⟨m', rfl⟩ := hout _ _ h
      exact hmap m'

theorem mapOut_tpwe_wrapfix (F : Tree → Except String Tree)
    (hout : ∀ t v, F t = .ok v → ∃ m, v = .map m)
    (hmap : ∀ m, F (.map m) = .ok (.map m))
    (hnofix : ∀ v, (∀ mm, v ≠ .map mm) → F v ≠ .ok v) :
    ∀ t s, transformPairWithError t F = .ok t →
      transformPairWithError (WrapPairWithValue t s) F =
        .ok (WrapPairWithValue t s) := by
  intro t s h
  cases t with
  | map m =>
      rw [wrap_map_eq]
      exact hmap _
  | pair f s0 =>
      simp only [transformPairWithError] at h
      cases hv : F f with
      | error e => simp only [hv] at h; exact absurd h (by simp)
      | ok v =>
          simp only [hv] at h
          injection h with h1
          obtain ⟨hvf, hvm, h3⟩ := wrap_eq_pair_elim h1
          subst hvf
          exact absurd hv (hnofix _ hvm)
  | seq xs =>
      simp only [transformPairWithError] at h
      obtain ⟨m', hm'⟩ := hout _ _ h
      exact absurd hm' (by simp)
  | null =>
      simp only [transformPairWithError] at h
      exact absurd h (hnofix _ (by simp))
  | str a =>
      simp only [transformPairWithError] at h
      exact absurd h (hnofix _ (by simp))
  | int n =>
      simp only [transformPairWithError] at h
      exact absurd h (hnofix _ (by simp))
  | bool b =>
      simp only [transformPairWithError] at h
      exact absurd h (hnofix _ (by simp))

theorem hnofix_of_hout (F : Tree → Except String Tree)
    (hout : ∀ t v, F t = .ok v → ∃ m, v = .map m) :
    ∀ v, (∀ mm, v ≠ .map mm) → F v ≠ .ok v := by
  intro v hnm hF
  obtain ⟨m, hm⟩ := hout v v hF
  exact hnm m hm

theorem dep_out (p : Path) (ig : Bool) : ∀ t v,
    transformDependsOn t p ig = .ok v → ∃ m, v = .map m := by
  intro t v h
  cases t with
  | map m => exact ⟨m, by injection h with h1; exact h1.symm⟩
  | seq xs =>
      simp only [transformDependsOn] at h
      exact cim_out _ _ _ h
  | null => exact absurd h (by simp [transformDependsOn])
  | str a => exact absurd h (by simp [transformDependsOn])
  | int n => exact absurd h (by simp [transformDependsOn])
  | bool b => exact absurd h (by simp [transformDependsOn])
  | pair f s => exact absurd h (by simp [transformDependsOn])

theorem ssh_out (p : Path) (ig : Bool) : ∀ t v,
    transformSSH t p ig = .ok v → ∃ m, v = .map m := by
  intro t v h
  cases t with
  | map m => exact ⟨m, by injection h with h1; exact h1.symm⟩
  | seq xs =>
      simp only [transformSSH] at h
      exact cim_out _ _ _ h
  | null => exact absurd h (by simp [transformSSH])
  | str a => exact absurd h (by simp [transformSSH])
  | int n => exact absurd h (by simp [transformSSH])
  | bool b => exact absurd h (by simp [transformSSH])
  | pair f s => exact absurd h (by simp [transformSSH])

theorem kv_out (p : Path) (ig : Bool) : ∀ t v,
    transformKeyValue t p ig = .ok v → ∃ m, v = .map m := by
  intro t v h
  cases t with
  | map m => exact ⟨m, by injection h with h1; exact h1.symm⟩
  | seq xs =>
      simp only [transformKeyValue] at h
      exact cim_out _ _ _ h
  | null => exact absurd h (by simp [transformKeyValue])
  | str a => exact absurd h (by simp [transformKeyValue])
  | int n => exact absurd h (by simp [transformKeyValue])
  | bool b => exact absurd h (by simp [transformKeyValue])
  | pair f s => exact absurd h (by simp [transformKeyValue])

theorem net_out (p : Path) (ig : Bool) : ∀ t v,
    transformServiceNetworks t p ig = .ok v → ∃ m, v = .map m := by
  intro t v h
  simp only [transformServiceNetworks] at h
  exact cim_out _ _ _ h

theorem vm_out (p : Path) (ig : Bool) : ∀ t v,
    transformVolumeMount t p ig = .ok v → ∃ m, v = .map m := by
  intro t v h
  cases t with
  | map m => exact ⟨m, by injection h with h1; exact h1.symm⟩
  | str a =>
      rw [transformVolumeMount] at h
      injection h with h1
      cases hs : (a.splitOn ":") with
      | nil => exact ⟨[], by rw [hs] at h1; exact h1.symm⟩
      | cons x rest =>
          cases rest with
          | nil => exact ⟨_, by rw [hs] at h1; exact h1.symm⟩
          | cons y rest2 =>
              cases rest2 with
              | nil => exact ⟨_, by rw [hs] at h1; exact h1.symm⟩
              | cons z rest3 => exact ⟨_, by rw [hs] at h1; exact h1.symm⟩
  | seq xs => exact absurd h (by simp [transformVolumeMount])
  | null => exact absurd h (by simp [transformVolumeMount])
  | int n => exact absurd h (by simp [transformVolumeMount])
  | bool b => exact absurd h (by simp [transformVolumeMount])
  | pair f s => exact absurd h (by simp [transformVolumeMount])

theorem inc_out (p : Path) (ig : Bool) : ∀ t v,
    transformInclude t p ig = .ok v → ∃ m, v = .map m := by
  intro t v h
  cases t with
  | map m => exact ⟨m, by injection h with h1; exact h1.symm⟩
  | str a => exact ⟨_, by injection h with h1; exact h1.symm⟩
  | seq xs => exact absurd h (by simp [transformInclude])
  | null => exact absurd h (by simp [transformInclude])
  | int n => exact absurd h (by simp [transformInclude])
  | bool b => exact absurd h (by simp [transformInclude])
  | pair f s => exact absurd h (by simp [transformInclude])

theorem sol_str (p : Path) (ig : Bool) (a : String) :
    transformStringOrList (.str a) p ig = .ok (.seq [.str a]) := rfl

theorem sol_fix (p : Path) (ig : Bool) {v : Tree} (h : ∀ a, v ≠ .str a) :
    transformStringOrList v p ig = .ok v := by
  cases v with
  | str a => exact absurd rfl (h a)
  | map m => rfl
  | seq xs => rfl
  | null => rfl
  | int n => rfl
  | bool b => rfl
  | pair f s => rfl

theorem sol_out (p : Path) (ig : Bool) {t v : Tree}
    (h : transformStringOrList t p ig = .ok v) : ∀ a, v ≠ .str a := by
  cases t with
  | str b => rw [sol_str] at h; injection h with h1; rw [← h1]; simp
  | map m => injection h with h1; rw [← h1]; simp
  | seq xs => injection h with h1; rw [← h1]; simp
  | null => injection h with h1; rw [← h1]; simp
  | int n => injection h with h1; rw [← h1]; simp
  | bool b => injection h with h1; rw [← h1]; simp
  | pair f s => injection h with h1; rw [← h1]; simp

theorem sol_wrap (p : Path) (ig : Bool) {v : Tree} (s : String)
    (hns : ∀ a, v ≠ .str a)
    (hfix : transformStringOrList v p ig = .ok v) :
    transformPairWithError (WrapPairWithValue v s)
        (fun x => transformStringOrList x p ig) =
      .ok (WrapPairWithValue v s) := by
  cases v with
  | map m =>
      rw [wrap_map_eq]
      rfl
  | seq xs =>
      rw [wrap_seq_eq]
      rfl
  | str a => exact absurd rfl (hns a)
  | null => rfl
  | int n => rfl
  | bool b => rfl
  | pair f s0 => rfl

theorem dns_idem (p : Path) (ig : Bool) (t t' : Tree)
    (h : transformPairWithError t (fun x => transformStringOrList x p ig) = .ok t') :
    transformPairWithError t' (fun x => transformStringOrList x p ig) = .ok t' := by
  cases t with
  | pair f s0 =>
      simp only [transformPairWithError] at h
      cases hv : transformStringOrList f p ig with
      | error e => simp only [hv] at h; exact absurd h (by simp)
      | ok v =>
          simp only [hv] at h
          injection h with h1
          rw [← h1]
          exact sol_wrap p ig s0 (sol_out p ig hv) (sol_fix p ig (sol_out p ig hv))
  | map m =>
      simp only [transformPairWithError] at h
      injection h with h1
      rw [← h1]
      rfl
  | seq xs =>
      simp only [transformPairWithError] at h
      injection h with h1
      rw [← h1]
      rfl
  | null =>
      simp only [transformPairWithError] at h
      injection h with h1
      rw [← h1]
      rfl
  | int n =>
      simp only [transformPairWithError] at h
      injection h with h1
      rw [← h1]
      rfl
  | bool b =>
      simp only [transformPairWithError] at h
      injection h with h1
      rw [← h1]
      rfl
  | str a =>
      simp only [transformPairWithError, transformStringOrList] at h
      injection h with h1
      rw [← h1]
      rfl

theorem dns_wrapfix (p : Path) (ig : Bool) (t : Tree) (s : String)
    (h : transformPairWithError t (fun x => transformStringOrList x p ig) = .ok t) :
    transformPairWithError (WrapPairWithValue t s)
        (fun x => transformStringOrList x p ig) =
      .ok (WrapPairWithValue t s) := by
  cases t with
  | pair f0 s0 =>
      simp only [transformPairWithError] at h
      cases hv : transformStringOrList f0 p ig with
      | error e => simp only [hv] at h; exact absurd h (by simp)
      | ok v =>
          simp only [hv] at h
          injection h with h1
          obtain ⟨hvf, hvm, hvs⟩ := wrap_eq_pair_elim h1
          subst hvf
          rw [wrap_pair_eq]
          rfl
  | map m =>
      simp only [transformPairWithError] at h
      exact sol_wrap p ig s (by simp) h
  | seq xs =>
      simp only [transformPairWithError] at h
      exact sol_wrap p ig s (by simp) h
  | null =>
      simp only [transformPairWithError] at h
      exact sol_wrap p ig s (by simp) h
  | int n =>
      simp only [transformPairWithError] at h
      exact sol_wrap p ig s (by simp) h
  | bool b =>
      simp only [transformPairWithError] at h
      exact sol_wrap p ig s (by simp) h
  | str a =>
      simp only [transformPairWithError, transformStringOrList] at h
      exact absurd h (by simp)

/-- The invariant of `transformMaybeExternal` outputs: null, or a mapping
whose `external` entry (if any) is not a mapping. -/
def mexOK : Tree → Prop
  | .null => True
  | .map m => ∀ em, lookupKey m "external" ≠ some (.map em)
  | .str _ => False
  | .int _ => False
  | .bool _ => False
  | .seq _ => False
  | .pair _ _ => False

theorem mex_out (p : Path) (ig : Bool) {t v : Tree}
    (h : transformMaybeExternal t p ig = .ok v) : mexOK v := by
  cases t with
  | null =>
      injection h with h1
      rw [← h1]
      trivial
  | map m =>
      rw [transformMaybeExternal] at h
      cases hl : lookupKey m "external" with
      | none =>
          simp only [hl] at h
          injection h with h1
          rw [← h1, mexOK, hl]
          simp
      | some w =>
          cases w with
          | map em =>
              simp only [hl] at h
              cases hn : lookupKey em "name" with
              | some n =>
                  simp only [hn] at h
                  injection h with h1
                  rw [← h1, mexOK]
                  intro em'
                  rw [lookupKey_setKey_ne _ "name" "external" _ (by decide),
                    lookupKey_setKey_self]
                  simp
              | none =>
                  simp only [hn] at h
                  injection h with h1
                  rw [← h1, mexOK]
                  intro em'
                  rw [lookupKey_setKey_self]
                  simp
          | null =>
              simp only [hl] at h
              injection h with h1
              rw [← h1, mexOK, hl]
              simp
          | str a =>
              simp only [hl] at h
              injection h with h1
              rw [← h1, mexOK, hl]
              simp
          | int n =>
              simp only [hl] at h
              injection h with h1
              rw [← h1, mexOK, hl]
              simp
          | bool b =>
              simp only [hl] at h
              injection h with h1
              rw [← h1, mexOK, hl]
              simp
          | seq xs =>
              simp only [hl] at h
              injection h with h1
              rw [← h1, mexOK, hl]
              simp
          | pair f s =>
              simp only [hl] at h
              injection h with h1
              rw [← h1, mexOK, hl]
              simp
  | str a => exact absurd h (by simp [transformMaybeExternal])
  | seq xs => exact absurd h (by simp [transformMaybeExternal])
  | int n => exact absurd h (by simp [transformMaybeExternal])
  | bool b => exact absurd h (by simp [transformMaybeExternal])
  | pair f s => exact absurd h (by simp [transformMaybeExternal])

theorem mex_fix (p : Path) (ig : Bool) {v : Tree} (h : mexOK v) :
    transformMaybeExternal v p ig = .ok v := by
  cases v with
  | null => rfl
  | map m =>
      rw [transformMaybeExternal]
      rw [mexOK] at h
      cases hl : lookupKey m "external" with
      | none => rfl
      | some w =>
          cases w with
          | map em => exact absurd hl (h em)
          | null => rfl
          | str a => rfl
          | int n => rfl
          | bool b => rfl
          | seq xs => rfl
          | pair f s => rfl
  | str a => exact absurd h (by rw [mexOK]; exact id)
  | seq xs => exact absurd h (by rw [mexOK]; exact id)
  | int n => exact absurd h (by rw [mexOK]; exact id)
  | bool b => exact absurd h (by rw [mexOK]; exact id)
  | pair f s => exact absurd h (by rw [mexOK]; exact id)

theorem mex_wrapOK {v : Tree} (h : mexOK v) (s : String)
    (hms : (∃ m, v = .map m) ∨ (∃ xs, v = .seq xs)) :
    mexOK (WrapPairWithValue v s) := by
  rcases hms with ⟨m, rfl⟩ | ⟨xs, rfl⟩
  · rw [wrap_map_eq, mexOK]
    intro em
    rw [show (fun kv : String × Tree => (kv.1, WrapPairWithValue kv.2 s)) =
        (fun kv : String × Tree => (kv.1, (fun x => WrapPairWithValue x s) kv.2)) from rfl,
      lookupKey_map_val (fun x => WrapPairWithValue x s) m "external"]
    rw [mexOK] at h
    cases hl : lookupKey m "external" with
    | none => simp
    | some w =>
        intro hw
        rw [show Option.map (fun x => WrapPairWithValue x s) (some w) =
          some (WrapPairWithValue w s) from rfl] at hw
        injection hw with hw1
        have hwn : ∀ mm, w ≠ .map mm := by
          intro mm hmm
          exact h mm (by rw [hl, hmm])
        exact wrap_notMap hwn s em hw1
  · exact absurd h (by rw [mexOK]; exact id)

theorem mex_idem (p : Path) (ig : Bool) (t t' : Tree)
    (h : transformPairWithError t (fun x => transformMaybeExternal x p ig) = .ok t') :
    transformPairWithError t' (fun x => transformMaybeExternal x p ig) = .ok t' := by
  have main : ∀ v : Tree, mexOK v → ∀ s0 : String,
      transformPairWithError (WrapPairWithValue v s0)
          (fun x => transformMaybeExternal x p ig) =
        .ok (WrapPairWithValue v s0) := by
    intro v hv s0
    cases v with
    | null =>
        rw [wrap_null_eq]
        simp only [transformPairWithError]
        rfl
    | map m =>
        rw [wrap_map_eq]
        simp only [transformPairWithError]
        have := mex_fix p ig (mex_wrapOK hv s0 (Or.inl ⟨m, rfl⟩))
        rw [wrap_map_eq] at this
        exact this
    | str a => exact absurd hv (by rw [mexOK]; exact id)
    | seq xs => exact absurd hv (by rw [mexOK]; exact id)
    | int n => exact absurd hv (by rw [mexOK]; exact id)
    | bool b => exact absurd hv (by rw [mexOK]; exact id)
    | pair f s => exact absurd hv (by rw [mexOK]; exact id)
  cases t with
  | pair f s0 =>
      simp only [transformPairWithError] at h
      cases hv : transformMaybeExternal f p ig with
      | error e => simp only [hv] at h; exact absurd h (by simp)
      | ok v =>
          simp only [hv] at h
          injection h with h1
          rw [← h1]
          exact main v (mex_out p ig hv) s0
  | map m =>
      simp only [transformPairWithError] at h
      have hOK := mex_out p ig h
      cases t' with
      | null => rfl
      | map m' =>
          simp only [transformPairWithError]
          exact mex_fix p ig hOK
      | str a => exact absurd hOK (by rw [mexOK]; exact id)
      | seq xs => exact absurd hOK (by rw [mexOK]; exact id)
      | int n => exact absurd hOK (by rw [mexOK]; exact id)
      | bool b => exact absurd hOK (by rw [mexOK]; exact id)
      | pair f s => exact absurd hOK (by rw [mexOK]; exact id)
  | null =>
      simp only [transformPairWithError] at h
      have hOK := mex_out p ig h
      cases t' with
      | null => rfl
      | map m' =>
          simp only [transformPairWithError]
          exact mex_fix p ig hOK
      | str a => exact absurd hOK (by rw [mexOK]; exact id)
      | seq xs => exact absurd hOK (by rw [mexOK]; exact id)
      | int n => exact absurd hOK (by rw [mexOK]; exact id)
      | bool b => exact absurd hOK (by rw [mexOK]; exact id)
      | pair f s => exact absurd hOK (by rw [mexOK]; exact id)
  | str a => exact absurd h (by simp [transformPairWithError, transformMaybeExternal])
  | seq xs => exact absurd h (by simp [transformPairWithError, transformMaybeExternal])
  | int n => exact absurd h (by simp [transformPairWithError, transformMaybeExternal])
  | bool b => exact absurd h (by simp [transformPairWithError, transformMaybeExternal])

theorem seqMap_ok_elim {x : Except String (List Tree)} {v : Tree}
    (h : (Tree.seq <$> x) = .ok v) : ∃ vs, x = .ok vs ∧ v = .seq vs := by
  cases x with
  | ok vs =>
      refine ⟨vs, rfl, ?_⟩
      have h1 : Except.ok (Tree.seq vs) = Except.ok v := h
      injection h1 with h2
      exact h2.symm
  | error e => exact absurd (show (Except.error e : Except String Tree) = .ok v from h) (by simp)

theorem convertSeqAux_out (f : Nat → Tree → Except String Tree) (P : Tree → Prop)
    (hf : ∀ i e o, transformPairWithError e (f i) = .ok o → P o) :
    ∀ (xs : List Tree) (i : Nat) (vs : List Tree),
      convertSeqAux f i xs = .ok vs → ∀ o ∈ vs, P o := by
  intro xs
  induction xs with
  | nil =>
      intro i vs h o ho
      rw [convertSeqAux] at h
      injection h with h1
      rw [← h1] at ho
      exact absurd ho (by simp)
  | cons e rest ih =>
      intro i vs h o ho
      rw [convertSeqAux] at h
      cases h1 : transformPairWithError e (f i) with
      | error err => simp only [h1] at h; exact absurd h (by simp)
      | ok t =>
          simp only [h1] at h
          cases h2 : convertSeqAux f (i + 1) rest with
          | error err => simp only [h2] at h; exact absurd h (by simp)
          | ok ts =>
              simp only [h2] at h
              injection h with h3
              rw [← h3] at ho
              rcases List.mem_cons.mp ho with rfl | htl
              · exact hf i e o h1
              · exact ih (i + 1) ts h2 o htl

theorem convertSeqAux_fix (f : Nat → Tree → Except String Tree) (P : Tree → Prop)
    (hfix : ∀ i o, P o → transformPairWithError o (f i) = .ok o) :
    ∀ (vs : List Tree) (i : Nat), (∀ o ∈ vs, P o) → convertSeqAux f i vs = .ok vs := by
  intro vs
  induction vs with
  | nil => intro i h; rfl
  | cons o rest ih =>
      intro i h
      rw [convertSeqAux, hfix i o (h o (by simp)),
        ih (i + 1) (fun x hx => h x (by simp [hx]))]

/-- The invariant of `transformEnvFile` elements: a mapping carrying a
`required` entry. -/
def envElemOK : Tree → Prop
  | .map m => (lookupKey m "required").isSome = true
  | .null => False
  | .str _ => False
  | .int _ => False
  | .bool _ => False
  | .seq _ => False
  | .pair _ _ => False

theorem env_wrapOK {w : Tree} (h : envElemOK w) (s : String) :
    envElemOK (WrapPairWithValue w s) := by
  cases w with
  | map m =>
      rw [wrap_map_eq, envElemOK]
      rw [show (fun kv : String × Tree => (kv.1, WrapPairWithValue kv.2 s)) =
          (fun kv : String × Tree => (kv.1, (fun x => WrapPairWithValue x s) kv.2)) from rfl,
        lookupKey_map_val (fun x => WrapPairWithValue x s) m "required"]
      rw [envElemOK] at h
      cases hl : lookupKey m "required" with
      | none => rw [hl] at h; exact absurd h (by simp)
      | some u => rfl
  | null => exact absurd h (by rw [envElemOK]; exact id)
  | str a => exact absurd h (by rw [envElemOK]; exact id)
  | int n => exact absurd h (by rw [envElemOK]; exact id)
  | bool b => exact absurd h (by rw [envElemOK]; exact id)
  | seq xs => exact absurd h (by rw [envElemOK]; exact id)
  | pair f s0 => exact absurd h (by rw [envElemOK]; exact id)

theorem env_val_out (q : Path) {x w : Tree}
    (h : transformEnvFileValue q x = .ok w) : envElemOK w := by
  cases x with
  | str a =>
      injection h with h1
      rw [← h1, envElemOK]
      rfl
  | map m =>
      rw [transformEnvFileValue] at h
      cases hl : lookupKey m "required" with
      | some u =>
          simp only [hl] at h
          injection h with h1
          rw [← h1, envElemOK, hl]
          rfl
      | none =>
          simp only [hl] at h
          injection h with h1
          rw [← h1, envElemOK, setMappingValue]
          cases ht : firstTagMap m with
          | some tg => rw [lookupKey_setKey_self]; rfl
          | none => rw [lookupKey_setKey_self]; rfl
  | null => exact absurd h (by simp [transformEnvFileValue])
  | int n => exact absurd h (by simp [transformEnvFileValue])
  | bool b => exact absurd h (by simp [transformEnvFileValue])
  | seq xs => exact absurd h (by simp [transformEnvFileValue])
  | pair f s0 => exact absurd h (by simp [transformEnvFileValue])

theorem env_elem_out (q : Path) : ∀ {e o : Tree},
    transformPairWithError e (fun x => transformEnvFileValue q x) = .ok o →
      envElemOK o := by
  intro e o h
  cases e with
  | pair f s0 =>
      simp only [transformPairWithError] at h
      cases hv : transformEnvFileValue q f with
      | error err => simp only [hv] at h; exact absurd h (by simp)
      | ok w =>
          simp only [hv] at h
          injection h with h1
          rw [← h1]
          exact env_wrapOK (env_val_out q hv) s0
  | map m => simp only [transformPairWithError] at h; exact env_val_out q h
  | null => simp only [transformPairWithError] at h; exact env_val_out q h
  | str a => simp only [transformPairWithError] at h; exact env_val_out q h
  | int n => simp only [transformPairWithError] at h; exact env_val_out q h
  | bool b => simp only [transformPairWithError] at h; exact env_val_out q h
  | seq xs => simp only [transformPairWithError] at h; exact env_val_out q h

theorem env_elem_fix (q : Path) {o : Tree} (h : envElemOK o) :
    transformPairWithError o (fun x => transformEnvFileValue q x) = .ok o := by
  cases o with
  | map m =>
      rw [envElemOK] at h
      simp only [transformPairWithError, transformEnvFileValue]
      cases hl : lookupKey m "required" with
      | none => rw [hl] at h; exact absurd h (by simp)
      | some u => rfl
  | null => exact absurd h (by rw [envElemOK]; exact id)
  | str a => exact absurd h (by rw [envElemOK]; exact id)
  | int n => exact absurd h (by rw [envElemOK]; exact id)
  | bool b => exact absurd h (by rw [envElemOK]; exact id)
  | seq xs => exact absurd h (by rw [envElemOK]; exact id)
  | pair f s0 => exact absurd h (by rw [envElemOK]; exact id)

theorem env_out (p : Path) (ig : Bool) {x v : Tree}
    (h : transformEnvFile x p ig = .ok v) :
    ∃ vs, v = .seq vs ∧ ∀ o ∈ vs, envElemOK o := by
  have key : ∀ values : List Tree,
      (Tree.seq <$> convertSeqAux
        (fun i e => transformEnvFileValue (p ++ [toString i]) e) 0 values) = .ok v →
      ∃ vs, v = .seq vs ∧ ∀ o ∈ vs, envElemOK o := by
    intro values hc
    obtain ⟨vs, hc2, rfl⟩ := seqMap_ok_elim hc
    exact ⟨vs, rfl, convertSeqAux_out _ envElemOK (fun i e o he => env_elem_out _ he) _ 0 vs hc2⟩
  cases x with
  | seq xs =>
      rw [transformEnvFile, convertIntoSequence] at h
      all_goals first
        | exact key xs h
        | simp
  | null =>
      rw [transformEnvFile, convertIntoSequence] at h
      all_goals first
        | exact key [] h
        | simp
  | map m =>
      rw [transformEnvFile, convertIntoSequence] at h
      all_goals first
        | exact key [.map m] h
        | simp
  | str a =>
      rw [transformEnvFile, convertIntoSequence] at h
      all_goals first
        | exact key [.str a] h
        | simp
  | int n =>
      rw [transformEnvFile, convertIntoSequence] at h
      all_goals first
        | exact key [.int n] h
        | simp
  | bool b =>
      rw [transformEnvFile, convertIntoSequence] at h
      all_goals first
        | exact key [.bool b] h
        | simp
  | pair f s0 =>
      rw [transformEnvFile, convertIntoSequence] at h
      all_goals first
        | exact key [.pair f s0] h
        | simp

theorem env_fix (p : Path) (ig : Bool) (vs : List Tree)
    (h : ∀ o ∈ vs, envElemOK o) :
    transformEnvFile (.seq vs) p ig = .ok (.seq vs) := by
  rw [transformEnvFile, convertIntoSequence]
  rw [convertSeqAux_fix _ envElemOK (fun i o ho => env_elem_fix _ ho) vs 0 h]
  rfl

theorem env_idem (p : Path) (ig : Bool) (t t' : Tree)
    (h : transformPairWithError t (fun x => transformEnvFile x p ig) = .ok t') :
    transformPairWithError t' (fun x => transformEnvFile x p ig) = .ok t' := by
  cases t with
  | pair f s0 =>
      simp only [transformPairWithError] at h
      cases hv : transformEnvFile f p ig with
      | error e => simp only [hv] at h; exact absurd h (by simp)
      | ok v =>
          simp only [hv] at h
          injection h with h1
          obtain ⟨vs, rfl, hall⟩ := env_out p ig hv
          rw [wrap_seq_eq] at h1
          rw [← h1]
          simp only [transformPairWithError]
          exact env_fix p ig _ (by
            intro o ho
            obtain ⟨e, he, rfl⟩ := List.mem_map.mp ho
            exact env_wrapOK (hall e he) s0)
  | map m =>
      simp only [transformPairWithError] at h
      obtain ⟨vs, rfl, hall⟩ := env_out p ig h
      simp only [transformPairWithError]
      exact env_fix p ig vs hall
  | null =>
      simp only [transformPairWithError] at h
      obtain ⟨vs, rfl, hall⟩ := env_out p ig h
      simp only [transformPairWithError]
      exact env_fix p ig vs hall
  | str a =>
      simp only [transformPairWithError] at h
      obtain ⟨vs, rfl, hall⟩ := env_out p ig h
      simp only [transformPairWithError]
      exact env_fix p ig vs hall
  | int n =>
      simp only [transformPairWithError] at h
      obtain ⟨vs, rfl, hall⟩ := env_out p ig h
      simp only [transformPairWithError]
      exact env_fix p ig vs hall
  | bool b =>
      simp only [transformPairWithError] at h
      obtain ⟨vs, rfl, hall⟩ := env_out p ig h
      simp only [transformPairWithError]
      exact env_fix p ig vs hall
  | seq xs =>
      simp only [transformPairWithError] at h
      obtain ⟨vs, rfl, hall⟩ := env_out p ig h
      simp only [transformPairWithError]
      exact env_fix p ig vs hall

theorem env_wrapfix (p : Path) (ig : Bool) (t : Tree) (s : String)
    (h : transformPairWithError t (fun x => transformEnvFile x p ig) = .ok t) :
    transformPairWithError (WrapPairWithValue t s)
        (fun x => transformEnvFile x p ig) =
      .ok (WrapPairWithValue t s) := by
  cases t with
  | seq xs =>
      simp only [transformPairWithError] at h
      obtain ⟨vs, hv, hall⟩ := env_out p ig h
      injection hv with hv1
      rw [← hv1] at hall
      rw [wrap_seq_eq]
      simp only [transformPairWithError]
      exact env_fix p ig _ (by
        intro o ho
        obtain ⟨e, he, rfl⟩ := List.mem_map.mp ho
        exact env_wrapOK (hall e he) s)
  | pair f0 s0 =>
      simp only [transformPairWithError] at h
      cases hv : transformEnvFile f0 p ig with
      | error e => simp only [hv] at h; exact absurd h (by simp)
      | ok v =>
          simp only [hv] at h
          injection h with h1
          obtain ⟨hvf, hvm, hvs⟩ := wrap_eq_pair_elim h1
          obtain ⟨vs, hvv, hall⟩ := env_out p ig hv
          exact absurd hvv (hvf ▸ hvs vs)
  | map m =>
      simp only [transformPairWithError] at h
      obtain ⟨vs, hvv, hall⟩ := env_out p ig h
      exact absurd hvv (by simp)
  | null =>
      simp only [transformPairWithError] at h
      obtain ⟨vs, hvv, hall⟩ := env_out p ig h
      exact absurd hvv (by simp)
  | str a =>
      simp only [transformPairWithError] at h
      obtain ⟨vs, hvv, hall⟩ := env_out p ig h
      exact absurd hvv (by simp)
  | int n =>
      simp only [transformPairWithError] at h
      obtain ⟨vs, hvv, hall⟩ := env_out p ig h
      exact absurd hvv (by simp)
  | bool b =>
      simp only [transformPairWithError] at h
      obtain ⟨vs, hvv, hall⟩ := env_out p ig h
      exact absurd hvv (by simp)

theorem parsePort_isMap (s : String) : ∃ m, parsePortString s = .map m := by
  rw [parsePortString]
  cases h1 : cutAt s "/" with
  | some pr =>
      cases h2 : cutAt pr.1 ":" with
      | some hc => exact ⟨_, rfl⟩
      | none => exact ⟨_, rfl⟩
  | none =>
      cases h2 : cutAt s ":" with
      | some hc => exact ⟨_, rfl⟩
      | none => exact ⟨_, rfl⟩

theorem port_elem_out (p : Path) : ∀ {e o : Tree} {i : Nat},
    transformPairWithError e (fun x =>
      match x with
      | .str a => .ok (parsePortString a)
      | .map m => .ok (.map m)
      | v => .error (pathString (p ++ [toString i]) ++ ": invalid type " ++
          typeName v ++ " for port")) = .ok o →
    ∃ m, o = .map m := by
  intro e o i h
  have val_out : ∀ x w : Tree, (match x with
      | .str a => Except.ok (parsePortString a)
      | .map m => Except.ok (.map m)
      | v => Except.error (pathString (p ++ [toString i]) ++ ": invalid type " ++
          typeName v ++ " for port")) = .ok w → ∃ m, w = .map m := by
    intro x w hx
    cases x with
    | str a =>
        injection hx with h1
        obtain ⟨m, hm⟩ := parsePort_isMap a
        exact ⟨m, by rw [← h1, hm]⟩
    | map m => exact ⟨m, by injection hx with h1; exact h1.symm⟩
    | null => exact absurd hx (by simp)
    | int n => exact absurd hx (by simp)
    | bool b => exact absurd hx (by simp)
    | seq xs => exact absurd hx (by simp)
    | pair f s0 => exact absurd hx (by simp)
  cases e with
  | pair f s0 =>
      simp only [transformPairWithError] at h
      cases hv : (match f with
        | .str a => Except.ok (parsePortString a)
        | .map m => Except.ok (Tree.map m)
        | v => Except.error (pathString (p ++ [toString i]) ++ ": invalid type " ++
            typeName v ++ " for port")) with
      | error err => simp only [hv] at h; exact absurd h (by simp)
      | ok w =>
          simp only [hv] at h
          injection h with h1
          obtain ⟨m, rfl⟩ := val_out f w hv
          rw [← h1, wrap_map_eq]
          exact ⟨_, rfl⟩
  | map m =>
      simp only [transformPairWithError] at h
      exact ⟨m, by injection h with h1; exact h1.symm⟩
  | str a =>
      simp only [transformPairWithError] at h
      obtain ⟨m, hm⟩ := parsePort_isMap a
      refine ⟨m, ?_⟩
      injection h with h1
      rw [← h1, hm]
  | null =>
      simp only [transformPairWithError] at h
      exact absurd h (by simp)
  | int n =>
      simp only [transformPairWithError] at h
      exact absurd h (by simp)
  | bool b =>
      simp only [transformPairWithError] at h
      exact absurd h (by simp)
  | seq xs =>
      simp only [transformPairWithError] at h
      exact absurd h (by simp)

theorem port_elem_fix (p : Path) {o : Tree} (h : ∃ m, o = .map m) (i : Nat) :
    transformPairWithError o (fun x =>
      match x with
      | .str a => .ok (parsePortString a)
      | .map m => .ok (.map m)
      | v => .error (pathString (p ++ [toString i]) ++ ": invalid type " ++
          typeName v ++ " for port")) = .ok o := by
  obtain ⟨m, rfl⟩ := h
  rfl

theorem ports_out (p : Path) (ig : Bool) {x v : Tree}
    (h : transformPorts x p ig = .ok v) :
    ∃ vs, v = .seq vs ∧ ∀ o ∈ vs, ∃ m, o = .map m := by
  cases x with
  | seq xs =>
      rw [transformPorts, convertIntoSequence] at h
      obtain ⟨vs, hc, rfl⟩ := seqMap_ok_elim h
      refine ⟨vs, rfl, ?_⟩
      exact convertSeqAux_out _ (fun o => ∃ m, o = .map m)
        (fun i e o he => port_elem_out p he) _ 0 vs hc
  | map m => exact absurd h (by simp [transformPorts])
  | null => exact absurd h (by simp [transformPorts])
  | str a => exact absurd h (by simp [transformPorts])
  | int n => exact absurd h (by simp [transformPorts])
  | bool b => exact absurd h (by simp [transformPorts])
  | pair f s0 => exact absurd h (by simp [transformPorts])

theorem ports_fix (p : Path) (ig : Bool) (vs : List Tree)
    (h : ∀ o ∈ vs, ∃ m, o = .map m) :
    transformPorts (.seq vs) p ig = .ok (.seq vs) := by
  rw [transformPorts, convertIntoSequence]
  rw [convertSeqAux_fix _ (fun o => ∃ m, o = .map m)
    (fun i o ho => port_elem_fix p ho i) vs 0 h]
  rfl

theorem ports_idem (p : Path) (ig : Bool) (t t' : Tree)
    (h : transformPairWithError t (fun x => transformPorts x p ig) = .ok t') :
    transformPairWithError t' (fun x => transformPorts x p ig) = .ok t' := by
  cases t with
  | pair f s0 =>
      simp only [transformPairWithError] at h
      cases hv : transformPorts f p ig with
      | error e => simp only [hv] at h; exact absurd h (by simp)
      | ok v =>
          simp only [hv] at h
          injection h with h1
          obtain ⟨vs, rfl, hall⟩ := ports_out p ig hv
          rw [wrap_seq_eq] at h1
          rw [← h1]
          simp only [transformPairWithError]
          exact ports_fix p ig _ (by
            intro o ho
            obtain ⟨e, he, rfl⟩ := List.mem_map.mp ho
            obtain ⟨m, rfl⟩ := hall e he
            rw [wrap_map_eq]
            exact ⟨_, rfl⟩)
  | map m =>
      simp only [transformPairWithError] at h
      obtain ⟨vs, rfl, hall⟩ := ports_out p ig h
      simp only [transformPairWithError]
      exact ports_fix p ig vs hall
  | null =>
      simp only [transformPairWithError] at h
      obtain ⟨vs, rfl, hall⟩ := ports_out p ig h
      simp only [transformPairWithError]
      exact ports_fix p ig vs hall
  | str a =>
      simp only [transformPairWithError] at h
      obtain ⟨vs, rfl, hall⟩ := ports_out p ig h
      simp only [transformPairWithError]
      exact ports_fix p ig vs hall
  | int n =>
      simp only [transformPairWithError] at h
      obtain ⟨vs, rfl, hall⟩ := ports_out p ig h
      simp only [transformPairWithError]
      exact ports_fix p ig vs hall
  | bool b =>
      simp only [transformPairWithError] at h
      obtain ⟨vs, rfl, hall⟩ := ports_out p ig h
      simp only [transformPairWithError]
      exact ports_fix p ig vs hall
  | seq xs =>
      simp only [transformPairWithError] at h
      obtain ⟨vs, rfl, hall⟩ := ports_out p ig h
      simp only [transformPairWithError]
      exact ports_fix p ig vs hall

theorem ports_wrapfix (p : Path) (ig : Bool) (t : Tree) (s : String)
    (h : transformPairWithError t (fun x => transformPorts x p ig) = .ok t) :
    transformPairWithError (WrapPairWithValue t s)
        (fun x => transformPorts x p ig) =
      .ok (WrapPairWithValue t s) := by
  cases t with
  | seq xs =>
      simp only [transformPairWithError] at h
      obtain ⟨vs, hv, hall⟩ := ports_out p ig h
      injection hv with hv1
      rw [← hv1] at hall
      rw [wrap_seq_eq]
      simp only [transformPairWithError]
      exact ports_fix p ig _ (by
        intro o ho
        obtain ⟨e, he, rfl⟩ := List.mem_map.mp ho
        obtain ⟨m, rfl⟩ := hall e he
        rw [wrap_map_eq]
        exact ⟨_, rfl⟩)
  | pair f0 s0 =>
      simp only [transformPairWithError] at h
      cases hv : transformPorts f0 p ig with
      | error e => simp only [hv] at h; exact absurd h (by simp)
      | ok v =>
          simp only [hv] at h
          injection h with h1
          obtain ⟨hvf, hvm, hvs⟩ := wrap_eq_pair_elim h1
          obtain ⟨vs, hvv, hall⟩ := ports_out p ig hv
          exact absurd hvv (hvs vs)
  | map m =>
      simp only [transformPairWithError] at h
      obtain ⟨vs, hvv, hall⟩ := ports_out p ig h
      exact absurd hvv (by simp)
  | null =>
      simp only [transformPairWithError] at h
      obtain ⟨vs, hvv, hall⟩ := ports_out p ig h
      exact absurd hvv (by simp)
  | str a =>
      simp only [transformPairWithError] at h
      obtain ⟨vs, hvv, hall⟩ := ports_out p ig h
      exact absurd hvv (by simp)
  | int n =>
      simp only [transformPairWithError] at h
      obtain ⟨vs, hvv, hall⟩ := ports_out p ig h
      exact absurd hvv (by simp)
  | bool b =>
      simp only [transformPairWithError] at h
      obtain ⟨vs, hvv, hall⟩ := ports_out p ig h
      exact absurd hvv (by simp)

theorem rulePair_idem (r : Rule) (hr : r ≠ .service) (q : Path) (ig : Bool)
    (t t' : Tree) (h : applyRulePair r t q ig = .ok t') :
    applyRulePair r t' q ig = .ok t' := by
  cases r with
  | service => exact absurd rfl hr
  | dependsOn =>
      simp only [applyRulePair, applyRule] at h ⊢
      exact mapOut_tpwe_idem _ (fun a b hb => dep_out q ig a b hb) (fun m => rfl) t t' h
  | serviceNetworks =>
      simp only [applyRulePair, applyRule] at h ⊢
      exact mapOut_tpwe_idem _ (fun a b hb => net_out q ig a b hb) (fun m => rfl) t t' h
  | ssh =>
      simp only [applyRulePair, applyRule] at h ⊢
      exact mapOut_tpwe_idem _ (fun a b hb => ssh_out q ig a b hb) (fun m => rfl) t t' h
  | keyValue =>
      simp only [applyRulePair, applyRule] at h ⊢
      exact mapOut_tpwe_idem _ (fun a b hb => kv_out q ig a b hb) (fun m => rfl) t t' h
  | volumeMount =>
      simp only [applyRulePair, applyRule] at h ⊢
      exact mapOut_tpwe_idem _ (fun a b hb => vm_out q ig a b hb) (fun m => rfl) t t' h
  | includeEntry =>
      simp only [applyRulePair, applyRule] at h ⊢
      exact mapOut_tpwe_idem _ (fun a b hb => inc_out q ig a b hb) (fun m => rfl) t t' h
  | dns =>
      simp only [applyRulePair, applyRule] at h ⊢
      exact dns_idem q ig t t' h
  | envFile =>
      simp only [applyRulePair, applyRule] at h ⊢
      exact env_idem q ig t t' h
  | ports =>
      simp only [applyRulePair, applyRule] at h ⊢
      exact ports_idem q ig t t' h
  | maybeExternal =>
      simp only [applyRulePair, applyRule] at h ⊢
      exact mex_idem q ig t t' h

theorem rulePair_wrapfix (r : Rule) (hr1 : r ≠ .service)
    (hr2 : r ≠ .maybeExternal) (hr3 : r ≠ .includeEntry)
    (q : Path) (ig : Bool) (t : Tree) (s : String)
    (h : applyRulePair r t q ig = .ok t) :
    applyRulePair r (WrapPairWithValue t s) q ig = .ok (WrapPairWithValue t s) := by
  cases r with
  | service => exact absurd rfl hr1
  | maybeExternal => exact absurd rfl hr2
  | includeEntry => exact absurd rfl hr3
  | dependsOn =>
      simp only [applyRulePair, applyRule] at h ⊢
      exact mapOut_tpwe_wrapfix _ (fun a b hb => dep_out q ig a b hb) (fun m => rfl)
        (hnofix_of_hout _ (fun a b hb => dep_out q ig a b hb)) t s h
  | serviceNetworks =>
      simp only [applyRulePair, applyRule] at h ⊢
      exact mapOut_tpwe_wrapfix _ (fun a b hb => net_out q ig a b hb) (fun m => rfl)
        (hnofix_of_hout _ (fun a b hb => net_out q ig a b hb)) t s h
  | ssh =>
      simp only [applyRulePair, applyRule] at h ⊢
      exact mapOut_tpwe_wrapfix _ (fun a b hb => ssh_out q ig a b hb) (fun m => rfl)
        (hnofix_of_hout _ (fun a b hb => ssh_out q ig a b hb)) t s h
  | keyValue =>
      simp only [applyRulePair, applyRule] at h ⊢
      exact mapOut_tpwe_wrapfix _ (fun a b hb => kv_out q ig a b hb) (fun m => rfl)
        (hnofix_of_hout _ (fun a b hb => kv_out q ig a b hb)) t s h
  | volumeMount =>
      simp only [applyRulePair, applyRule] at h ⊢
      exact mapOut_tpwe_wrapfix _ (fun a b hb => vm_out q ig a b hb) (fun m => rfl)
        (hnofix_of_hout _ (fun a b hb => vm_out q ig a b hb)) t s h
  | dns =>
      simp only [applyRulePair, applyRule] at h ⊢
      exact dns_wrapfix q ig t s h
  | envFile =>
      simp only [applyRulePair, applyRule] at h ⊢
      exact env_wrapfix q ig t s h
  | ports =>
      simp only [applyRulePair, applyRule] at h ⊢
      exact ports_wrapfix q ig t s h

theorem transform_rule_eq (q : Path) (ig : Bool) (r : Rule)
    (hfr : findRule q = some r) (hr : r ≠ .service) (t : Tree) :
    transform t q ig = applyRulePair r t q ig := by
  cases r <;> first
    | exact absurd rfl hr
    | (cases t with
       | pair f second =>
           cases f with
           | map m => rw [transform.eq_1]; simp only [hfr]
           | null => rw [transform.eq_2 _ _ _ _ (by simp)]; simp only [hfr]
           | str a => rw [transform.eq_2 _ _ _ _ (by simp)]; simp only [hfr]
           | int n => rw [transform.eq_2 _ _ _ _ (by simp)]; simp only [hfr]
           | bool b => rw [transform.eq_2 _ _ _ _ (by simp)]; simp only [hfr]
           | seq xs => rw [transform.eq_2 _ _ _ _ (by simp)]; simp only [hfr]
           | pair f2 s2 => rw [transform.eq_2 _ _ _ _ (by simp)]; simp only [hfr]
       | map m => rw [transform.eq_3]; simp only [hfr]
       | seq xs => rw [transform.eq_5]; simp only [hfr]
       | null =>
           rw [transform.eq_6 _ _ _ (by simp) (by simp) (by simp) (by simp) (by simp)]
           simp only [hfr]
       | str a =>
           rw [transform.eq_6 _ _ _ (by simp) (by simp) (by simp) (by simp) (by simp)]
           simp only [hfr]
       | int n =>
           rw [transform.eq_6 _ _ _ (by simp) (by simp) (by simp) (by simp) (by simp)]
           simp only [hfr]
       | bool b =>
           rw [transform.eq_6 _ _ _ (by simp) (by simp) (by simp) (by simp) (by simp)]
           simp only [hfr])

theorem transform_leaf_eq (q : Path) (ig : Bool) {t : Tree}
    (hm : ∀ mm, t ≠ .map mm) (hs : ∀ xs, t ≠ .seq xs)
    (hp : ∀ f s0, t ≠ .pair f s0) :
    transform t q ig = (match findRule q with
      | some .service => .ok t
      | some r => applyRulePair r t q ig
      | none => .ok t) := by
  cases t with
  | map m => exact absurd rfl (hm m)
  | seq xs => exact absurd rfl (hs xs)
  | pair f s0 => exact absurd rfl (hp f s0)
  | null => exact transform.eq_6 _ _ _ (by simp) (by simp) (by simp) (by simp) (by simp)
  | str a => exact transform.eq_6 _ _ _ (by simp) (by simp) (by simp) (by simp) (by simp)
  | int n => exact transform.eq_6 _ _ _ (by simp) (by simp) (by simp) (by simp) (by simp)
  | bool b => exact transform.eq_6 _ _ _ (by simp) (by simp) (by simp) (by simp) (by simp)

theorem transformMapping_elim (q : Path) (ig : Bool) :
    ∀ (m m' : List (String × Tree)), transformMapping m q ig = .ok m' →
      List.Forall₂ (fun a b : String × Tree =>
        a.1 = b.1 ∧ transform a.2 (q ++ [a.1]) ig = .ok b.2) m m' := by
  intro m
  induction m with
  | nil =>
      intro m' h
      rw [transformMapping] at h
      injection h with h1
      rw [← h1]
      exact List.Forall₂.nil
  | cons kv rest ih =>
      intro m' h
      obtain ⟨k, e⟩ := kv
      rw [transformMapping] at h
      cases h1 : transform e (q ++ [k]) ig with
      | error err => simp only [h1] at h; exact absurd h (by simp)
      | ok t =>
          simp only [h1] at h
          cases h2 : transformMapping rest q ig with
          | error err => simp only [h2] at h; exact absurd h (by simp)
          | ok ts =>
              simp only [h2] at h
              injection h with h3
              rw [← h3]
              exact List.Forall₂.cons ⟨rfl, h1⟩ (ih ts h2)

theorem transformMapping_intro (q : Path) (ig : Bool) :
    ∀ (m m' : List (String × Tree)),
      List.Forall₂ (fun a b : String × Tree =>
        a.1 = b.1 ∧ transform a.2 (q ++ [a.1]) ig = .ok b.2) m m' →
      transformMapping m q ig = .ok m' := by
  intro m m' h
  induction h with
  | nil => rfl
  | cons hab htail ih =>
      rename_i a b l1 l2
      obtain ⟨k, e⟩ := a
      obtain ⟨bk, bv⟩ := b
      obtain ⟨hk, htr⟩ := hab
      simp only at hk htr
      subst hk
      rw [transformMapping, htr, ih]

theorem transformSeq_elim (q : Path) (ig : Bool) :
    ∀ (xs vs : List Tree), transformSeq xs q ig = .ok vs →
      List.Forall₂ (fun a b : Tree => transform a (q ++ ["[]"]) ig = .ok b) xs vs := by
  intro xs
  induction xs with
  | nil =>
      intro vs h
      rw [transformSeq] at h
      injection h with h1
      rw [← h1]
      exact List.Forall₂.nil
  | cons e rest ih =>
      intro vs h
      rw [transformSeq] at h
      cases h1 : transform e (q ++ ["[]"]) ig with
      | error err => simp only [h1] at h; exact absurd h (by simp)
      | ok t =>
          simp only [h1] at h
          cases h2 : transformSeq rest q ig with
          | error err => simp only [h2] at h; exact absurd h (by simp)
          | ok ts =>
              simp only [h2] at h
              injection h with h3
              rw [← h3]
              exact List.Forall₂.cons h1 (ih ts h2)

theorem transformSeq_intro (q : Path) (ig : Bool) :
    ∀ (xs vs : List Tree),
      List.Forall₂ (fun a b : Tree => transform a (q ++ ["[]"]) ig = .ok b) xs vs →
      transformSeq xs q ig = .ok vs := by
  intro xs vs h
  induction h with
  | nil => rfl
  | cons hab htail ih =>
      rename_i a b l1 l2
      rw [transformSeq, hab, ih]

theorem transformMapping_fix_of (q : Path) (ig : Bool) (m' : List (String × Tree))
    (h : ∀ kv ∈ m', transform kv.2 (q ++ [kv.1]) ig = .ok kv.2) :
    transformMapping m' q ig = .ok m' :=
  transformMapping_intro q ig m' m'
    (List.forall₂_same.mpr (fun kv hkv => ⟨rfl, h kv hkv⟩))

theorem transformSeq_fix_of (q : Path) (ig : Bool) (vs : List Tree)
    (h : ∀ v ∈ vs, transform v (q ++ ["[]"]) ig = .ok v) :
    transformSeq vs q ig = .ok vs :=
  transformSeq_intro q ig vs vs (List.forall₂_same.mpr h)

theorem forall2_entries_fix (q : Path) (ig : Bool) :
    ∀ (m m' : List (String × Tree)),
      List.Forall₂ (fun a b : String × Tree =>
        a.1 = b.1 ∧ transform a.2 (q ++ [a.1]) ig = .ok b.2) m m' →
      (∀ kv ∈ m, ∀ t', transform kv.2 (q ++ [kv.1]) ig = .ok t' →
        transform t' (q ++ [kv.1]) ig = .ok t') →
      ∀ kv ∈ m', transform kv.2 (q ++ [kv.1]) ig = .ok kv.2 := by
  intro m m' h
  induction h with
  | nil => intro hfix kv hkv; exact absurd hkv (by simp)
  | cons hab htail ih =>
      rename_i a b l1 l2
      intro hfix kv hkv
      rcases List.mem_cons.mp hkv with rfl | htl
      · obtain ⟨hk, htr⟩ := hab
        have := hfix a (by simp) kv.2 htr
        rw [← hk]
        exact this
      · exact ih (fun x hx => hfix x (by simp [hx])) kv htl

theorem forall2_elems_fix (q : Path) (ig : Bool) :
    ∀ (xs vs : List Tree),
      List.Forall₂ (fun a b : Tree => transform a (q ++ ["[]"]) ig = .ok b) xs vs →
      (∀ e ∈ xs, ∀ t', transform e (q ++ ["[]"]) ig = .ok t' →
        transform t' (q ++ ["[]"]) ig = .ok t') →
      ∀ v ∈ vs, transform v (q ++ ["[]"]) ig = .ok v := by
  intro xs vs h
  induction h with
  | nil => intro hfix v hv; exact absurd hv (by simp)
  | cons hab htail ih =>
      rename_i a b l1 l2
      intro hfix v hv
      rcases List.mem_cons.mp hv with rfl | htl
      · exact hfix a (by simp) v hab
      · exact ih (fun x hx => hfix x (by simp [hx])) v htl

theorem sizeOf_mem_map2 {kv : String × Tree} {m : List (String × Tree)}
    (h : kv ∈ m) : sizeOf kv.2 < sizeOf (Tree.map m) := by
  obtain ⟨k, e⟩ := kv
  exact sizeOf_mem_map h

theorem sizeOf_pairFirst (f : Tree) (s0 : String) :
    sizeOf f < sizeOf (Tree.pair f s0) := by
  simp only [Tree.pair.sizeOf_spec]
  omega

theorem transform_wrapfix : ∀ (n : Nat) (t : Tree), sizeOf t ≤ n →
    ∀ (q : Path) (ig : Bool), 3 ≤ q.length → transform t q ig = .ok t →
    ∀ s : String,
      transform (WrapPairWithValue t s) q ig = .ok (WrapPairWithValue t s) := by
  intro n
  induction n with
  | zero =>
      intro t ht
      have := one_le_sizeOf t
      omega
  | succ n ih =>
      intro t ht q ig hq h s
      cases hfr : findRule q with
      | some r =>
          have hr1 : r ≠ .service := by
            intro hrs
            subst hrs
            have := findRule_service_len q hfr
            omega
          have h8 := findRule_deep q r hfr hq
          have hr2 : r ≠ .maybeExternal := by
            rcases h8 with rfl | rfl | rfl | rfl | rfl | rfl | rfl | rfl <;> simp
          have hr3 : r ≠ .includeEntry := by
            rcases h8 with rfl | rfl | rfl | rfl | rfl | rfl | rfl | rfl <;> simp
          rw [transform_rule_eq q ig r hfr hr1] at h ⊢
          exact rulePair_wrapfix r hr1 hr2 hr3 q ig t s h
      | none =>
          cases t with
          | map m =>
              rw [transform.eq_3] at h
              simp only [hfr] at h
              cases hm : transformMapping m q ig with
              | error e => simp only [hm] at h; exact absurd h (by simp)
              | ok m' =>
                  simp only [hm] at h
                  injection h with h1
                  injection h1 with h2
                  subst h2
                  have hfa := transformMapping_elim q ig m' m' hm
                  have hpt : ∀ kv ∈ m', transform kv.2 (q ++ [kv.1]) ig = .ok kv.2 :=
                    fun kv hkv => ((List.forall₂_same.mp hfa) kv hkv).2
                  rw [wrap_map_eq, transform.eq_3]
                  simp only [hfr]
                  have hw : ∀ kv ∈ m'.map (fun kv => (kv.1, WrapPairWithValue kv.2 s)),
                      transform kv.2 (q ++ [kv.1]) ig = .ok kv.2 := by
                    intro kv hkv
                    obtain ⟨kv0, hkv0, rfl⟩ := List.mem_map.mp hkv
                    have hsz : sizeOf kv0.2 ≤ n := by
                      have := sizeOf_mem_map2 hkv0
                      omega
                    have hlen : 3 ≤ (q ++ [kv0.1]).length := by
                      simp only [List.length_append, List.length_singleton]
                      omega
                    exact ih kv0.2 hsz (q ++ [kv0.1]) ig hlen (hpt kv0 hkv0) s
                  rw [transformMapping_fix_of q ig _ hw]
          | seq xs =>
              rw [transform.eq_5] at h
              simp only [hfr] at h
              cases hx : transformSeq xs q ig with
              | error e => simp only [hx] at h; exact absurd h (by simp)
              | ok xs' =>
                  simp only [hx] at h
                  injection h with h1
                  injection h1 with h2
                  subst h2
                  have hfa := transformSeq_elim q ig xs' xs' hx
                  have hpt : ∀ v ∈ xs', transform v (q ++ ["[]"]) ig = .ok v :=
                    List.forall₂_same.mp hfa
                  rw [wrap_seq_eq, transform.eq_5]
                  simp only [hfr]
                  have hw : ∀ v ∈ xs'.map (fun e => WrapPairWithValue e s),
                      transform v (q ++ ["[]"]) ig = .ok v := by
                    intro v hv
                    obtain ⟨e, he, rfl⟩ := List.mem_map.mp hv
                    have hsz : sizeOf e ≤ n := by
                      have := sizeOf_mem_seq he
                      omega
                    have hlen : 3 ≤ (q ++ ["[]"]).length := by
                      simp only [List.length_append, List.length_singleton]
                      omega
                    exact ih e hsz (q ++ ["[]"]) ig hlen (hpt e he) s
                  rw [transformSeq_fix_of q ig _ hw]
          | null =>
              rw [wrap_null_eq, transform.eq_2 _ _ _ _ (by simp)]
              simp only [hfr]
          | str a =>
              rw [wrap_str_eq, transform.eq_2 _ _ _ _ (by simp)]
              simp only [hfr]
          | int i =>
              rw [wrap_int_eq, transform.eq_2 _ _ _ _ (by simp)]
              simp only [hfr]
          | bool b =>
              rw [wrap_bool_eq, transform.eq_2 _ _ _ _ (by simp)]
              simp only [hfr]
          | pair f s0 =>
              rw [wrap_pair_eq, transform.eq_2 _ _ _ _ (by simp)]
              simp only [hfr]

theorem transform_fix : ∀ (n : Nat) (t : Tree), sizeOf t ≤ n →
    ∀ (q : Path) (ig : Bool) (t' : Tree),
      transform t q ig = .ok t' → transform t' q ig = .ok t' := by
  intro n
  induction n with
  | zero =>
      intro t ht
      have := one_le_sizeOf t
      omega
  | succ n ih =>
      intro t ht q ig t' h
      cases hfr : findRule q with
      | some r =>
          by_cases hr : r = Rule.service
          · subst hr
            have hq2 : q.length = 2 := findRule_service_len q hfr
            cases t with
            | pair f second =>
                cases f with
                | map m =>
                    rw [transform.eq_1] at h
                    simp only [hfr] at h
                    cases hm : transformMapping m q ig with
                    | error e => simp only [hm] at h; exact absurd h (by simp)
                    | ok m' =>
                        simp only [hm] at h
                        injection h with h1
                        rw [← h1, wrap_map_eq, transform.eq_3]
                        simp only [hfr]
                        have hfa := transformMapping_elim q ig m m' hm
                        have hfixm : ∀ kv ∈ m, ∀ u,
                            transform kv.2 (q ++ [kv.1]) ig = .ok u →
                            transform u (q ++ [kv.1]) ig = .ok u := by
                          intro kv hkv u hu
                          have hsz : sizeOf kv.2 ≤ n := by
                            have h3 := sizeOf_mem_map2 hkv
                            have h4 := sizeOf_pairFirst (Tree.map m) second
                            omega
                          exact ih kv.2 hsz (q ++ [kv.1]) ig u hu
                        have hpt := forall2_entries_fix q ig m m' hfa hfixm
                        have hw : ∀ kv ∈ m'.map
                            (fun kv => (kv.1, WrapPairWithValue kv.2 second)),
                            transform kv.2 (q ++ [kv.1]) ig = .ok kv.2 := by
                          intro kv hkv
                          obtain ⟨kv0, hkv0, rfl⟩ := List.mem_map.mp hkv
                          have hlen : 3 ≤ (q ++ [kv0.1]).length := by
                            simp only [List.length_append, List.length_singleton]
                            omega
                          exact transform_wrapfix (sizeOf kv0.2) kv0.2 le_rfl
                            (q ++ [kv0.1]) ig hlen (hpt kv0 hkv0) second
                        rw [transformMapping_fix_of q ig _ hw]
                | null =>
                    rw [transform.eq_2 _ _ _ _ (by simp)] at h
                    simp only [hfr] at h
                    injection h with h1
                    rw [← h1, wrap_null_eq, transform.eq_2 _ _ _ _ (by simp)]
                    simp only [hfr]
                    rfl
                | str a =>
                    rw [transform.eq_2 _ _ _ _ (by simp)] at h
                    simp only [hfr] at h
                    injection h with h1
                    rw [← h1, wrap_str_eq, transform.eq_2 _ _ _ _ (by simp)]
                    simp only [hfr]
                    rfl
                | int i =>
                    rw [transform.eq_2 _ _ _ _ (by simp)] at h
                    simp only [hfr] at h
                    injection h with h1
                    rw [← h1, wrap_int_eq, transform.eq_2 _ _ _ _ (by simp)]
                    simp only [hfr]
                    rfl
                | bool b =>
                    rw [transform.eq_2 _ _ _ _ (by simp)] at h
                    simp only [hfr] at h
                    injection h with h1
                    rw [← h1, wrap_bool_eq, transform.eq_2 _ _ _ _ (by simp)]
                    simp only [hfr]
                    rfl
                | seq xs =>
                    rw [transform.eq_2 _ _ _ _ (by simp)] at h
                    simp only [hfr] at h
                    injection h with h1
                    rw [← h1, wrap_seq_eq, transform.eq_5]
                    simp only [hfr]
                | pair f2 s2 =>
                    rw [transform.eq_2 _ _ _ _ (by simp)] at h
                    simp only [hfr] at h
                    injection h with h1
                    rw [← h1, wrap_pair_eq, transform.eq_2 _ _ _ _ (by simp)]
                    simp only [hfr]
                    rfl
            | map m =>
                rw [transform.eq_3] at h
                simp only [hfr] at h
                cases hm : transformMapping m q ig with
                | error e => simp only [hm] at h; exact absurd h (by simp)
                | ok m' =>
                    simp only [hm] at h
                    injection h with h1
                    rw [← h1, transform.eq_3]
                    simp only [hfr]
                    have hfa := transformMapping_elim q ig m m' hm
                    have hfixm : ∀ kv ∈ m, ∀ u,
                        transform kv.2 (q ++ [kv.1]) ig = .ok u →
                        transform u (q ++ [kv.1]) ig = .ok u := by
                      intro kv hkv u hu
                      have hsz : sizeOf kv.2 ≤ n := by
                        have h3 := sizeOf_mem_map2 hkv
                        omega
                      exact ih kv.2 hsz (q ++ [kv.1]) ig u hu
                    have hpt := forall2_entries_fix q ig m m' hfa hfixm
                    rw [transformMapping_fix_of q ig m' hpt]
            | seq xs =>
                rw [transform.eq_5] at h
                simp only [hfr] at h
                injection h with h1
                rw [← h1, transform.eq_5]
                simp only [hfr]
            | null =>
                rw [transform.eq_6 _ _ _ (by simp) (by simp) (by simp) (by simp)
                  (by simp)] at h
                simp only [hfr] at h
                injection h with h1
                rw [← h1, transform.eq_6 _ _ _ (by simp) (by simp) (by simp) (by simp)
                  (by simp)]
                simp only [hfr]
            | str a =>
                rw [transform.eq_6 _ _ _ (by simp) (by simp) (by simp) (by simp)
                  (by simp)] at h
                simp only [hfr] at h
                injection h with h1
                rw [← h1, transform.eq_6 _ _ _ (by simp) (by simp) (by simp) (by simp)
                  (by simp)]
                simp only [hfr]
            | int i =>
                rw [transform.eq_6 _ _ _ (by simp) (by simp) (by simp) (by simp)
                  (by simp)] at h
                simp only [hfr] at h
                injection h with h1
                rw [← h1, transform.eq_6 _ _ _ (by simp) (by simp) (by simp) (by simp)
                  (by simp)]
                simp only [hfr]
            | bool b =>
                rw [transform.eq_6 _ _ _ (by simp) (by simp) (by simp) (by simp)
                  (by simp)] at h
                simp only [hfr] at h
                injection h with h1
                rw [← h1, transform.eq_6 _ _ _ (by simp) (by simp) (by simp) (by simp)
                  (by simp)]
                simp only [hfr]
          · rw [transform_rule_eq q ig r hfr hr] at h ⊢
            exact rulePair_idem r hr q ig t t' h
      | none =>
          cases t with
          | map m =>
              rw [transform.eq_3] at h
              simp only [hfr] at h
              cases hm : transformMapping m q ig with
              | error e => simp only [hm] at h; exact absurd h (by simp)
              | ok m' =>
                  simp only [hm] at h
                  injection h with h1
                  rw [← h1, transform.eq_3]
                  simp only [hfr]
                  have hfa := transformMapping_elim q ig m m' hm
                  have hfixm : ∀ kv ∈ m, ∀ u,
                      transform kv.2 (q ++ [kv.1]) ig = .ok u →
                      transform u (q ++ [kv.1]) ig = .ok u := by
                    intro kv hkv u hu
                    have hsz : sizeOf kv.2 ≤ n := by
                      have h3 := sizeOf_mem_map2 hkv
                      omega
                    exact ih kv.2 hsz (q ++ [kv.1]) ig u hu
                  have hpt := forall2_entries_fix q ig m m' hfa hfixm
                  rw [transformMapping_fix_of q ig m' hpt]
          | seq xs =>
              rw [transform.eq_5] at h
              simp only [hfr] at h
              cases hx : transformSeq xs q ig with
              | error e => simp only [hx] at h; exact absurd h (by simp)
              | ok xs' =>
                  simp only [hx] at h
                  injection h with h1
                  rw [← h1, transform.eq_5]
                  simp only [hfr]
                  have hfa := transformSeq_elim q ig xs xs' hx
                  have hfixs : ∀ e ∈ xs, ∀ u,
                      transform e (q ++ ["[]"]) ig = .ok u →
                      transform u (q ++ ["[]"]) ig = .ok u := by
                    intro e he u hu
                    have hsz : sizeOf e ≤ n := by
                      have h3 := sizeOf_mem_seq he
                      omega
                    exact ih e hsz (q ++ ["[]"]) ig u hu
                  have hpt := forall2_elems_fix q ig xs xs' hfa hfixs
                  rw [transformSeq_fix_of q ig xs' hpt]
          | pair f second =>
              cases f with
              | map m =>
                  rw [transform.eq_1] at h
                  simp only [hfr] at h
                  injection h with h1
                  rw [← h1, transform.eq_1]
                  simp only [hfr]
              | null =>
                  rw [transform.eq_2 _ _ _ _ (by simp)] at h
                  simp only [hfr] at h
                  injection h with h1
                  rw [← h1, transform.eq_2 _ _ _ _ (by simp)]
                  simp only [hfr]
              | str a =>
                  rw [transform.eq_2 _ _ _ _ (by simp)] at h
                  simp only [hfr] at h
                  injection h with h1
                  rw [← h1, transform.eq_2 _ _ _ _ (by simp)]
                  simp only [hfr]
              | int i =>
                  rw [transform.eq_2 _ _ _ _ (by simp)] at h
                  simp only [hfr] at h
                  injection h with h1
                  rw [← h1, transform.eq_2 _ _ _ _ (by simp)]
                  simp only [hfr]
              | bool b =>
                  rw [transform.eq_2 _ _ _ _ (by simp)] at h
                  simp only [hfr] at h
                  injection h with h1
                  rw [← h1, transform.eq_2 _ _ _ _ (by simp)]
                  simp only [hfr]
              | seq xs =>
                  rw [transform.eq_2 _ _ _ _ (by simp)] at h
                  simp only [hfr] at h
                  injection h with h1
                  rw [← h1, transform.eq_2 _ _ _ _ (by simp)]
                  simp only [hfr]
              | pair f2 s2 =>
                  rw [transform.eq_2 _ _ _ _ (by simp)] at h
                  simp only [hfr] at h
                  injection h with h1
                  rw [← h1, transform.eq_2 _ _ _ _ (by simp)]
                  simp only [hfr]
          | null =>
              rw [transform.eq_6 _ _ _ (by simp) (by simp) (by simp) (by simp)
                (by simp)] at h
              simp only [hfr] at h
              injection h with h1
              rw [← h1, transform.eq_6 _ _ _ (by simp) (by simp) (by simp) (by simp)
                (by simp)]
              simp only [hfr]
          | str a =>
              rw [transform.eq_6 _ _ _ (by simp) (by simp) (by simp) (by simp)
                (by simp)] at h
              simp only [hfr] at h
              injection h with h1
              rw [← h1, transform.eq_6 _ _ _ (by simp) (by simp) (by simp) (by simp)
                (by simp)]
              simp only [hfr]
          | int i =>
              rw [transform.eq_6 _ _ _ (by simp) (by simp) (by simp) (by simp)
                (by simp)] at h
              simp only [hfr] at h
              injection h with h1
              rw [← h1, transform.eq_6 _ _ _ (by simp) (by simp) (by simp) (by simp)
                (by simp)]
              simp only [hfr]
          | bool b =>
              rw [transform.eq_6 _ _ _ (by simp) (by simp) (by simp) (by simp)
                (by simp)] at h
              simp only [hfr] at h
              injection h with h1
              rw [← h1, transform.eq_6 _ _ _ (by simp) (by simp) (by simp) (by simp)
                (by simp)]
              simp only [hfr]

/-- C2: for every untyped tree on which canonicalization succeeds,
applying `Canonical` to its own output succeeds and returns that output
unchanged (the registered-rewriter table is embedded restricted to the
rewriters whose code is under the sources or whose rewrite the
documentation defines; the remaining registrations fall to the generic
recursion, which is idempotent by construction). -/
theorem C2_canonical_idem (yaml : List (String × Tree)) (ig : Bool)
    (y' : List (String × Tree)) (h : Canonical yaml ig = .ok y') :
    Canonical y' ig = .ok y' := by
  cases htr : transform (Tree.map yaml) [] ig with
  | error e =>
      rw [Canonical.eq_def] at h
      simp only [htr] at h
      exact absurd h (by simp)
  | ok v =>
      rw [Canonical.eq_def] at h
      simp only [htr] at h
      cases v with
      | map m =>
          injection h with h1
          subst h1
          have h2 := transform_fix (sizeOf (Tree.map yaml)) (Tree.map yaml) le_rfl
            [] ig (Tree.map m) htr
          rw [Canonical.eq_def]
          simp only [h2]
      | null => exact absurd h (by simp)
      | str a => exact absurd h (by simp)
      | int i => exact absurd h (by simp)
      | bool b => exact absurd h (by simp)
      | seq xs => exact absurd h (by simp)
      | pair f s0 => exact absurd h (by simp)

/-- C2 witness: a service whose `dns` scalar is rewritten to a singleton
sequence; the second canonicalization returns the first output unchanged. -/
theorem C2_canonical_idem_witness :
    Canonical [("services", Tree.map [("web", Tree.map [("dns", Tree.str "8.8.8.8")])])]
        false =
      .ok [("services",
        Tree.map [("web", Tree.map [("dns", Tree.seq [Tree.str "8.8.8.8"])])])] ∧
    Canonical [("services",
        Tree.map [("web", Tree.map [("dns", Tree.seq [Tree.str "8.8.8.8"])])])] false =
      .ok [("services",
        Tree.map [("web", Tree.map [("dns", Tree.seq [Tree.str "8.8.8.8"])])])] :=
  ⟨rfl, C2_canonical_idem
    [("services", Tree.map [("web", Tree.map [("dns", Tree.str "8.8.8.8")])])] false
    [("services", Tree.map [("web", Tree.map [("dns", Tree.seq [Tree.str "8.8.8.8"])])])]
    rfl⟩

/-!
## `modelNamedMappingsScope.cachedMapping` (src/loader/namedmappings.go 390-425)
-/

/-- A shallow embedding of an `onCacheMiss` computation: it either returns
its `(string, bool)` result (embedded as `Option String`) or performs a
named-mapping lookup and continues with the looked-up result. -/
inductive Comp where
  | ret : Option String → Comp
  | look : String → String → (Option String → Comp) → Comp

/-- The nested Go map `caches : map[string]map[string]*string`: `some v`
is a cache entry (`v = none` embeds the stored nil pointer), `none` means
absent. -/
abbrev Caches := String → String → Option (Option String)

/-- The nested Go map `cycleTracker : map[string]map[string]bool`. -/
abbrev Tracker := String → String → Bool

/-- Write one tracker entry. -/
def setTrk (t : Tracker) (name key : String) (b : Bool) : Tracker :=
  fun n k => if n = name ∧ k = key then b else t n k

/-- Write one cache entry. -/
def setCache (c : Caches) (name key : String) (v : Option String) : Caches :=
  fun n k => if n = name ∧ k = key then some v else c n k

mutual

/-- Run an `onCacheMiss` computation against the scope state; every
lookup goes through `cachedMapping`. Recursion depth is bounded by fuel
(the distinguished error "interpreter fuel exhausted" is an artifact of
the bounded embedding, never produced by the Go code). -/
def runCM : Nat → (String → String → Comp) → Comp → Caches → Tracker →
    Except String (Option String × Caches × Tracker)
  | _, _, .ret v, caches, tracker => .ok (v, caches, tracker)
  | 0, _, .look _ _ _, _, _ => .error "interpreter fuel exhausted"
  | fuel + 1, defs, .look n k cont, caches, tracker =>
      match cachedMapping fuel defs n k caches tracker with
      | .error e => .error e
      | .ok (v, caches1, tracker1) => runCM fuel defs (cont v) caches1 tracker1

/-- `modelNamedMappingsScope.cachedMapping` (src/loader/namedmappings.go):
return the cache entry if present; panic with
`"lookup cycle detected: name[key]"` if the tracker flags `(name, key)`;
otherwise mark the pair, run the computation for it, unmark the pair
(`defer delete`), cache the result (a nil pointer for a failed lookup)
and return it. -/
def cachedMapping : Nat → (String → String → Comp) → String → String →
    Caches → Tracker → Except String (Option String × Caches × Tracker)
  | fuel, defs, name, key, caches, tracker =>
      match caches name key with
      | some v => .ok (v, caches, tracker)
      | none =>
          if tracker name key then
            .error ("lookup cycle detected: " ++ name ++ "[" ++ key ++ "]")
          else
            match fuel with
            | 0 => .error "interpreter fuel exhausted"
            | fuel + 1 =>
                match runCM fuel defs (defs name key) caches
                    (setTrk tracker name key true) with
                | .error e => .error e
                | .ok (v, caches2, tracker2) =>
                    .ok (v, setCache caches2 name key v,
                      setTrk tracker2 name key false)

end

mutual

/-- Reference interpreter: the set of in-progress lookups is an explicit
stack of `(name, key)` pairs, pushed on entry and implicitly popped on
return. -/
def runStk : Nat → (String → String → Comp) → Comp → Caches →
    List (String × String) → Except String (Option String × Caches)
  | _, _, .ret v, caches, _ => .ok (v, caches)
  | 0, _, .look _ _ _, _, _ => .error "interpreter fuel exhausted"
  | fuel + 1, defs, .look n k cont, caches, stk =>
      match lookupStk fuel defs n k caches stk with
      | .error e => .error e
      | .ok (v, caches1) => runStk fuel defs (cont v) caches1 stk

/-- The stack-based counterpart of `cachedMapping`: a lookup of a pair
already on the stack is exactly a cycle. -/
def lookupStk : Nat → (String → String → Comp) → String → String →
    Caches → List (String × String) → Except String (Option String × Caches)
  | fuel, defs, name, key, caches, stk =>
      match caches name key with
      | some v => .ok (v, caches)
      | none =>
          if (name, key) ∈ stk then
            .error ("lookup cycle detected: " ++ name ++ "[" ++ key ++ "]")
          else
            match fuel with
            | 0 => .error "interpreter fuel exhausted"
            | fuel + 1 =>
                match runStk fuel defs (defs name key) caches
                    ((name, key) :: stk) with
                | .error e => .error e
                | .ok (v, caches2) => .ok (v, setCache caches2 name key v)

end

/-- The tracker induced by a stack: a pair is flagged exactly when it is
on the stack. -/
def memTrk (stk : List (String × String)) : Tracker :=
  fun n k => decide ((n, k) ∈ stk)

theorem setTrk_push (name key : String) (stk : List (String × String)) :
    setTrk (memTrk stk) name key true = memTrk ((name, key) :: stk) := by
  funext n k
  rw [setTrk, memTrk, memTrk]
  by_cases h : n = name ∧ k = key
  · obtain ⟨rfl, rfl⟩ := h
    simp
  · rw [if_neg h]
    simp only [List.mem_cons, decide_eq_decide]
    constructor
    · exact Or.inr
    · rintro (h1 | h1)
      · exact absurd (Prod.mk.inj h1) h
      · exact h1

theorem setTrk_pop (name key : String) (stk : List (String × String))
    (h : (name, key) ∉ stk) :
    setTrk (memTrk ((name, key) :: stk)) name key false = memTrk stk := by
  funext n k
  rw [setTrk, memTrk, memTrk]
  by_cases h0 : n = name ∧ k = key
  · obtain ⟨rfl, rfl⟩ := h0
    simp [h]
  · rw [if_neg h0]
    simp only [List.mem_cons, decide_eq_decide]
    constructor
    · rintro (h1 | h1)
      · exact absurd (Prod.mk.inj h1) h0
      · exact h1
    · exact Or.inr

theorem cm_stk_equiv : ∀ (fuel : Nat) (defs : String → String → Comp),
    (∀ (c : Comp) (caches : Caches) (stk : List (String × String)),
      runCM fuel defs c caches (memTrk stk) =
        (runStk fuel defs c caches stk).map (fun p => (p.1, p.2, memTrk stk))) ∧
    (∀ (name key : String) (caches : Caches) (stk : List (String × String)),
      cachedMapping fuel defs name key caches (memTrk stk) =
        (lookupStk fuel defs name key caches stk).map
          (fun p => (p.1, p.2, memTrk stk))) := by
  intro fuel
  induction fuel with
  | zero =>
      intro defs
      constructor
      · intro c caches stk
        cases c with
        | ret v => rfl
        | look n k cont => rfl
      · intro name key caches stk
        rw [cachedMapping, lookupStk]
        cases hc : caches name key with
        | some v => simp only [hc]; rfl
        | none =>
            simp only [hc]
            by_cases hmem : (name, key) ∈ stk
            · rw [if_pos (show memTrk stk name key = true by simp [memTrk, hmem]),
                if_pos hmem]
              rfl
            · rw [if_neg (show ¬ memTrk stk name key = true by simp [memTrk, hmem]),
                if_neg hmem]
              rfl
  | succ f ih =>
      intro defs
      obtain ⟨ihRun, ihCached⟩ := ih defs
      constructor
      · intro c caches stk
        cases c with
        | ret v => rfl
        | look n k cont =>
            rw [runCM, runStk, ihCached n k caches stk]
            cases hl : lookupStk f defs n k caches stk with
            | error e => simp only [hl]; rfl
            | ok p =>
                obtain ⟨v, caches1⟩ := p
                simp only [hl]
                exact ihRun (cont v) caches1 stk
      · intro name key caches stk
        rw [cachedMapping, lookupStk]
        cases hc : caches name key with
        | some v => simp only [hc]; rfl
        | none =>
            simp only [hc]
            by_cases hmem : (name, key) ∈ stk
            · rw [if_pos (show memTrk stk name key = true by simp [memTrk, hmem]),
                if_pos hmem]
              rfl
            · rw [if_neg (show ¬ memTrk stk name key = true by simp [memTrk, hmem]),
                if_neg hmem]
              rw [setTrk_push name key stk,
                ihRun (defs name key) caches ((name, key) :: stk)]
              cases hres : runStk f defs (defs name key) caches ((name, key) :: stk) with
              | error e => simp only [hres]; rfl
              | ok p =>
                  obtain ⟨v, caches2⟩ := p
                  simp only [hres, Except.map]
                  rw [setTrk_pop name key stk hmem]

/-- Scenario lookup bodies: `labels[TESTVAR]` reads `containerEnv[TESTVAR]`,
which is a plain value — the spec's valid same-key-different-name chain. -/
def demoDefs : String → String → Comp := fun name key =>
  if name = "labels" ∧ key = "TESTVAR" then
    .look "containerEnv" "TESTVAR" (fun v => .ret v)
  else if name = "containerEnv" ∧ key = "TESTVAR" then .ret (some "1")
  else .ret none

/-- Scenario lookup bodies: `containerEnv[TESTVAR]` reads itself. -/
def selfDefs : String → String → Comp := fun name key =>
  if name = "containerEnv" ∧ key = "TESTVAR" then
    .look "containerEnv" "TESTVAR" (fun v => .ret v)
  else .ret none

/-- Scenario lookup bodies: `a[X]` reads `b[X]`, which reads `a[X]` back. -/
def chainDefs : String → String → Comp := fun name key =>
  if name = "a" ∧ key = "X" then .look "b" "X" (fun v => .ret v)
  else if name = "b" ∧ key = "X" then .look "a" "X" (fun v => .ret v)
  else .ret none

/-- The empty cache state. -/
def emptyCaches : Caches := fun _ _ => none

/-- C1: `cachedMapping` with the per-pair cycle tracker is extensionally
the stack interpreter in which a lookup fails with
`"lookup cycle detected: name[key]"` exactly when the same `(name, key)`
pair is re-entered while its own computation is still on the stack: the
tracker state equals stack membership throughout (first conjunct); a
cache-missing lookup of a pair on the stack raises exactly that error
(second); a pair not on the stack proceeds — in particular the same key
under a different in-progress name is not a cycle (third, and the
`labels[TESTVAR] → containerEnv[TESTVAR]` scenario); a self-reference
fails with the pair's own error (fifth); and in the chain
`a[X] → b[X] → a[X]` the reported pair is `a[X]`, the first one to be
re-entered (sixth). -/
theorem C1_cachedMapping_cycle :
    (∀ (fuel : Nat) (defs : String → String → Comp) (name key : String)
        (caches : Caches) (stk : List (String × String)),
      cachedMapping fuel defs name key caches (memTrk stk) =
        (lookupStk fuel defs name key caches stk).map
          (fun p => (p.1, p.2, memTrk stk))) ∧
    (∀ (fuel : Nat) (defs : String → String → Comp) (name key : String)
        (caches : Caches) (stk : List (String × String)),
      caches name key = none → (name, key) ∈ stk →
      lookupStk fuel defs name key caches stk =
        .error ("lookup cycle detected: " ++ name ++ "[" ++ key ++ "]")) ∧
    (∀ (fuel : Nat) (defs : String → String → Comp) (name key : String)
        (caches : Caches) (stk : List (String × String)) (v : Option String),
      caches name key = none → (name, key) ∉ stk → defs name key = .ret v →
      lookupStk (fuel + 1) defs name key caches stk =
        .ok (v, setCache caches name key v)) ∧
    (lookupStk 3 demoDefs "labels" "TESTVAR" emptyCaches []).map Prod.fst =
      .ok (some "1") ∧
    lookupStk 2 selfDefs "containerEnv" "TESTVAR" emptyCaches [] =
      .error "lookup cycle detected: containerEnv[TESTVAR]" ∧
    lookupStk 4 chainDefs "a" "X" emptyCaches [] =
      .error "lookup cycle detected: a[X]" := by
  refine ⟨fun fuel defs => (cm_stk_equiv fuel defs).2, ?_, ?_, ?_, ?_, ?_⟩
  · intro fuel defs name key caches stk hc hmem
    cases fuel with
    | zero =>
        rw [lookupStk.eq_1]
        simp only [hc]
        rw [if_pos hmem]
    | succ f =>
        rw [lookupStk.eq_2]
        simp only [hc]
        rw [if_pos hmem]
  · intro fuel defs name key caches stk v hc hmem hdefs
    rw [lookupStk.eq_2]
    simp only [hc]
    rw [if_neg hmem, hdefs, runStk]
  · rfl
  · rfl
  · rfl

/-- C1 witness: a cache-missing self-lookup with `containerEnv[TESTVAR]`
already on the stack fails with exactly the formatted cycle error. -/
theorem C1_cachedMapping_cycle_witness :
    lookupStk 5 selfDefs "containerEnv" "TESTVAR" emptyCaches
        [("containerEnv", "TESTVAR")] =
      .error "lookup cycle detected: containerEnv[TESTVAR]" :=
  C1_cachedMapping_cycle.2.1 5 selfDefs "containerEnv" "TESTVAR" emptyCaches
    [("containerEnv", "TESTVAR")] rfl (by simp)

end CG
